import Mathlib

/-!
Verification of the MegaByte hierarchical autoregressive model
(`bla_gpt/megabyte.py`).

Tensors are shallowly embedded as a row-major flat data list together with a
shape list, mirroring PyTorch's contiguous layout.  All `einops` rearranges
used by the source (`pack_one`, `unpack_one`, `"... r d -> ... (r d)"`,
`"b ... d -> b (...) d"`, `"b m (n d) -> (b m) n d"`, `"b ... c -> b (...) c"`)
are pure reshapes of a contiguous tensor, so they only change the shape field.

Numeric layers whose values do not matter for the verified layout properties
(the per-stage `Transformer`, the `LayerNorm`/`Linear` row maps inside the
coarse token embedders, the `nn.Linear` projections, log-sum-exp inside
`F.cross_entropy`) are kept as parameters of the model record, each with its
shape contract; the surrounding index plumbing is translated literally from
the source.
-/

set_option autoImplicit false

namespace MegaByteSpec

/-! ### List chunking helpers (row extraction from row-major data) -/

/-- Fuel-driven chunking worker (structural recursion so that the kernel can
evaluate it inside `decide`). -/
def chunkFuel {α : Type} (k : ℕ) : ℕ → List α → List (List α)
  | 0, _ => []
  | _ + 1, [] => []
  | f + 1, x :: xs => ((x :: xs).take k) :: chunkFuel k f ((x :: xs).drop k)

/-- Split a list into consecutive chunks of size `k` (the final chunk may be
shorter).  Returns `[]` when `k = 0`. -/
def chunkList {α : Type} (k : ℕ) (l : List α) : List (List α) :=
  if k = 0 then [] else chunkFuel k l.length l

/-! ### Tensors: a shape together with row-major flat data -/

/-- A tensor in row-major (C-contiguous) layout, as produced by PyTorch for
the contiguous tensors flowing through `MegaByte.forward`. -/
structure T (α : Type) where
  shape : List ℕ
  data : List α
deriving DecidableEq

/-- Well-formedness: the flat data has exactly as many entries as the shape
prescribes. -/
def Wf {α : Type} (t : T α) : Prop := t.data.length = t.shape.prod

instance {α : Type} (t : T α) : Decidable (Wf t) := by unfold Wf; infer_instance

/-- Size of the last axis. -/
def lastLen {α : Type} (t : T α) : ℕ := t.shape.getD (t.shape.length - 1) 0

/-- All last-axis rows of a tensor, in row-major order. -/
def rowsT {α : Type} (t : T α) : List (List α) := chunkList (lastLen t) t.data

/-- Row number `i` (row-major order over all leading axes). -/
def rowAt {α : Type} (t : T α) (i : ℕ) : List α := (rowsT t).getD i []

/-- Number of last-axis rows per index of the leading (batch) axis. -/
def rowsPerBatch {α : Type} (t : T α) : ℕ := ((t.shape.drop 1).dropLast).prod

/-- Rows belonging to batch index `bi`. -/
def batchRows {α : Type} (t : T α) (bi : ℕ) : List (List α) :=
  ((rowsT t).drop (bi * rowsPerBatch t)).take (rowsPerBatch t)

/-- Reshape: shapes change, row-major data does not.  This is what every
einops rearrange used by the source (`pack_one`, `unpack_one`,
`"... r d -> ... (r d)"`, `"b ... d -> b (...) d"`, `"b m (n d) -> (b m) n d"`,
`"b ... c -> b (...) c"`, `"b -> b 1"`, `"b d -> b 1 d"`) does to a
contiguous tensor. -/
def reshapeT {α : Type} (sh : List ℕ) (t : T α) : T α := ⟨sh, t.data⟩

/-- Tensor filled with one constant value (`torch.full_like` and the constant
blocks produced by `F.pad`). -/
def constT {α : Type} (sh : List ℕ) (v : α) : T α := ⟨sh, List.replicate sh.prod v⟩

/-- Basic slice `t[..., a:b, ...]` along axis `i` (Python slice semantics with
the stop index clipped at the axis size). -/
def sliceDim {α : Type} (i a b : ℕ) (t : T α) : T α :=
  let d := t.shape.getD i 0
  let len := min b d - a
  let inner := (t.shape.drop (i + 1)).prod
  ⟨t.shape.set i len,
    ((chunkList (d * inner) t.data).map
      (fun blk => ((((chunkList inner blk).drop a).take len)).flatten)).flatten⟩

/-- Compatibility condition for `torch.cat` along axis `i`: every other axis
must agree. -/
def CatOk {α : Type} (i : ℕ) (t u : T α) : Prop := t.shape.set i 0 = u.shape.set i 0

instance {α : Type} (i : ℕ) (t u : T α) : Decidable (CatOk i t u) := by
  unfold CatOk; infer_instance

/-- Blocks of size `k` of a well-formed tensor's data, also correct when the
tensor has a zero-sized axis (then every one of the `count` blocks is empty). -/
def blocksOf {α : Type} (count k : ℕ) (l : List α) : List (List α) :=
  if k = 0 then List.replicate count [] else chunkList k l

/-- Concatenation `torch.cat((t, u), dim=i)` (meaningful when `CatOk i t u`). -/
def catDim {α : Type} (i : ℕ) (t u : T α) : T α :=
  let dt := t.shape.getD i 0
  let du := u.shape.getD i 0
  let inner := (t.shape.drop (i + 1)).prod
  let outer := (t.shape.take i).prod
  ⟨t.shape.set i (dt + du),
    ((blocksOf outer (dt * inner) t.data).zipWith (· ++ ·)
      (blocksOf outer (du * inner) u.data)).flatten⟩

/-- Shape agreement for elementwise addition (the adds in the source always
see equal shapes; a mismatch would be a PyTorch broadcast error). -/
def AddOk {α : Type} (t u : T α) : Prop := t.shape = u.shape

instance {α : Type} (t u : T α) : Decidable (AddOk t u) := by
  unfold AddOk; infer_instance

/-- Elementwise addition of same-shaped tensors. -/
def addT {α : Type} [Add α] (t u : T α) : T α :=
  ⟨t.shape, t.data.zipWith (· + ·) u.data⟩

/-- Pad the last axis on the right with `p` copies of `v`
(`F.pad(x, (0, p), value=v)`). -/
def padLastRight {α : Type} (p : ℕ) (v : α) (t : T α) : T α :=
  catDim (t.shape.length - 1) t (constT (t.shape.set (t.shape.length - 1) p) v)

/-- Pad axis `i` at the front with one block of `v`
(`F.pad(x, (0, 0, 1, 0), value=v)` pads the second-to-last axis). -/
def padDimFrontOne {α : Type} (i : ℕ) (v : α) (t : T α) : T α :=
  catDim i (constT (t.shape.set i 1) v) t

/-- Apply a row map to every last-axis row; `c` is the output row length
(an `nn.Linear`/`LayerNorm` stack operating on the last axis). -/
def mapLastRows {α β : Type} (c : ℕ) (f : List α → List β) (t : T α) : T β :=
  ⟨t.shape.set (t.shape.length - 1) c,
    ((chunkList (lastLen t) t.data).map f).flatten⟩

/-- Token embedding lookup (`nn.Embedding`): each scalar id becomes a vector
of `fd` features appended as a new trailing axis. -/
def embedMap (fd : ℕ) (f : ℤ → List ℚ) (t : T ℤ) : T ℚ :=
  ⟨t.shape ++ [fd], (t.data.map f).flatten⟩

/-- Merge the two trailing axes (`rearrange "... m n -> ... (m n)"` and
`"... r d -> ... (r d)"`). -/
def mergeLast2 {α : Type} (t : T α) : T α :=
  reshapeT (t.shape.dropLast.dropLast ++
    [t.shape.getD (t.shape.length - 2) 1 * t.shape.getD (t.shape.length - 1) 1]) t

/-- Collapse all leading axes (`pack_one(t, "* n d")`). -/
def packStar {α : Type} (t : T α) : T α :=
  reshapeT [(t.shape.dropLast.dropLast).prod,
    t.shape.getD (t.shape.length - 2) 0, t.shape.getD (t.shape.length - 1) 0] t

/-- Restore leading axes recorded by `pack_one` (`unpack_one(t, ps, "* n d")`). -/
def unpackStar {α : Type} (outer : List ℕ) (t : T α) : T α :=
  reshapeT (outer ++ t.shape.drop 1) t

/-- Flatten all middle axes (`rearrange "b ... c -> b (...) c"`). -/
def flattenMiddle {α : Type} (t : T α) : T α :=
  reshapeT [t.shape.getD 0 0, ((t.shape.drop 1).dropLast).prod,
    t.shape.getD (t.shape.length - 1) 0] t

/-- In-place shifted self-assignment `x[:, :-1] = x[:, 1:]` along axis 1,
as executed on `ids` at the top of `forward` (the forward elementwise copy
of overlapping storage realizes exactly this left shift). -/
def shiftAssignDim1 {α : Type} (t : T α) : T α :=
  let d1 := t.shape.getD 1 0
  let inner := (t.shape.drop 2).prod
  ⟨t.shape,
    ((chunkList (d1 * inner) t.data).map
      (fun blk =>
        let sub := chunkList inner blk
        ((sub.drop 1) ++ (sub.drop (d1 - 1))).flatten)).flatten⟩

/-- Caller-visible effect of `ids = ids[:, :-1]; ids[:, :-1] = ids[:, 1:]` on
the caller's tensor: the assignment writes through the slice view, so blocks
`0 .. d1-3` along axis 1 of the caller's storage receive the values of blocks
`1 .. d1-2`, while the last two blocks are untouched. -/
def mutateSetitemShift {α : Type} (t : T α) : T α :=
  let d1 := t.shape.getD 1 0
  let inner := (t.shape.drop 2).prod
  ⟨t.shape,
    ((chunkList (d1 * inner) t.data).map
      (fun blk =>
        let sub := chunkList inner blk
        (((sub.drop 1).take (d1 - 2)) ++ (sub.drop (d1 - 2))).flatten)).flatten⟩

/-- Transpose of the two trailing axes of a rank-3 tensor
(`rearrange "b n c -> b c n"`). -/
def transpose23 (t : T ℚ) : T ℚ :=
  let n := t.shape.getD 1 0
  let c := t.shape.getD 2 0
  ⟨[t.shape.getD 0 0, c, n],
    ((chunkList (n * c) t.data).map
      (fun blk =>
        ((List.range c).map (fun j => (chunkList c blk).map (fun r => r.getD j 0))).flatten)).flatten⟩

/-- Extraction `logits[(slice(None), *((0,) * (logits.ndim - 2)), slice(None))]`:
for each batch element, the row at index `(0, ..., 0)` of all middle axes,
which in row-major order is the first last-axis row of the batch block. -/
def startExtract {α : Type} (t : T α) : T α :=
  ⟨[t.shape.getD 0 0, lastLen t],
    ((chunkList ((t.shape.drop 1).prod) t.data).map (fun blk => blk.take (lastLen t))).flatten⟩

/-! ### Helper functions of the source file -/

/-- Source helper `reduce_mult`: product of a list with initial value 1. -/
def reduceMult (nums : List ℕ) : ℕ := nums.foldl (fun x y => x * y) 1

/-- Source helper `remainder_to_mult`: how much to add to `num` to reach the
next multiple of `mult`. -/
def remainderToMult (num mult : ℕ) : ℕ := (mult - num % mult) % mult

/-- Source `token_shift` (from RWKV): split the feature axis in two with
`t.chunk(2, dim=-1)` (first chunk of size `⌈d/2⌉`), shift the second chunk one
step along the sequence axis via `F.pad(t_shift, (0, 0, 1, -1))`, and
concatenate back along the feature axis. -/
def tokenShift (t : T ℚ) : T ℚ :=
  let d := lastLen t
  let h := (d + 1) / 2
  let tLo := sliceDim (t.shape.length - 1) 0 h t
  let tHi := sliceDim (t.shape.length - 1) h d t
  let padded := padDimFrontOne (t.shape.length - 2) 0 tHi
  let trimmed := sliceDim (t.shape.length - 2) 0 (t.shape.getD (t.shape.length - 2) 0) padded
  catDim (t.shape.length - 1) tLo trimmed

/-- Number of logits kept by `top_k`: `max(int((1 - thres) * num_logits), 1)`.
For `thres ≤ 1` the float truncation `int(...)` is the floor of a nonnegative
rational. -/
def topkKeepCount (thres : ℚ) (n : ℕ) : ℕ := max (Int.toNat ⌊(1 - thres) * (n : ℚ)⌋) 1

/-- Indices of a row sorted by decreasing value, ties broken towards the lower
index (the order `torch.topk` reports on CPU); the ordering is a strict total
order, so any correct sort produces this unique list. -/
def topkRowIdx (v : List ℚ) : List ℕ :=
  List.insertionSort (fun a b =>
    v.getD b 0 < v.getD a 0 ∨ (v.getD a 0 = v.getD b 0 ∧ a ≤ b)) (List.range v.length)

/-- One row of `top_k`: entries at the `k` top indices keep their value
(`probs.scatter_(1, ind, val)` over a `full_like(..., -inf)` tensor), every
other entry is `-∞` (the bottom element of `WithBot ℚ`). -/
def topkRow (k : ℕ) (v : List ℚ) : List (WithBot ℚ) :=
  let keep := (topkRowIdx v).take k
  (List.range v.length).map (fun j => if j ∈ keep then ((v.getD j 0 : ℚ) : WithBot ℚ) else ⊥)

/-- Source `top_k(logits, thres)` on a rank-2 logits tensor (the shape it is
applied to inside `generate`; `scatter_` uses `dim=1`). -/
def topK (thres : ℚ) (t : T ℚ) : T (WithBot ℚ) :=
  let k := topkKeepCount thres (lastLen t)
  ⟨t.shape, ((chunkList (lastLen t) t.data).map (fun r => topkRow k r)).flatten⟩

/-! ### The model record -/

/-- Python-level failures `forward`/`generate` can raise. -/
inductive PyErr
  | typeError
  | indexError
  | catError
  | addError
  | ndimAssert
  | firstDimAssert
  | restDimsAssert
deriving DecidableEq

/-- A learned layer acting on last-axis rows (an `nn.Linear`, possibly with
`LayerNorm`s around it); `outLen` is its output feature count, `fn` its
numeric action on one row. -/
structure RowFn where
  outLen : ℕ
  fn : List ℚ → List ℚ

/-- Contract of a row map: every output row has length `outLen`. -/
def RowFn.Ok (f : RowFn) : Prop := ∀ l, (f.fn l).length = f.outLen

/-- An `nn.Embedding`: each id becomes a feature vector of length `dim`. -/
structure EmbFn where
  dim : ℕ
  fn : ℤ → List ℚ

/-- Contract of an embedding: every feature vector has length `dim`. -/
def EmbFn.Ok (e : EmbFn) : Prop := ∀ z, (e.fn z).length = e.dim

/-- The `MegaByte` module.  Structural configuration (`dims`, `maxSeqLen`,
`padId`, `numTokens`) is explicit; learned numeric layers are parameters:
`startTokens` (one learned vector per stage), `fineEmb` (the direct
`nn.Embedding` of `token_embs[0]`), `coarseEmbs` (for `token_embs[1:]`, each
an embedding plus the `LayerNorm → Linear → LayerNorm` row stack that follows
the per-patch flatten), `transformers` (the per-stage `Transformer`, a
shape-preserving map), `projLinears` (the `nn.Linear` inside each
`to_next_transformer_projections` entry except the final `nn.Identity`),
`toLogits` (the final `nn.Linear`), and `lse` (log-sum-exp, the numeric core
of `F.cross_entropy`). -/
structure MBModel where
  numTokens : ℕ
  dims : List ℕ
  maxSeqLen : List ℕ
  padId : ℤ
  startTokens : List (List ℚ)
  fineEmb : EmbFn
  coarseEmbs : List (EmbFn × RowFn)
  transformers : List (T ℚ → T ℚ)
  projLinears : List RowFn
  toLogits : RowFn
  lse : List ℚ → ℚ

/-- The per-stage projection modules, mirroring the `zip_longest` construction
in `__init__`: a `Sequential(Rearrange, Linear, Rearrange)` for every stage
that has a next stage, and `nn.Identity()` for the final stage. -/
def MBModel.projPlan (M : MBModel) : List (Option (RowFn × ℕ)) :=
  ((M.projLinears.zip (M.maxSeqLen.drop 1)).map (fun p => some p)) ++ [none]

/-- The projection `Sequential(Rearrange("b ... d -> b (...) d"),
Linear(h_dim, next_h_dim * next_seq_len),
Rearrange("b m (n d) -> (b m) n d", n=next_seq_len))`. -/
def mkProj (lin : RowFn) (nsl : ℕ) (t : T ℚ) : T ℚ :=
  let u := mapLastRows lin.outLen lin.fn (flattenMiddle t)
  reshapeT [u.shape.getD 0 0 * u.shape.getD 1 0, nsl, lin.outLen / nsl] u

/-- Apply a stage's projection module (identity for the final stage). -/
def applyProj (pj : Option (RowFn × ℕ)) (t : T ℚ) : T ℚ :=
  match pj with
  | none => t
  | some p => mkProj p.1 p.2 t

/-- The slice `attended[..., :-1, :]` at line 638: drop the LAST position of
the second-to-last axis (the start-token position at index 0 is kept). -/
def dropLastPos (att : T ℚ) : T ℚ :=
  sliceDim (att.shape.length - 2) 0 (att.shape.getD (att.shape.length - 2) 0 - 1) att

/-- The inter-stage representation as computed by the source (lines 636-638):
project `attended[..., :-1, :]`. -/
def nextStageRepr (lin : RowFn) (nsl : ℕ) (att : T ℚ) : T ℚ :=
  mkProj lin nsl (dropLastPos att)

/-- Modelled from the spec's words (claim C3), for comparison only: the same
projection applied after dropping the START-token position
(`attended[..., 1:, :]`) instead of the last position. -/
def nextStageReprSpec (lin : RowFn) (nsl : ℕ) (att : T ℚ) : T ℚ :=
  mkProj lin nsl
    (sliceDim (att.shape.length - 2) 1 (att.shape.getD (att.shape.length - 2) 0) att)

/-- Entry `(i, j)` of a rank-2 integer tensor in row-major layout. -/
def entry2 (t : T ℤ) (i j : ℕ) : ℤ :=
  t.data.getD (i * t.shape.getD 1 0 + j) 0

/-! ### The ids reconstruction at the top of `forward` (lines 537-539) -/

/-- Lines 537-539 of the source: `ids = ids[:, :-1]`, the in-place shift
`ids[:, :-1] = ids[:, 1:]`, then `ids = torch.cat((ids, targets[:, -1:]),
dim=-1)`.  Raises like Python: an `IndexError` for rank < 2 inputs and a
`RuntimeError` when the concatenation shapes disagree. -/
def reconstructIds (ids targets : T ℤ) : Except PyErr (T ℤ) :=
  if ids.shape.length < 2 ∨ targets.shape.length < 2 then .error .indexError else
  let ids1 := sliceDim 1 0 (ids.shape.getD 1 0 - 1) ids
  let ids2 := shiftAssignDim1 ids1
  let tl := sliceDim 1 (targets.shape.getD 1 0 - 1) (targets.shape.getD 1 0) targets
  if CatOk (ids2.shape.length - 1) ids2 tl then .ok (catDim (ids2.shape.length - 1) ids2 tl)
  else .error .catError

/-! ### The token-embedding loop (lines 574-595) -/

/-- Iterations `ind = 1, ..., num_stages - 1` of the token-embedding loop:
each coarse `token_embs[ind]` embeds the current `ids`, merges the trailing
patch axis with the feature axis (`Rearrange "... r d -> ... (r d)"`), and
applies its `LayerNorm → Linear → LayerNorm` stack; afterwards `ids` merges
its two trailing axes (`rearrange "... m n -> ... (m n)"`).  Returns the
final `ids` and the produced stage tensors, coarsest first (the source
builds this order with `tokens_at_stages.insert(0, tokens)`). -/
def buildAux : List (EmbFn × RowFn) → T ℤ → T ℤ × List (T ℚ)
  | [], ids => (ids, [])
  | (e, r) :: rest, ids =>
      let tk := mapLastRows r.outLen r.fn (mergeLast2 (embedMap e.dim e.fn ids))
      let res := buildAux rest (mergeLast2 ids)
      (res.1, res.2 ++ [tk])

/-- The whole token-embedding loop: iteration `ind = 0` embeds the fully
nested ids directly with `token_embs[0]` (and skips the merge), the rest is
`buildAux`.  Returns the final merged `ids` (later used as labels) and
`tokens_at_stages`, coarsest stage first. -/
def buildTokens (M : MBModel) (ids : T ℤ) : T ℤ × List (T ℚ) :=
  let t0 := embedMap M.fineEmb.dim M.fineEmb.fn ids
  let res := buildAux M.coarseEmbs ids
  (res.1, res.2 ++ [t0])

/-! ### The per-stage loop of `forward` (lines 599-638) -/

/-- One iteration of the stage loop: `pack_one(stage_tokens, "* n d")`,
prepend the repeated start token along the sequence axis, add the previous
stage's representation front-padded by one zero position, run the stage
transformer, `unpack_one`, and project `attended[..., :-1, :]` (all positions
except the last) for the next stage.  Returns the unpacked `attended` and the
next `prev_stage_tokens_repr`. -/
def stageStep (st : List ℚ) (tok : T ℚ) (tr : T ℚ → T ℚ) (pj : Option (RowFn × ℕ))
    (prev : Option (T ℚ)) : Except PyErr (T ℚ × T ℚ) :=
  let packed := packStar tok
  let bN := packed.shape.getD 0 0
  let startT : T ℚ := ⟨[bN, 1, st.length], (List.replicate bN st).flatten⟩
  if CatOk 1 startT packed then
    let stageTokens := catDim 1 startT packed
    let summed : Except PyErr (T ℚ) :=
      match prev with
      | none => .ok stageTokens
      | some p =>
          let pp := padDimFrontOne 1 0 p
          if AddOk stageTokens pp then .ok (addT stageTokens pp) else .error .addError
    match summed with
    | .error e => .error e
    | .ok sTok =>
        let att := tr sTok
        let attU := unpackStar tok.shape.dropLast.dropLast att
        .ok (attU, applyProj pj (dropLastPos attU))
  else .error .catError

/-- The stage loop, iterating `zip(start_tokens, tokens_at_stages,
transformers, to_next_transformer_projections)`; returns the final
`attended`. -/
def mainLoop : List (List ℚ × (T ℚ × ((T ℚ → T ℚ) × Option (RowFn × ℕ)))) →
    Option (T ℚ) → T ℚ → Except PyErr (T ℚ)
  | [], _, att => .ok att
  | (st, tok, tr, pj) :: rest, prev, _ =>
      match stageStep st tok tr pj prev with
      | .error e => .error e
      | .ok (attU, nextPrev) => mainLoop rest (some nextPrev) attU

/-! ### The empty-input path `forward_empty` (lines 514-531) -/

/-- Stage loop of `forward_empty`: each stage processes only its start token
(summed with the first position of the previous stage's projected
representation), and the projection is applied to the full transformer
output. -/
def emptyLoop : List (List ℚ × ((T ℚ → T ℚ) × Option (RowFn × ℕ))) →
    Option (T ℚ) → T ℚ → ℕ → T ℚ
  | [], _, lastTok, _ => lastTok
  | (st, tr, pj) :: rest, prev, _, bsz =>
      let tokens : T ℚ := ⟨[bsz, 1, st.length], (List.replicate bsz st).flatten⟩
      let tokens2 :=
        match prev with
        | none => tokens
        | some p => addT tokens (sliceDim 1 0 (tokens.shape.getD 1 0) p)
      let att := tr tokens2
      emptyLoop rest (some (applyProj pj att)) att bsz

/-- Source `forward_empty(batch_size)`. -/
def forwardEmptyM (M : MBModel) (bsz : ℕ) : T ℚ :=
  mapLastRows M.toLogits.outLen M.toLogits.fn
    (emptyLoop (M.startTokens.zip (M.transformers.zip M.projPlan)) none ⟨[], []⟩ bsz)

/-! ### Cross-entropy (lines 658-660) -/

/-- The numeric content of `F.cross_entropy(input, target, ignore_index=pad)`
for a rank-3 input `(batch, classes, positions)`: mean over the non-ignored
positions of `logsumexp(column) - column[target]`.  The log-sum-exp is the
abstract `lse` parameter. -/
def ceLoss (lse : List ℚ → ℚ) (input : T ℚ) (target : T ℤ) (ignoreIdx : ℤ) : ℚ :=
  let c := input.shape.getD 1 0
  let n := input.shape.getD 2 0
  let mats := (chunkList (c * n) input.data).map (chunkList n)
  let tgts := chunkList (target.shape.getD 1 0) target.data
  let pairs := (mats.zip tgts).flatMap (fun mt =>
    (List.range n).map (fun j => ((mt.1.map (fun r => r.getD j 0)), mt.2.getD j 0)))
  let nonIgnored := pairs.filter (fun p => decide (p.2 ≠ ignoreIdx))
  (nonIgnored.map (fun p => lse p.1 - p.1.getD p.2.toNat 0)).sum / (nonIgnored.length : ℚ)

/-- Lines 658-660 of `forward`: transpose the flattened logits to
`(b, classes, positions)`, drop the final position (`preds[..., :-1]`), and
run `F.cross_entropy` against the flattened final ids with
`ignore_index=self.pad_id`. -/
def computeLoss3 (M : MBModel) (logits : T ℚ) (ids : T ℤ) : ℚ :=
  let preds := transpose23 logits
  let predsSliced := sliceDim 2 0 (preds.shape.getD 2 0 - 1) preds
  let labels := reshapeT [ids.shape.getD 0 0, (ids.shape.drop 1).prod] ids
  ceLoss M.lse predsSliced labels M.padId

/-! ### The full `forward` (lines 533-662) -/

/-- Result of a `forward` call: the no-loss path and the empty path return
logits only; the loss path returns the logits/loss pair. -/
inductive MBOut
  | logitsOnly (t : T ℚ)
  | withLoss (t : T ℚ) (loss : ℚ)
deriving DecidableEq

/-- Source `MegaByte.forward(ids, targets, return_loss)`, translated
line by line. -/
def forwardM (M : MBModel) (ids0 targets : T ℤ) (returnLoss : Bool) : Except PyErr MBOut :=
  match reconstructIds ids0 targets with
  | .error e => .error e
  | .ok ids3 =>
    let batch := ids3.shape.getD 0 0
    let stages := M.maxSeqLen.length
    if ¬(ids3.shape.length = 2 ∨ ids3.shape.length = stages + 1) then .error .ndimAssert
    else if ids3.data.length = 0 then .ok (.logitsOnly (forwardEmptyM M batch))
    else
      let flattened := ids3.shape.length = 2
      let seqLen := ids3.shape.getD (ids3.shape.length - 1) 0
      let multipleOf := reduceMult (M.maxSeqLen.drop 1)
      let idsP :=
        if ids3.shape.length = 2 then
          let padding := remainderToMult seqLen multipleOf
          let padded := padLastRight padding M.padId ids3
          reshapeT ([batch, (seqLen + padding) / multipleOf] ++ M.maxSeqLen.drop 1) padded
        else ids3
      let precDims := idsP.shape.drop 1
      if ¬(precDims.getD 0 0 ≤ M.maxSeqLen.getD 0 0) then .error .firstDimAssert
      else if ¬(precDims.drop 1 = M.maxSeqLen.drop 1) then .error .restDimsAssert
      else
        let bt := buildTokens M idsP
        match mainLoop (M.startTokens.zip (bt.2.zip (M.transformers.zip M.projPlan)))
            none ⟨[], []⟩ with
        | .error e => .error e
        | .ok attended =>
          let logits := mapLastRows M.toLogits.outLen M.toLogits.fn attended
          let startT := reshapeT [logits.shape.getD 0 0, 1, lastLen logits] (startExtract logits)
          let logits2 := sliceDim (logits.shape.length - 2) 1
            (logits.shape.getD (logits.shape.length - 2) 0) logits
          if ¬returnLoss then
            if flattened then
              .ok (.logitsOnly (sliceDim 1 0 seqLen (flattenMiddle logits2)))
            else .ok (.logitsOnly logits2)
          else
            let lf := flattenMiddle logits2
            if CatOk 1 startT lf then
              let lgT := catDim 1 startT lf
              .ok (.withLoss lgT (computeLoss3 M lgT bt.1))
            else .error .catError

/-! ### The generation driver `generate` (lines 492-512) -/

/-- A Python call of the bound method `self.forward` with a list of
positional arguments: with fewer than the two required positionals
(`ids`, `targets`) the interpreter raises `TypeError` before the body runs;
`return_loss` keeps its default `True`. -/
def forwardCall (M : MBModel) (args : List (T ℤ)) : Except PyErr MBOut :=
  match args with
  | [ids, targets] => forwardM M ids targets true
  | _ => .error .typeError

/-- One iteration of the sampling loop: `logits = self.forward(seq)[:, -1]`
(the call passes a single positional argument, exactly as in the source),
`top_k` filtering, Gumbel sampling (an oracle `sample`, since it draws
uniform noise), and appending the sampled token.  Slicing a `(logits, loss)`
tuple with `[:, -1]` would itself be a `TypeError`. -/
def generateStep (M : MBModel) (filterThres : ℚ) (sample : T (WithBot ℚ) → T ℤ)
    (seq : T ℤ) : Except PyErr (T ℤ) :=
  match forwardCall M [seq] with
  | .error e => .error e
  | .ok (.withLoss _ _) => .error .typeError
  | .ok (.logitsOnly t) =>
      let lg := reshapeT [t.shape.getD 0 0, lastLen t]
        (sliceDim 1 (t.shape.getD 1 0 - 1) (t.shape.getD 1 0) t)
      let filtered := topK filterThres lg
      let sampled := sample filtered
      let col := reshapeT [sampled.shape.getD 0 0, 1] sampled
      if CatOk 1 seq col then .ok (catDim 1 seq col) else .error .catError

/-- The sampling loop, one iteration per missing token. -/
def generateLoop (M : MBModel) (filterThres : ℚ) (sample : T (WithBot ℚ) → T ℤ) :
    ℕ → T ℤ → Except PyErr (T ℤ)
  | 0, seq => .ok seq
  | n + 1, seq =>
      match generateStep M filterThres sample seq with
      | .error e => .error e
      | .ok s => generateLoop M filterThres sample n s

/-- Source `MegaByte.generate(prime, filter_thres, temperature,
default_batch_size)`.  The Gumbel sampler is the oracle `sample` (it consumes
the temperature through the oracle); with `prime=None` the loop starts from
an empty `(default_batch_size, 0)` sequence and runs
`total_seq_len - seq.shape[-1]` iterations. -/
def generateM (M : MBModel) (sample : T (WithBot ℚ) → T ℤ) (prime : Option (T ℤ))
    (filterThres : ℚ) (defaultBatchSize : ℕ) : Except PyErr (T ℤ) :=
  let totalSeqLen := reduceMult M.maxSeqLen
  let seq : T ℤ :=
    match prime with
    | none => ⟨[defaultBatchSize, 0], []⟩
    | some p => p
  let batch := seq.shape.getD 0 0
  match generateLoop M filterThres sample
      (totalSeqLen - seq.shape.getD (seq.shape.length - 1) 0) seq with
  | .error e => .error e
  | .ok s => .ok (reshapeT (batch :: M.maxSeqLen) s)

/-- Entry `(i, s, j)` of a rank-3 tensor in row-major layout. -/
def entry3 (t : T ℚ) (i s j : ℕ) : ℚ :=
  t.data.getD ((i * t.shape.getD 1 0 + s) * t.shape.getD 2 0 + j) 0

/-- Contract of a stage transformer: it maps a tensor to one of the same
shape (section 4.2 of the design: "produce a tensor of the same shape"). -/
def TrOk (tr : T ℚ → T ℚ) : Prop :=
  ∀ u : T ℚ, (tr u).shape = u.shape ∧ (Wf u → Wf (tr u))

/-- Invariant of the previous-stage representation entering a stage whose
packed tokens have shape `[outer.dropLast.prod, outer.getLastD 0, d]`. -/
def PrevOk (prev : Option (T ℚ)) (outer : List ℕ) (d : ℕ) : Prop :=
  match prev with
  | none => True
  | some p => p.shape = [outer.dropLast.prod, outer.getLastD 0, d] ∧ Wf p

/-- Well-formedness of the zipped per-stage data consumed by `mainLoop`,
relative to the accumulated leading axes `outer`; `fo` is the final stage's
`outer` and `dl` its feature dimension. -/
def StagesOk : List ℕ → List (List ℚ × (T ℚ × ((T ℚ → T ℚ) × Option (RowFn × ℕ)))) →
    List ℕ → ℕ → Prop
  | outer, [(st, tok, tr, none)], fo, dl =>
      fo = outer ∧ dl = st.length ∧ tok.shape = outer ++ [st.length] ∧ Wf tok ∧
      st.length ≠ 0 ∧ TrOk tr
  | outer, (st, tok, tr, some (lin, nsl)) :: rest, fo, dl =>
      tok.shape = outer ++ [st.length] ∧ Wf tok ∧ st.length ≠ 0 ∧ TrOk tr ∧
      lin.Ok ∧ lin.outLen = nsl * (rest.getD 0 ([], ⟨[], []⟩, id, none)).1.length ∧
      nsl ≠ 0 ∧ StagesOk (outer ++ [nsl]) rest fo dl
  | _, _, _, _ => False

/-- Structural well-formedness of a model instance: the per-stage lists have
matching lengths, every dimension is positive, the embedding and linear
stacks satisfy their length contracts, and each coarse embedding stack
produces the dimension of its stage (`token_embs[k]` has output dimension
`dim[num_stages - k]` by the reversed construction in `__init__`). -/
def MBOk (M : MBModel) : Prop :=
  M.maxSeqLen ≠ [] ∧
  M.startTokens.length = M.maxSeqLen.length ∧
  M.transformers.length = M.maxSeqLen.length ∧
  M.coarseEmbs.length + 1 = M.maxSeqLen.length ∧
  M.projLinears.length + 1 = M.maxSeqLen.length ∧
  (∀ d ∈ M.maxSeqLen, d ≠ 0) ∧
  (∀ st ∈ M.startTokens, st.length ≠ 0) ∧
  EmbFn.Ok M.fineEmb ∧ M.fineEmb.dim ≠ 0 ∧
  M.fineEmb.dim = (M.startTokens.getD (M.startTokens.length - 1) []).length ∧
  (∀ c ∈ M.coarseEmbs, EmbFn.Ok c.1 ∧ c.1.dim ≠ 0 ∧ RowFn.Ok c.2) ∧
  (∀ j, j < M.coarseEmbs.length →
    (M.coarseEmbs.getD j (⟨0, fun _ => []⟩, ⟨0, fun _ => []⟩)).2.outLen
      = (M.startTokens.getD (M.coarseEmbs.length - 1 - j) []).length) ∧
  (∀ tr ∈ M.transformers, TrOk tr) ∧
  (∀ i, i < M.projLinears.length →
    RowFn.Ok (M.projLinears.getD i ⟨0, fun _ => []⟩) ∧
    (M.projLinears.getD i ⟨0, fun _ => []⟩).outLen
      = (M.maxSeqLen.drop 1).getD i 0 * (M.startTokens.getD (i + 1) []).length ∧
    (M.maxSeqLen.drop 1).getD i 0 ≠ 0) ∧
  RowFn.Ok M.toLogits ∧ M.toLogits.outLen ≠ 0

/-- A concrete two-stage configuration (`max_seq_len = (2, 2)`) with
identity transformers, constant embeddings and a two-logit head; it
satisfies every structural contract in `MBOk`. -/
def c5M : MBModel where
  numTokens := 2
  dims := [1, 1]
  maxSeqLen := [2, 2]
  padId := 0
  startTokens := [[1], [1]]
  fineEmb := ⟨1, fun _ => [0]⟩
  coarseEmbs := [(⟨1, fun _ => [0]⟩, ⟨1, fun _ => [0]⟩)]
  transformers := [fun u => u, fun u => u]
  projLinears := [⟨2, fun _ => [0, 0]⟩]
  toLogits := ⟨2, fun _ => [0, 0]⟩
  lse := fun _ => 0

/-- A concrete single-stage configuration whose fine embedding is the
identity on token ids (as one-dimensional features) and whose logits head is
the identity, so the returned logits expose which positions they came
from. -/
def c2M : MBModel where
  numTokens := 256
  dims := [1]
  maxSeqLen := [4]
  padId := 0
  startTokens := [[100]]
  fineEmb := ⟨1, fun z => [(z : ℚ)]⟩
  coarseEmbs := []
  transformers := [fun u => u]
  projLinears := []
  toLogits := ⟨1, fun l => l⟩
  lse := fun _ => 0

/-- The same two-stage configuration as `c5M`, used to probe the input
validation of `forward`. -/
def c8M : MBModel where
  numTokens := 2
  dims := [1, 1]
  maxSeqLen := [2, 2]
  padId := 0
  startTokens := [[1], [1]]
  fineEmb := ⟨1, fun _ => [0]⟩
  coarseEmbs := [(⟨1, fun _ => [0]⟩, ⟨1, fun _ => [0]⟩)]
  transformers := [fun u => u, fun u => u]
  projLinears := [⟨2, fun _ => [0, 0]⟩]
  toLogits := ⟨2, fun _ => [0, 0]⟩
  lse := fun _ => 0

/-! ### Lemmas -/

theorem reduceMult_eq_prod (nums : List ℕ) : reduceMult nums = nums.prod := by
  unfold reduceMult
  rw [List.prod_eq_foldl]

theorem chunkFuel_congr {α : Type} {k : ℕ} (hk : k ≠ 0) :
    ∀ (f1 f2 : ℕ) (l : List α), l.length ≤ f1 → l.length ≤ f2 →
      chunkFuel k f1 l = chunkFuel k f2 l := by
  intro f1
  induction f1 with
  | zero =>
    intro f2 l h1 h2
    have : l = [] := List.eq_nil_of_length_eq_zero (Nat.le_zero.mp h1)
    subst this
    cases f2 <;> rfl
  | succ f1 ih =>
    intro f2 l h1 h2
    cases l with
    | nil => cases f2 <;> rfl
    | cons x xs =>
      cases f2 with
      | zero => simp at h2
      | succ f2 =>
        show ((x :: xs).take k) :: chunkFuel k f1 ((x :: xs).drop k)
          = ((x :: xs).take k) :: chunkFuel k f2 ((x :: xs).drop k)
        have hd : ((x :: xs).drop k).length ≤ f1 := by
      
          simp only [List.length_drop, List.length_cons] at *
          omega
        have hd2 : ((x :: xs).drop k).length ≤ f2 := by
          simp only [List.length_drop, List.length_cons] at *
          omega
        rw [ih f2 _ hd hd2]

theorem chunkList_nil {α : Type} (k : ℕ) : chunkList k ([] : List α) = [] := by
  unfold chunkList
  split <;> rfl

theorem chunkList_zero {α : Type} (l : List α) : chunkList 0 l = [] := by
  unfold chunkList
  simp

theorem chunkList_eq_cons {α : Type} {k : ℕ} {l : List α} (hk : k ≠ 0) (hl : l ≠ []) :
    chunkList k l = l.take k :: chunkList k (l.drop k) := by
  unfold chunkList
  rw [if_neg hk, if_neg hk]
  rcases l with _ | ⟨x, xs⟩
  · exact absurd rfl hl
  show ((x :: xs).take k) :: chunkFuel k xs.length ((x :: xs).drop k) = _
  congr 1
  apply chunkFuel_congr hk
  · simp only [List.length_drop, List.length_cons]
    omega
  · exact le_rfl

theorem flatten_chunkList {α : Type} {k : ℕ} (hk : k ≠ 0) (l : List α) :
    (chunkList k l).flatten = l := by
  have key : ∀ (n : ℕ) (l : List α), l.length ≤ n → (chunkList k l).flatten = l := by
    intro n
    induction n with
    | zero =>
      intro l hl
      have : l = [] := List.eq_nil_of_length_eq_zero (Nat.le_zero.mp hl)
      subst this; simp [chunkList_nil]
    | succ n ih =>
      intro l hl
      rcases eq_or_ne l [] with rfl | hne
      · simp [chunkList_nil]
      · rw [chunkList_eq_cons hk hne]
        have hkpos : 0 < k := Nat.pos_of_ne_zero hk
        have hlen : 0 < l.length := List.length_pos.mpr hne
        have hdrop : (l.drop k).length ≤ n := by
          simp only [List.length_drop]; omega
        simp only [List.flatten_cons]
        rw [ih _ hdrop, List.take_append_drop]
  exact key l.length l le_rfl

/-- Central access lemma: the `i`-th chunk of `l` is `(l.drop (i * k)).take k`. -/
theorem chunkList_getD {α : Type} {k : ℕ} (hk : k ≠ 0) (l : List α) (i : ℕ) :
    (chunkList k l).getD i [] = (l.drop (i * k)).take k := by
  induction i generalizing l with
  | zero =>
    rcases eq_or_ne l [] with rfl | hl
    · simp [chunkList_nil]
    · rw [chunkList_eq_cons hk hl]; simp
  | succ i ih =>
    rcases eq_or_ne l [] with rfl | hl
    · simp [chunkList_nil]
    · rw [chunkList_eq_cons hk hl]
      simp only [List.getD_cons_succ]
      rw [ih (l.drop k), List.drop_drop]
      congr 2
      rw [Nat.succ_mul]
      omega

theorem length_chunkList {α : Type} {k a : ℕ} (hk : k ≠ 0) (l : List α)
    (hl : l.length = a * k) : (chunkList k l).length = a := by
  induction a generalizing l with
  | zero =>
    have : l = [] := List.eq_nil_of_length_eq_zero (by simpa using hl)
    subst this; simp [chunkList_nil]
  | succ a ih =>
    rw [Nat.succ_mul] at hl
    have hkpos : 0 < k := Nat.pos_of_ne_zero hk
    have hl' : l ≠ [] := by
      intro h; subst h; simp at hl; omega
    rw [chunkList_eq_cons hk hl']
    have hdl : (l.drop k).length = a * k := by
      simp only [List.length_drop, hl]; omega
    simp [ih _ hdl]

theorem chunkList_length_mem {α : Type} {k a : ℕ} (hk : k ≠ 0) (l : List α)
    (hl : l.length = a * k) {r : List α} (hr : r ∈ chunkList k l) : r.length = k := by
  induction a generalizing l with
  | zero =>
    have : l = [] := List.eq_nil_of_length_eq_zero (by simpa using hl)
    subst this; simp [chunkList_nil] at hr
  | succ a ih =>
    rw [Nat.succ_mul] at hl
    have hkpos : 0 < k := Nat.pos_of_ne_zero hk
    have hl' : l ≠ [] := by
      intro h; subst h; simp at hl; omega
    rw [chunkList_eq_cons hk hl'] at hr
    rcases List.mem_cons.mp hr with h | h
    · subst h
      simp only [List.length_take, hl]
      omega
    · have hdl : (l.drop k).length = a * k := by
        simp only [List.length_drop, hl]; omega
      exact ih _ hdl h

theorem chunkList_map_flatten_length {α β : Type} {k a c : ℕ} (hk : k ≠ 0)
    (l : List α) (hl : l.length = a * k) (f : List α → List β)
    (hf : ∀ r, r.length = k → (f r).length = c) :
    (((chunkList k l).map f).flatten).length = a * c := by
  rw [List.length_flatten, List.map_map]
  have hall : ∀ x ∈ (chunkList k l).map (List.length ∘ f), x = c := by
    intro x hx
    rcases List.mem_map.mp hx with ⟨r, hr, rfl⟩
    exact hf r (chunkList_length_mem hk l hl hr)
  rw [List.sum_eq_card_nsmul _ c hall, List.length_map, length_chunkList hk l hl]
  simp [Nat.mul_comm]

/-- Element access inside a flattened list of uniform-length rows. -/
theorem getD_flatten_uniform {α : Type} {c : ℕ} (L : List (List α)) (d : α)
    (hc : ∀ r ∈ L, r.length = c) (i j : ℕ) (hj : j < c) :
    L.flatten.getD (i * c + j) d = (L.getD i []).getD j d := by
  induction L generalizing i with
  | nil => simp
  | cons r L ih =>
    have hr : r.length = c := hc r (by simp)
    cases i with
    | zero =>
      simp only [Nat.zero_mul, Nat.zero_add, List.flatten_cons, List.getD_cons_zero]
      rw [List.getD_eq_getElem?_getD, List.getD_eq_getElem?_getD,
        List.getElem?_append_left (by omega)]
    | succ i =>
      simp only [List.flatten_cons, List.getD_cons_succ, Nat.succ_mul]
      rw [List.getD_eq_getElem?_getD, List.getElem?_append_right (by rw [hr]; omega)]
      rw [← List.getD_eq_getElem?_getD]
      have harith : i * c + c + j - r.length = i * c + j := by rw [hr]; omega
      rw [harith, ih (fun s hs => hc s (by simp [hs])) i]

theorem getD_drop {α : Type} (l : List α) (m x : ℕ) (d : α) :
    (l.drop m).getD x d = l.getD (m + x) d := by
  rw [List.getD_eq_getElem?_getD, List.getD_eq_getElem?_getD, List.getElem?_drop]

theorem getD_take {α : Type} (l : List α) {n x : ℕ} (hx : x < n) (d : α) :
    (l.take n).getD x d = l.getD x d := by
  rw [List.getD_eq_getElem?_getD, List.getD_eq_getElem?_getD, List.getElem?_take,
    if_pos hx]

theorem getD_map_of_lt {α β : Type} (f : α → β) {l : List α} {o : ℕ} (ho : o < l.length)
    (d1 : β) (d2 : α) : (l.map f).getD o d1 = f (l.getD o d2) := by
  rw [List.getD_eq_getElem?_getD, List.getD_eq_getElem?_getD, List.getElem?_map]
  rw [List.getElem?_eq_getElem ho]
  rfl

theorem getD_zipWith_of_lt {α β γ : Type} (f : α → β → γ) {l : List α} {m : List β}
    {o : ℕ} (ho : o < l.length) (ho' : o < m.length) (d : γ) (d1 : α) (d2 : β) :
    (List.zipWith f l m).getD o d = f (l.getD o d1) (m.getD o d2) := by
  rw [List.getD_eq_getElem?_getD, List.getD_eq_getElem?_getD, List.getD_eq_getElem?_getD,
    List.getElem?_zipWith]
  rw [List.getElem?_eq_getElem ho, List.getElem?_eq_getElem ho']
  rfl

theorem getD_append_of_lt {α : Type} {l u : List α} {x : ℕ} (hx : x < l.length) (d : α) :
    (l ++ u).getD x d = l.getD x d := by
  rw [List.getD_eq_getElem?_getD, List.getD_eq_getElem?_getD,
    List.getElem?_append_left hx]

theorem getD_append_ge {α : Type} {l u : List α} {x : ℕ} (hx : l.length ≤ x) (d : α) :
    (l ++ u).getD x d = u.getD (x - l.length) d := by
  rw [List.getD_eq_getElem?_getD, List.getD_eq_getElem?_getD,
    List.getElem?_append_right hx]

theorem getD_at_length {α : Type} (pre : List α) (d : α) (post : List α) (x : α) :
    (pre ++ d :: post).getD pre.length x = d := by
  rw [getD_append_ge le_rfl]
  simp

theorem set_at_length {α : Type} (pre : List α) (d : α) (post : List α) (x : α) :
    (pre ++ d :: post).set pre.length x = pre ++ x :: post := by
  induction pre with
  | nil => rfl
  | cons a pre ih => simp [ih]

theorem drop_after_length {α : Type} (pre : List α) (d : α) (post : List α) :
    (pre ++ d :: post).drop (pre.length + 1) = post := by
  induction pre with
  | nil => rfl
  | cons a pre ih => simp [ih]

theorem prod_decomp (pre : List ℕ) (d : ℕ) (post : List ℕ) :
    (pre ++ d :: post).prod = pre.prod * (d * post.prod) := by
  simp [List.prod_append]

theorem length_flatten_map_uniform {α β : Type} (l : List α) (f : α → List β) (c : ℕ)
    (hf : ∀ x ∈ l, (f x).length = c) : ((l.map f).flatten).length = l.length * c := by
  rw [List.length_flatten, List.map_map]
  have hall : ∀ x ∈ l.map (List.length ∘ f), x = c := by
    intro x hx
    rcases List.mem_map.mp hx with ⟨a, ha, rfl⟩
    exact hf a ha
  rw [List.sum_eq_card_nsmul _ c hall, List.length_map]
  simp [Nat.mul_comm]

/-! ### Shape, well-formedness and entry lemmas for the tensor operations -/

theorem length_flatten_uniform {α : Type} (L : List (List α)) (c : ℕ)
    (h : ∀ r ∈ L, r.length = c) : L.flatten.length = L.length * c := by
  rw [List.length_flatten]
  have hall : ∀ x ∈ L.map List.length, x = c := by
    intro x hx
    rcases List.mem_map.mp hx with ⟨r, hr, rfl⟩
    exact h r hr
  rw [List.sum_eq_card_nsmul _ c hall, List.length_map]
  simp [Nat.mul_comm]

theorem blocksOf_length {α : Type} {count k : ℕ} (l : List α) (hl : l.length = count * k) :
    (blocksOf count k l).length = count := by
  unfold blocksOf
  split
  · simp
  · next hk => exact length_chunkList hk l hl

theorem blocksOf_uniform {α : Type} {count k : ℕ} (l : List α) (hl : l.length = count * k) :
    ∀ r ∈ blocksOf count k l, r.length = k := by
  unfold blocksOf
  split
  · next hk => intro r hr; subst hk; simpa using (List.eq_of_mem_replicate hr) ▸ rfl
  · next hk => intro r hr; exact chunkList_length_mem hk l hl hr

theorem blocksOf_getD {α : Type} {count k : ℕ} (hk : k ≠ 0) (l : List α) (i : ℕ) :
    (blocksOf count k l).getD i [] = (l.drop (i * k)).take k := by
  unfold blocksOf
  rw [if_neg hk]
  exact chunkList_getD hk l i

theorem zipWith_append_uniform {α : Type} {A B : List (List α)} {ka kb : ℕ}
    (hA : ∀ r ∈ A, r.length = ka) (hB : ∀ r ∈ B, r.length = kb) :
    ∀ r ∈ List.zipWith (· ++ ·) A B, r.length = ka + kb := by
  induction A generalizing B with
  | nil => simp
  | cons a A ih =>
    cases B with
    | nil => simp
    | cons b B =>
      intro r hr
      rcases List.mem_cons.mp hr with h | h
      · subst h
        rw [List.length_append, hA a (by simp), hB b (by simp)]
      · exact ih (fun s hs => hA s (by simp [hs])) (fun s hs => hB s (by simp [hs])) r h

theorem sliceDim_shape {α : Type} (i a b : ℕ) (t : T α) :
    (sliceDim i a b t).shape = t.shape.set i (min b (t.shape.getD i 0) - a) := rfl

theorem catDim_shape {α : Type} (i : ℕ) (t u : T α) :
    (catDim i t u).shape = t.shape.set i (t.shape.getD i 0 + u.shape.getD i 0) := rfl

theorem sliceDim_spec {α : Type} {t : T α} {pre post : List ℕ} {dd : ℕ}
    (hs : t.shape = pre ++ dd :: post) (hw : Wf t) (a b : ℕ) :
    (sliceDim pre.length a b t).shape = pre ++ (min b dd - a) :: post ∧
      Wf (sliceDim pre.length a b t) := by
  have hgd : t.shape.getD pre.length 0 = dd := by rw [hs]; exact getD_at_length _ _ _ _
  have hdrop : t.shape.drop (pre.length + 1) = post := by
    rw [hs]; exact drop_after_length _ _ _
  have hshape : (sliceDim pre.length a b t).shape = pre ++ (min b dd - a) :: post := by
    rw [sliceDim_shape, hgd, hs, set_at_length]
  refine ⟨hshape, ?_⟩
  have hdata : (sliceDim pre.length a b t).data =
      ((chunkList (dd * post.prod) t.data).map
        (fun blk => ((((chunkList post.prod blk).drop a).take (min b dd - a))).flatten)).flatten := by
    unfold sliceDim
    rw [hgd, hdrop]
  unfold Wf
  rw [hdata, hshape, prod_decomp]
  rcases Nat.eq_zero_or_pos (dd * post.prod) with h0 | hpos
  · rw [h0, chunkList_zero]
    rcases Nat.mul_eq_zero.mp h0 with h | h
    · simp [h]
    · simp [h]
  · have hdd : dd ≠ 0 := by
      intro h; rw [h] at hpos; simp at hpos
    have hip : post.prod ≠ 0 := by
      intro h; rw [h] at hpos; simp at hpos
    have hwlen : t.data.length = pre.prod * (dd * post.prod) := by
      rw [hw, hs, prod_decomp]
    rw [chunkList_map_flatten_length hpos.ne' t.data hwlen _ ?hf]
    intro blk hblk
    have hrows : (chunkList post.prod blk).length = dd := length_chunkList hip blk (by rw [hblk])
    have hlen : (((chunkList post.prod blk).drop a).take (min b dd - a)).length = min b dd - a := by
      rw [List.length_take, List.length_drop, hrows]
      omega
    rw [length_flatten_uniform _ post.prod ?hu, hlen]
    intro r hr
    exact chunkList_length_mem hip blk (by rw [hblk]) (List.mem_of_mem_drop (List.mem_of_mem_take hr))

theorem catDim_spec {α : Type} {t u : T α} {pre post : List ℕ} {dt du : ℕ}
    (hst : t.shape = pre ++ dt :: post) (hsu : u.shape = pre ++ du :: post)
    (hwt : Wf t) (hwu : Wf u) :
    (catDim pre.length t u).shape = pre ++ (dt + du) :: post ∧
      Wf (catDim pre.length t u) := by
  have hgt : t.shape.getD pre.length 0 = dt := by rw [hst]; exact getD_at_length _ _ _ _
  have hgu : u.shape.getD pre.length 0 = du := by rw [hsu]; exact getD_at_length _ _ _ _
  have hdrop : t.shape.drop (pre.length + 1) = post := by
    rw [hst]; exact drop_after_length _ _ _
  have htake : t.shape.take pre.length = pre := by
    rw [hst]
    exact List.take_left pre (dt :: post)
  have hshape : (catDim pre.length t u).shape = pre ++ (dt + du) :: post := by
    rw [catDim_shape, hgt, hgu, hst, set_at_length]
  refine ⟨hshape, ?_⟩
  have hwtl : t.data.length = pre.prod * (dt * post.prod) := by rw [hwt, hst, prod_decomp]
  have hwul : u.data.length = pre.prod * (du * post.prod) := by rw [hwu, hsu, prod_decomp]
  have hdata : (catDim pre.length t u).data =
      ((blocksOf pre.prod (dt * post.prod) t.data).zipWith (· ++ ·)
        (blocksOf pre.prod (du * post.prod) u.data)).flatten := by
    unfold catDim
    rw [hgt, hgu, hdrop, htake]
  unfold Wf
  rw [hdata, hshape, prod_decomp]
  have hA := blocksOf_length t.data hwtl
  have hB := blocksOf_length u.data hwul
  rw [length_flatten_uniform _ (dt * post.prod + du * post.prod)
    (zipWith_append_uniform (blocksOf_uniform t.data hwtl) (blocksOf_uniform u.data hwul))]
  rw [List.length_zipWith, hA, hB]
  ring_nf
  rw [Nat.min_self]
  ring

theorem addT_spec {α : Type} [Add α] {t u : T α} (hs : t.shape = u.shape)
    (hwt : Wf t) (hwu : Wf u) : (addT t u).shape = t.shape ∧ Wf (addT t u) := by
  refine ⟨rfl, ?_⟩
  unfold Wf addT
  simp only [List.length_zipWith]
  rw [hwt, hwu, hs, Nat.min_self]

theorem mapLastRows_spec {α β : Type} {t : T α} {pre : List ℕ} {d : ℕ}
    (hs : t.shape = pre ++ [d]) (hw : Wf t) (hd : d ≠ 0) {c : ℕ}
    (f : List α → List β) (hf : ∀ r, r.length = d → (f r).length = c) :
    (mapLastRows c f t).shape = pre ++ [c] ∧ Wf (mapLastRows c f t) := by
  have hlen : t.shape.length - 1 = pre.length := by rw [hs]; simp
  have hll : lastLen t = d := by
    unfold lastLen
    rw [hlen, hs, getD_at_length]
  have hshape : (mapLastRows c f t).shape = pre ++ [c] := by
    unfold mapLastRows
    rw [hlen, hs, set_at_length]
  refine ⟨hshape, ?_⟩
  unfold Wf
  have hdata : (mapLastRows c f t).data = ((chunkList d t.data).map f).flatten := by
    unfold mapLastRows
    rw [hll]
  rw [hdata, hshape, prod_decomp]
  have hwlen : t.data.length = pre.prod * d := by
    rw [hw, hs, prod_decomp]; simp
  rw [chunkList_map_flatten_length hd t.data (by rw [hwlen]) f hf]
  simp

theorem embedMap_spec {fd : ℕ} {f : ℤ → List ℚ} (hf : ∀ z, (f z).length = fd)
    {t : T ℤ} (hw : Wf t) :
    (embedMap fd f t).shape = t.shape ++ [fd] ∧ Wf (embedMap fd f t) := by
  refine ⟨rfl, ?_⟩
  unfold Wf embedMap
  simp only
  rw [length_flatten_map_uniform t.data f fd (fun z _ => hf z), hw, prod_decomp]
  simp

theorem constT_spec {α : Type} (sh : List ℕ) (v : α) :
    (constT sh v).shape = sh ∧ Wf (constT sh v) := by
  exact ⟨rfl, by unfold Wf constT; simp⟩

/-- Entry access through `sliceDim` along axis `pre.length`: entry
`(o, aa, q)` of the slice is entry `(o, a + aa, q)` of the input. -/
theorem sliceDim_entry {α : Type} {t : T α} {pre post : List ℕ} {dd : ℕ}
    (hs : t.shape = pre ++ dd :: post) (hw : Wf t) (a b : ℕ)
    {o aa q : ℕ} (ho : o < pre.prod) (ha : aa < min b dd - a) (hq : q < post.prod)
    (dflt : α) :
    (sliceDim pre.length a b t).data.getD ((o * (min b dd - a) + aa) * post.prod + q) dflt
      = t.data.getD ((o * dd + (a + aa)) * post.prod + q) dflt := by
  have hgd : t.shape.getD pre.length 0 = dd := by rw [hs]; exact getD_at_length _ _ _ _
  have hdrop : t.shape.drop (pre.length + 1) = post := by
    rw [hs]; exact drop_after_length _ _ _
  set len := min b dd - a with hlen
  set ip := post.prod with hip
  have hipne : ip ≠ 0 := by omega
  have hddpos : a + aa < dd := by omega
  have hdd : dd ≠ 0 := by omega
  have hwlen : t.data.length = pre.prod * (dd * ip) := by rw [hw, hs, prod_decomp]
  have hdata : (sliceDim pre.length a b t).data =
      ((chunkList (dd * ip) t.data).map
        (fun blk => ((((chunkList ip blk).drop a).take len)).flatten)).flatten := by
    unfold sliceDim
    rw [hgd, hdrop]
  rw [hdata]
  -- the mapped blocks all have length len * ip
  have hblocks : ∀ r ∈ (chunkList (dd * ip) t.data).map
      (fun blk => ((((chunkList ip blk).drop a).take len)).flatten), r.length = len * ip := by
    intro r hr
    rcases List.mem_map.mp hr with ⟨blk, hblk, rfl⟩
    have hbl : blk.length = dd * ip :=
      chunkList_length_mem (by positivity) t.data hwlen hblk
    have hrows : (chunkList ip blk).length = dd := length_chunkList hipne blk (by rw [hbl])
    rw [length_flatten_uniform _ ip ?hu, List.length_take, List.length_drop, hrows]
    · congr 1
      omega
    · intro r hr
      exact chunkList_length_mem hipne blk (by rw [hbl])
        (List.mem_of_mem_drop (List.mem_of_mem_take hr))
  have hidx : (o * len + aa) * ip + q = o * (len * ip) + (aa * ip + q) := by ring
  have hjlt : aa * ip + q < len * ip := by
    have h1 : aa + 1 ≤ len := ha
    calc aa * ip + q < aa * ip + ip := by omega
      _ = (aa + 1) * ip := by ring
      _ ≤ len * ip := Nat.mul_le_mul_right ip h1
  rw [hidx, getD_flatten_uniform _ _ hblocks o (aa * ip + q) hjlt]
  have hcount : (chunkList (dd * ip) t.data).length = pre.prod :=
    length_chunkList (by positivity) t.data hwlen
  rw [getD_map_of_lt _ (by rw [hcount]; exact ho) _ []]
  rw [chunkList_getD (by positivity) t.data o]
  set blk := (t.data.drop (o * (dd * ip))).take (dd * ip) with hblkdef
  have hbl : blk.length = dd * ip := by
    rw [hblkdef, List.length_take, List.length_drop, hwlen]
    have : (o + 1) * (dd * ip) ≤ pre.prod * (dd * ip) := Nat.mul_le_mul_right _ (by omega)
    rw [Nat.add_mul, Nat.one_mul] at this
    omega
  have hrows : (chunkList ip blk).length = dd := length_chunkList hipne blk (by rw [hbl])
  have hurows : ∀ r ∈ ((chunkList ip blk).drop a).take len, r.length = ip := by
    intro r hr
    exact chunkList_length_mem hipne blk (by rw [hbl])
      (List.mem_of_mem_drop (List.mem_of_mem_take hr))
  rw [getD_flatten_uniform _ _ hurows aa q hq]
  rw [getD_take _ ha, getD_drop, chunkList_getD hipne blk (a + aa)]
  have hinner : q < ip ∧ (a + aa) * ip + q < dd * ip := by
    constructor
    · exact hq
    · calc (a + aa) * ip + q < (a + aa) * ip + ip := by omega
        _ = (a + aa + 1) * ip := by ring
        _ ≤ dd * ip := Nat.mul_le_mul_right ip (by omega)
  rw [getD_take _ hq, getD_drop, hblkdef, getD_take _ (by omega), getD_drop]
  congr 1
  ring

/-- Entry access through `catDim`: entries with axis index below `dt` come
from the left tensor. -/
theorem catDim_entry_left {α : Type} {t u : T α} {pre post : List ℕ} {dt du : ℕ}
    (hst : t.shape = pre ++ dt :: post) (hsu : u.shape = pre ++ du :: post)
    (hwt : Wf t) (hwu : Wf u)
    {o aa q : ℕ} (ho : o < pre.prod) (ha : aa < dt) (hq : q < post.prod) (dflt : α) :
    (catDim pre.length t u).data.getD ((o * (dt + du) + aa) * post.prod + q) dflt
      = t.data.getD ((o * dt + aa) * post.prod + q) dflt := by
  have hgt : t.shape.getD pre.length 0 = dt := by rw [hst]; exact getD_at_length _ _ _ _
  have hgu : u.shape.getD pre.length 0 = du := by rw [hsu]; exact getD_at_length _ _ _ _
  have hdrop : t.shape.drop (pre.length + 1) = post := by
    rw [hst]; exact drop_after_length _ _ _
  have htake : t.shape.take pre.length = pre := by
    rw [hst]; exact List.take_left pre (dt :: post)
  set ip := post.prod with hip
  have hipne : ip ≠ 0 := by omega
  have hwtl : t.data.length = pre.prod * (dt * ip) := by rw [hwt, hst, prod_decomp]
  have hwul : u.data.length = pre.prod * (du * ip) := by rw [hwu, hsu, prod_decomp]
  have hdata : (catDim pre.length t u).data =
      ((blocksOf pre.prod (dt * ip) t.data).zipWith (· ++ ·)
        (blocksOf pre.prod (du * ip) u.data)).flatten := by
    unfold catDim
    rw [hgt, hgu, hdrop, htake]
  rw [hdata]
  have hlA := blocksOf_length t.data hwtl
  have hlB := blocksOf_length u.data hwul
  have hblocks := zipWith_append_uniform (blocksOf_uniform t.data hwtl)
    (blocksOf_uniform u.data hwul)
  have hidx : (o * (dt + du) + aa) * ip + q = o * (dt * ip + du * ip) + (aa * ip + q) := by
    ring
  have hjlt : aa * ip + q < dt * ip + du * ip := by
    calc aa * ip + q < aa * ip + ip := by omega
      _ = (aa + 1) * ip := by ring
      _ ≤ dt * ip := Nat.mul_le_mul_right ip ha
      _ ≤ dt * ip + du * ip := Nat.le_add_right _ _
  rw [hidx, getD_flatten_uniform _ _ hblocks o (aa * ip + q) hjlt]
  rw [getD_zipWith_of_lt _ (by rw [hlA]; exact ho) (by rw [hlB]; exact ho) _ [] []]
  have hdtip : dt * ip ≠ 0 := Nat.mul_ne_zero (by omega) hipne
  rw [blocksOf_getD hdtip t.data o]
  have hlblk : ((t.data.drop (o * (dt * ip))).take (dt * ip)).length = dt * ip := by
    rw [List.length_take, List.length_drop, hwtl]
    have : (o + 1) * (dt * ip) ≤ pre.prod * (dt * ip) := Nat.mul_le_mul_right _ (by omega)
    rw [Nat.add_mul, Nat.one_mul] at this
    omega
  have hjlt2 : aa * ip + q < dt * ip := by
    calc aa * ip + q < aa * ip + ip := by omega
      _ = (aa + 1) * ip := by ring
      _ ≤ dt * ip := Nat.mul_le_mul_right ip ha
  rw [getD_append_of_lt (by rw [hlblk]; exact hjlt2)]
  rw [getD_take _ hjlt2, getD_drop]
  congr 1
  ring

/-- Entry access through `catDim`: entries with axis index at least `dt` come
from the right tensor. -/
theorem catDim_entry_right {α : Type} {t u : T α} {pre post : List ℕ} {dt du : ℕ}
    (hst : t.shape = pre ++ dt :: post) (hsu : u.shape = pre ++ du :: post)
    (hwt : Wf t) (hwu : Wf u)
    {o aa q : ℕ} (ho : o < pre.prod) (ha : aa < du) (hq : q < post.prod) (dflt : α) :
    (catDim pre.length t u).data.getD ((o * (dt + du) + (dt + aa)) * post.prod + q) dflt
      = u.data.getD ((o * du + aa) * post.prod + q) dflt := by
  have hgt : t.shape.getD pre.length 0 = dt := by rw [hst]; exact getD_at_length _ _ _ _
  have hgu : u.shape.getD pre.length 0 = du := by rw [hsu]; exact getD_at_length _ _ _ _
  have hdrop : t.shape.drop (pre.length + 1) = post := by
    rw [hst]; exact drop_after_length _ _ _
  have htake : t.shape.take pre.length = pre := by
    rw [hst]; exact List.take_left pre (dt :: post)
  set ip := post.prod with hip
  have hipne : ip ≠ 0 := by omega
  have hwtl : t.data.length = pre.prod * (dt * ip) := by rw [hwt, hst, prod_decomp]
  have hwul : u.data.length = pre.prod * (du * ip) := by rw [hwu, hsu, prod_decomp]
  have hdata : (catDim pre.length t u).data =
      ((blocksOf pre.prod (dt * ip) t.data).zipWith (· ++ ·)
        (blocksOf pre.prod (du * ip) u.data)).flatten := by
    unfold catDim
    rw [hgt, hgu, hdrop, htake]
  rw [hdata]
  have hlA := blocksOf_length t.data hwtl
  have hlB := blocksOf_length u.data hwul
  have hblocks := zipWith_append_uniform (blocksOf_uniform t.data hwtl)
    (blocksOf_uniform u.data hwul)
  have hidx : (o * (dt + du) + (dt + aa)) * ip + q
      = o * (dt * ip + du * ip) + (dt * ip + (aa * ip + q)) := by ring
  have hjlt0 : aa * ip + q < du * ip := by
    calc aa * ip + q < aa * ip + ip := by omega
      _ = (aa + 1) * ip := by ring
      _ ≤ du * ip := Nat.mul_le_mul_right ip ha
  have hjlt : dt * ip + (aa * ip + q) < dt * ip + du * ip := by omega
  rw [hidx, getD_flatten_uniform _ _ hblocks o (dt * ip + (aa * ip + q)) hjlt]
  rw [getD_zipWith_of_lt _ (by rw [hlA]; exact ho) (by rw [hlB]; exact ho) _ [] []]
  have hduip : du * ip ≠ 0 := Nat.mul_ne_zero (by omega) hipne
  have hlAblk : ((blocksOf pre.prod (dt * ip) t.data).getD o []).length = dt * ip := by
    rcases Nat.eq_zero_or_pos (dt * ip) with h0 | hpos
    · unfold blocksOf
      rw [if_pos h0, h0]
      rw [List.getD_eq_getElem?_getD, List.getElem?_replicate, if_pos ho]
      rfl
    · rw [blocksOf_getD hpos.ne' t.data o]
      rw [List.length_take, List.length_drop, hwtl]
      have : (o + 1) * (dt * ip) ≤ pre.prod * (dt * ip) := Nat.mul_le_mul_right _ (by omega)
      rw [Nat.add_mul, Nat.one_mul] at this
      omega
  rw [getD_append_ge (by rw [hlAblk]; omega)]
  rw [hlAblk, Nat.add_sub_cancel_left]
  rw [blocksOf_getD hduip u.data o]
  rw [getD_take _ hjlt0, getD_drop]
  congr 1
  ring

theorem sliceDim_specE {α : Type} (pre : List ℕ) (dd : ℕ) (post : List ℕ) {t : T α}
    (hs : t.shape = pre ++ dd :: post) (hw : Wf t) (a b : ℕ) :
    (sliceDim pre.length a b t).shape = pre ++ (min b dd - a) :: post ∧
      Wf (sliceDim pre.length a b t) :=
  sliceDim_spec hs hw a b

theorem catDim_specE {α : Type} (pre : List ℕ) (dt du : ℕ) (post : List ℕ) (t u : T α)
    (hst : t.shape = pre ++ dt :: post) (hsu : u.shape = pre ++ du :: post)
    (hwt : Wf t) (hwu : Wf u) :
    (catDim pre.length t u).shape = pre ++ (dt + du) :: post ∧
      Wf (catDim pre.length t u) :=
  catDim_spec hst hsu hwt hwu

theorem sliceDim_entryE {α : Type} (pre : List ℕ) (dd : ℕ) (post : List ℕ) {t : T α}
    (hs : t.shape = pre ++ dd :: post) (hw : Wf t) (a b o aa q : ℕ)
    (ho : o < pre.prod) (ha : aa < min b dd - a) (hq : q < post.prod) (dflt : α) :
    (sliceDim pre.length a b t).data.getD ((o * (min b dd - a) + aa) * post.prod + q) dflt
      = t.data.getD ((o * dd + (a + aa)) * post.prod + q) dflt :=
  sliceDim_entry hs hw a b ho ha hq dflt

theorem catDim_entry_leftE {α : Type} (pre : List ℕ) (dt du : ℕ) (post : List ℕ)
    (t u : T α) (hst : t.shape = pre ++ dt :: post) (hsu : u.shape = pre ++ du :: post)
    (hwt : Wf t) (hwu : Wf u) (o aa q : ℕ)
    (ho : o < pre.prod) (ha : aa < dt) (hq : q < post.prod) (dflt : α) :
    (catDim pre.length t u).data.getD ((o * (dt + du) + aa) * post.prod + q) dflt
      = t.data.getD ((o * dt + aa) * post.prod + q) dflt :=
  catDim_entry_left hst hsu hwt hwu ho ha hq dflt

theorem catDim_entry_rightE {α : Type} (pre : List ℕ) (dt du : ℕ) (post : List ℕ)
    (t u : T α) (hst : t.shape = pre ++ dt :: post) (hsu : u.shape = pre ++ du :: post)
    (hwt : Wf t) (hwu : Wf u) (o aa q : ℕ)
    (ho : o < pre.prod) (ha : aa < du) (hq : q < post.prod) (dflt : α) :
    (catDim pre.length t u).data.getD ((o * (dt + du) + (dt + aa)) * post.prod + q) dflt
      = u.data.getD ((o * du + aa) * post.prod + q) dflt :=
  catDim_entry_right hst hsu hwt hwu ho ha hq dflt

theorem mapLastRows_specE {α β : Type} (pre : List ℕ) (d : ℕ) {t : T α}
    (hs : t.shape = pre ++ [d]) (hw : Wf t) (hd : d ≠ 0) {c : ℕ}
    (f : List α → List β) (hf : ∀ r, r.length = d → (f r).length = c) :
    (mapLastRows c f t).shape = pre ++ [c] ∧ Wf (mapLastRows c f t) :=
  mapLastRows_spec hs hw hd f hf

theorem getD_replicate_self {α : Type} (n x : ℕ) (v : α) :
    (List.replicate n v).getD x v = v := by
  rw [List.getD_eq_getElem?_getD, List.getElem?_replicate]
  split <;> rfl

/-! ### C6: the token-shift transform -/

/-- C6: `token_shift` splits the feature axis with `t.chunk(2, dim=-1)` (the
first chunk has `⌈d/2⌉` features, for even `d` exactly half), keeps the first
chunk unchanged, and shifts the second chunk forward by one sequence
position: position `s > 0` sees position `s - 1`'s second half, position `0`'s
second half is zero. -/
theorem c6_token_shift (N L d : ℕ) (t : T ℚ) (hs : t.shape = [N, L, d]) (hw : Wf t) :
    (tokenShift t).shape = [N, L, d] ∧ Wf (tokenShift t) ∧
    ∀ i s j : ℕ, i < N → s < L → j < d →
      entry3 (tokenShift t) i s j =
        if j < (d + 1) / 2 then entry3 t i s j
        else if s = 0 then 0 else entry3 t i (s - 1) j := by
  have hrank : t.shape.length = 3 := by rw [hs]; rfl
  have hL : t.shape.getD 1 0 = L := by rw [hs]; rfl
  have hd : t.shape.getD 2 0 = d := by rw [hs]; rfl
  have hll : lastLen t = d := by unfold lastLen; rw [hrank]; exact hd
  set h2 := (d + 1) / 2 with hh2
  have hh2d : h2 ≤ d := by omega
  have hdec3 : t.shape = [N, L] ++ d :: [] := by rw [hs]; rfl
  set tLo := sliceDim 2 0 h2 t with htLo
  set tHi := sliceDim 2 h2 d t with htHi
  have hLoS : tLo.shape = [N, L] ++ h2 :: [] ∧ Wf tLo := by
    have := sliceDim_spec hdec3 hw 0 h2
    simpa [show min h2 d = h2 by omega] using this
  have hHiS : tHi.shape = [N, L] ++ (d - h2) :: [] ∧ Wf tHi := by
    have := sliceDim_spec hdec3 hw h2 d
    simpa using this
  set cT := constT [N, 1, d - h2] (0 : ℚ) with hcT
  set pad := catDim 1 cT tHi with hpad
  have hcTS : cT.shape = [N] ++ 1 :: [d - h2] ∧ Wf cT := constT_spec _ _
  have hHiS' : tHi.shape = [N] ++ L :: [d - h2] := by
    rw [hHiS.1]; rfl
  have hPadS : pad.shape = [N] ++ (1 + L) :: [d - h2] ∧ Wf pad := by
    have := catDim_specE [N] _ _ _ _ _ hcTS.1 hHiS' hcTS.2 hHiS.2
    simpa using this
  set trm := sliceDim 1 0 L pad with htrm
  have hTrmS : trm.shape = [N] ++ L :: [d - h2] ∧ Wf trm := by
    have := sliceDim_specE [N] _ _ hPadS.1 hPadS.2 0 L
    simpa [show min L (1 + L) = L by omega] using this
  have hLoS' : tLo.shape = [N, L] ++ h2 :: [] := hLoS.1
  have hTrmS' : trm.shape = [N, L] ++ (d - h2) :: [] := by
    rw [hTrmS.1]; rfl
  set out := catDim 2 tLo trm with hout
  have hOutS : out.shape = [N, L, d] ∧ Wf out := by
    have := catDim_specE [N, L] _ _ _ _ _ hLoS' hTrmS' hLoS.2 hTrmS.2
    simpa [show h2 + (d - h2) = d by omega] using this
  have hts : tokenShift t = out := by
    have hset : tHi.shape.set 1 1 = [N, 1, d - h2] := by rw [hHiS.1]; rfl
    show catDim (t.shape.length - 1)
        (sliceDim (t.shape.length - 1) 0 ((lastLen t + 1) / 2) t)
        (sliceDim (t.shape.length - 2) 0 (t.shape.getD (t.shape.length - 2) 0)
          (padDimFrontOne (t.shape.length - 2) 0
            (sliceDim (t.shape.length - 1) ((lastLen t + 1) / 2) (lastLen t) t))) = out
    rw [hll, hrank]
    show catDim 2 (sliceDim 2 0 ((d + 1) / 2) t)
        (sliceDim 1 0 (t.shape.getD 1 0)
          (padDimFrontOne 1 0 (sliceDim 2 ((d + 1) / 2) d t))) = out
    rw [hL]
    unfold padDimFrontOne
    rw [hset]
  refine ⟨by rw [hts]; exact hOutS.1, by rw [hts]; exact hOutS.2, ?_⟩
  intro i s j hi hsl hj
  have ho : i * L + s < N * L := by
    calc i * L + s < i * L + L := by omega
      _ = (i + 1) * L := by ring
      _ ≤ N * L := Nat.mul_le_mul_right L hi
  rw [hts]
  unfold entry3
  rw [hOutS.1, hL, hd]
  show out.data.getD ((i * L + s) * d + j) 0 = _
  by_cases hcase : j < h2
  · rw [if_pos hcase]
    have e1 : out.data.getD ((i * L + s) * d + j) 0 = tLo.data.getD ((i * L + s) * h2 + j) 0 := by
      have := catDim_entry_leftE [N, L] _ _ _ _ _ hLoS' hTrmS' hLoS.2 hTrmS.2
        (i * L + s) j 0 (by simpa using ho) hcase (by norm_num) 0
      simpa [show h2 + (d - h2) = d by omega] using this
    have e2 : tLo.data.getD ((i * L + s) * h2 + j) 0 = t.data.getD ((i * L + s) * d + j) 0 := by
      have := sliceDim_entryE _ _ _ hdec3 hw 0 h2
        (i * L + s) j 0 (by simpa using ho)
        (by simp; omega) (by norm_num) 0
      simpa [show min h2 d = h2 by omega] using this
    rw [e1, e2]
  · rw [if_neg hcase]
    have hjd : j - h2 < d - h2 := by omega
    have e1 : out.data.getD ((i * L + s) * d + j) 0
        = trm.data.getD ((i * L + s) * (d - h2) + (j - h2)) 0 := by
      have := catDim_entry_rightE [N, L] _ _ _ _ _ hLoS' hTrmS' hLoS.2 hTrmS.2
        (i * L + s) (j - h2) 0 (by simpa using ho) hjd (by norm_num) 0
      have hidx : h2 + (d - h2) = d := by omega
      have hidx2 : h2 + (j - h2) = j := by omega
      simpa [hidx, hidx2] using this
    have e2 : trm.data.getD ((i * L + s) * (d - h2) + (j - h2)) 0
        = pad.data.getD ((i * (1 + L) + s) * (d - h2) + (j - h2)) 0 := by
      have := sliceDim_entryE [N] _ _ hPadS.1 hPadS.2 0 L
        i s (j - h2) (by simpa using hi)
        (by simp; omega) (by simpa using hjd) 0
      have hmin : min L (1 + L) = L := by omega
      have : trm.data.getD ((i * L + s) * List.prod [d - h2] + (j - h2)) 0
          = pad.data.getD ((i * (1 + L) + s) * List.prod [d - h2] + (j - h2)) 0 := by
        simpa [hmin] using this
      simpa using this
    rw [e1, e2]
    rcases Nat.eq_zero_or_pos s with hs0 | hspos
    · rw [if_pos hs0, hs0]
      have e3 : pad.data.getD ((i * (1 + L) + 0) * (d - h2) + (j - h2)) 0
          = cT.data.getD ((i * 1 + 0) * (d - h2) + (j - h2)) 0 := by
        have := catDim_entry_leftE [N] _ _ _ _ _ hcTS.1 hHiS' hcTS.2 hHiS.2
          i 0 (j - h2) (by simpa using hi) (by norm_num)
          (by simpa using hjd) 0
        simpa using this
      rw [e3]
      show (List.replicate (List.prod [N, 1, d - h2]) (0 : ℚ)).getD _ 0 = 0
      exact getD_replicate_self _ _ _
    · rw [if_neg (by omega)]
      have e3 : pad.data.getD ((i * (1 + L) + s) * (d - h2) + (j - h2)) 0
          = tHi.data.getD ((i * L + (s - 1)) * (d - h2) + (j - h2)) 0 := by
        have := catDim_entry_rightE [N] _ _ _ _ _ hcTS.1 hHiS' hcTS.2 hHiS.2
          i (s - 1) (j - h2) (by simpa using hi) (by omega)
          (by simpa using hjd) 0
        have hidx : 1 + (s - 1) = s := by omega
        simpa [hidx] using this
      have e4 : tHi.data.getD ((i * L + (s - 1)) * (d - h2) + (j - h2)) 0
          = t.data.getD ((i * L + (s - 1)) * d + j) 0 := by
        have hoo : i * L + (s - 1) < N * L := by omega
        have := sliceDim_entryE _ _ _ hdec3 hw h2 d
          (i * L + (s - 1)) (j - h2) 0 (by simpa using hoo)
          (by simp; omega) (by norm_num) 0
        have hidx : h2 + (j - h2) = j := by omega
        simpa [hidx] using this
      rw [e3, e4]

/-- Witness for C6: applying the theorem at a concrete tensor; position 1's
shifted half equals position 0's unshifted second half. -/
theorem c6_token_shift_witness :
    Wf (⟨[1, 3, 4], [1, 2, 3, 4, 5, 6, 7, 8, 9, 10, 11, 12]⟩ : T ℚ) ∧
    entry3 (tokenShift ⟨[1, 3, 4], [1, 2, 3, 4, 5, 6, 7, 8, 9, 10, 11, 12]⟩) 0 1 3 =
      entry3 (⟨[1, 3, 4], [1, 2, 3, 4, 5, 6, 7, 8, 9, 10, 11, 12]⟩ : T ℚ) 0 0 3 := by
  refine ⟨by decide, ?_⟩
  have h := (c6_token_shift 1 3 4 ⟨[1, 3, 4], [1, 2, 3, 4, 5, 6, 7, 8, 9, 10, 11, 12]⟩ rfl
    (by decide)).2.2 0 1 3 (by decide) (by decide) (by decide)
  simpa using h

/-! ### C7: the top-k truncation -/

theorem topkRowIdx_perm (v : List ℚ) : (topkRowIdx v).Perm (List.range v.length) :=
  List.perm_insertionSort _ _

theorem topkRowIdx_length (v : List ℚ) : (topkRowIdx v).length = v.length := by
  rw [(topkRowIdx_perm v).length_eq, List.length_range]

theorem topkRowIdx_nodup (v : List ℚ) : (topkRowIdx v).Nodup :=
  (topkRowIdx_perm v).nodup_iff.mpr (List.nodup_range _)

theorem topkRowIdx_mem (v : List ℚ) (j : ℕ) : j ∈ topkRowIdx v ↔ j < v.length := by
  rw [(topkRowIdx_perm v).mem_iff, List.mem_range]

theorem topkRowIdx_pairwise (v : List ℚ) :
    (topkRowIdx v).Pairwise (fun a b =>
      v.getD b 0 < v.getD a 0 ∨ (v.getD a 0 = v.getD b 0 ∧ a ≤ b)) := by
  haveI htr : IsTrans ℕ (fun a b =>
      v.getD b 0 < v.getD a 0 ∨ (v.getD a 0 = v.getD b 0 ∧ a ≤ b)) := by
    constructor
    intro a b c hab hbc
    rcases hab with h1 | ⟨h1e, h1le⟩
    · rcases hbc with h2 | ⟨h2e, h2le⟩
      · exact Or.inl (lt_trans h2 h1)
      · exact Or.inl (h2e ▸ h1)
    · rcases hbc with h2 | ⟨h2e, h2le⟩
      · exact Or.inl (h1e ▸ h2)
      · exact Or.inr ⟨h1e.trans h2e, le_trans h1le h2le⟩
  haveI hto : IsTotal ℕ (fun a b =>
      v.getD b 0 < v.getD a 0 ∨ (v.getD a 0 = v.getD b 0 ∧ a ≤ b)) := by
    constructor
    intro a b
    rcases lt_trichotomy (v.getD a 0) (v.getD b 0) with h | h | h
    · exact Or.inr (Or.inl h)
    · rcases le_total a b with hab | hab
      · exact Or.inl (Or.inr ⟨h, hab⟩)
      · exact Or.inr (Or.inr ⟨h.symm, hab⟩)
    · exact Or.inl (Or.inl h)
  exact List.sorted_insertionSort _ (List.range v.length)

theorem topkRow_getD (k : ℕ) (v : List ℚ) {j : ℕ} (hj : j < v.length) :
    (topkRow k v).getD j ⊥ =
      if j ∈ (topkRowIdx v).take k then (v.getD j 0 : WithBot ℚ) else ⊥ := by
  unfold topkRow
  rw [getD_map_of_lt _ (by simpa using hj) ⊥ 0]
  have hr : (List.range v.length).getD j 0 = j := by
    rw [List.getD_eq_getElem?_getD, List.getElem?_range hj]
    rfl
  rw [hr]

theorem topkRow_length (k : ℕ) (v : List ℚ) : (topkRow k v).length = v.length := by
  unfold topkRow
  simp

/-- The number of retained entries is exactly `min k n`. -/
theorem topkRow_kept_count (k : ℕ) (v : List ℚ) :
    ((topkRow k v).filter (fun x => decide (x ≠ ⊥))).length = min k v.length := by
  unfold topkRow
  rw [List.filter_map, List.length_map]
  simp only [Function.comp_def]
  set keep := (topkRowIdx v).take k with hkeep
  have hfc : ∀ j ∈ List.range v.length,
      (decide (¬(if j ∈ keep then ((v.getD j 0 : ℚ) : WithBot ℚ) else ⊥) = ⊥))
        = decide (j ∈ keep) := by
    intro j hj
    by_cases hmem : j ∈ keep
    · simp [hmem]
    · simp [hmem]
  rw [List.filter_congr hfc]
  have hnd : ((List.range v.length).filter (fun j => decide (j ∈ keep))).Nodup :=
    (List.nodup_range _).filter _
  have hknd : keep.Nodup := (topkRowIdx_nodup v).sublist (List.take_sublist _ _)
  have hperm : ((List.range v.length).filter (fun j => decide (j ∈ keep))).Perm keep := by
    rw [List.perm_ext_iff_of_nodup hnd hknd]
    intro j
    rw [List.mem_filter, List.mem_range, decide_eq_true_eq]
    constructor
    · exact fun h => h.2
    · intro h
      refine ⟨?_, h⟩
      have := List.mem_of_mem_take h
      exact (topkRowIdx_mem v j).mp this
  rw [hperm.length_eq, hkeep, List.length_take, topkRowIdx_length]

/-- Retained entries dominate every removed entry. -/
theorem topkRow_dominance (k : ℕ) (v : List ℚ) {j1 j2 : ℕ}
    (h1 : j1 < v.length) (h2 : j2 < v.length)
    (hk1 : (topkRow k v).getD j1 ⊥ ≠ ⊥) (hk2 : (topkRow k v).getD j2 ⊥ = ⊥) :
    v.getD j2 0 ≤ v.getD j1 0 := by
  rw [topkRow_getD k v h1] at hk1
  rw [topkRow_getD k v h2] at hk2
  have hm1 : j1 ∈ (topkRowIdx v).take k := by
    by_contra h
    rw [if_neg h] at hk1
    exact hk1 rfl
  have hm2 : j2 ∉ (topkRowIdx v).take k := by
    intro h
    rw [if_pos h] at hk2
    exact (WithBot.coe_ne_bot) hk2
  have hm2' : j2 ∈ (topkRowIdx v).drop k := by
    have : j2 ∈ topkRowIdx v := (topkRowIdx_mem v j2).mpr h2
    rw [← List.take_append_drop k (topkRowIdx v)] at this
    rcases List.mem_append.mp this with h | h
    · exact absurd h hm2
    · exact h
  have hpw := topkRowIdx_pairwise v
  rw [← List.take_append_drop k (topkRowIdx v)] at hpw
  have := (List.pairwise_append.mp hpw).2.2 j1 hm1 j2 hm2'
  rcases this with h | ⟨h, _⟩
  · exact le_of_lt h
  · exact le_of_eq h.symm

theorem chunkList_flatten_uniform {α : Type} (L : List (List α)) {n : ℕ} (hn : n ≠ 0)
    (huni : ∀ r ∈ L, r.length = n) : chunkList n L.flatten = L := by
  induction L with
  | nil => simp [chunkList_nil]
  | cons r L ih =>
    have hr : r.length = n := huni r (by simp)
    have hne : r ++ L.flatten ≠ [] := by
      intro h
      rw [(List.append_eq_nil.mp h).1] at hr
      exact hn (by simpa using hr.symm)
    rw [List.flatten_cons, chunkList_eq_cons hn hne]
    rw [List.take_left' hr, List.drop_left' hr]
    rw [ih (fun s hs => huni s (by simp [hs]))]

/-- C7 counterexample: at `filter_thres = 1` (allowed by the claim's range
`(0, 1]`) the claimed kept fraction is `1 - 1 = 0` of the logits, so every
entry would be `-∞`; the code instead keeps one entry with its value. -/
theorem c7_counterexample :
    topK 1 ⟨[1, 2], [5, 3]⟩ = ⟨[1, 2], [((5 : ℚ) : WithBot ℚ), ⊥]⟩ ∧
    (⟨[1, 2], [((5 : ℚ) : WithBot ℚ), ⊥]⟩ : T (WithBot ℚ)) ≠ ⟨[1, 2], [⊥, ⊥]⟩ := by
  have hk : topkKeepCount 1 (lastLen (⟨[1, 2], [5, 3]⟩ : T ℚ)) = 1 := by
    show topkKeepCount 1 2 = 1
    unfold topkKeepCount
    norm_num
  constructor
  · unfold topK
    rw [hk]
    decide
  · decide

/-- C7 as amended: `top_k` keeps `max(⌊(1 - filter_thres) · n⌋, 1)` logits
(at least one is always kept, so at `filter_thres = 1` one logit survives,
not zero), each keeping its original value; every other entry becomes `-∞`
and never exceeds a kept one. -/
theorem c7_amended_topk (thres : ℚ) (h0 : 0 < thres) (_h1 : thres ≤ 1)
    {b n : ℕ} (t : T ℚ) (hs : t.shape = [b, n]) (hw : Wf t) (hn : 0 < n) :
    (topK thres t).shape = [b, n] ∧ Wf (topK thres t) ∧
    topkKeepCount thres n ≤ n ∧
    ∀ i < b, rowAt (topK thres t) i = topkRow (topkKeepCount thres n) (rowAt t i) ∧
      ((rowAt (topK thres t) i).filter (fun x => decide (x ≠ ⊥))).length
        = topkKeepCount thres n ∧
      (∀ j < n, (rowAt (topK thres t) i).getD j ⊥ = ⊥ ∨
        (rowAt (topK thres t) i).getD j ⊥ = ((rowAt t i).getD j 0 : WithBot ℚ)) ∧
      (∀ j1 j2, j1 < n → j2 < n →
        (rowAt (topK thres t) i).getD j1 ⊥ ≠ ⊥ →
        (rowAt (topK thres t) i).getD j2 ⊥ = ⊥ →
        (rowAt t i).getD j2 0 ≤ (rowAt t i).getD j1 0) := by
  have hlast : lastLen t = n := by
    unfold lastLen
    rw [hs]
    rfl
  have hkn : topkKeepCount thres n ≤ n := by
    unfold topkKeepCount
    have hfloor : ⌊(1 - thres) * (n : ℚ)⌋ ≤ (n : ℤ) - 1 := by
      have hlt : (1 - thres) * (n : ℚ) ≤ (n : ℚ) - thres := by
        have hn1 : (1 : ℚ) ≤ (n : ℚ) := by exact_mod_cast hn
        nlinarith
      have : ⌊(1 - thres) * (n : ℚ)⌋ ≤ ⌊(n : ℚ) - thres⌋ := Int.floor_le_floor hlt
      refine le_trans this ?_
      have : (n : ℚ) - thres < (n : ℚ) := by linarith
      have hfl : ⌊(n : ℚ) - thres⌋ < (n : ℤ) := by
        rw [Int.floor_lt]
        push_cast
        linarith
      omega
    omega
  set k := topkKeepCount thres n with hk
  have hwlen : t.data.length = b * n := by
    rw [hw, hs]
    simp
  have hdata : (topK thres t).data = ((chunkList n t.data).map (topkRow k)).flatten := by
    unfold topK
    rw [hlast]
  have hnne : n ≠ 0 := hn.ne'
  have huni : ∀ r ∈ (chunkList n t.data).map (topkRow k), r.length = n := by
    intro r hr
    rcases List.mem_map.mp hr with ⟨row, hrow, rfl⟩
    rw [topkRow_length]
    exact chunkList_length_mem hnne t.data hwlen hrow
  have hcnt : ((chunkList n t.data).map (topkRow k)).length = b := by
    rw [List.length_map, length_chunkList hnne t.data hwlen]
  have hshape : (topK thres t).shape = [b, n] := by
    unfold topK
    rw [hs]
  have hwf : Wf (topK thres t) := by
    unfold Wf
    rw [hshape, hdata, length_flatten_uniform _ n huni, hcnt]
    simp
  have hrowlen : ∀ i < b, (rowAt t i).length = n := by
    intro i hi
    unfold rowAt rowsT
    rw [hlast, chunkList_getD hnne]
    rw [List.length_take, List.length_drop, hwlen]
    have : (i + 1) * n ≤ b * n := Nat.mul_le_mul_right n (by omega)
    rw [Nat.add_mul, Nat.one_mul] at this
    omega
  have hrowAt_t : ∀ i, rowAt t i = (chunkList n t.data).getD i [] := by
    intro i
    unfold rowAt rowsT
    rw [hlast]
  have hrows : ∀ i < b, rowAt (topK thres t) i = topkRow k (rowAt t i) := by
    intro i hi
    unfold rowAt rowsT
    have hlast2 : lastLen (topK thres t) = n := by
      show (topK thres t).shape.getD ((topK thres t).shape.length - 1) 0 = n
      rw [hshape]
      rfl
    rw [hlast2, hlast, hdata, chunkList_flatten_uniform _ hnne huni]
    rw [getD_map_of_lt _ (by rw [length_chunkList hnne t.data hwlen]; exact hi) [] []]
  refine ⟨hshape, hwf, hkn, ?_⟩
  intro i hi
  refine ⟨hrows i hi, ?_, ?_, ?_⟩
  · rw [hrows i hi, topkRow_kept_count, hrowlen i hi]
    omega
  · intro j hj
    rw [hrows i hi, topkRow_getD k _ (by rw [hrowlen i hi]; exact hj)]
    split
    · exact Or.inr rfl
    · exact Or.inl rfl
  · intro j1 j2 hj1 hj2 hne hbot
    rw [hrows i hi] at hne hbot
    exact topkRow_dominance k _ (by rw [hrowlen i hi]; exact hj1)
      (by rw [hrowlen i hi]; exact hj2) hne hbot

/-- Witness for C7 at a concrete logits tensor and `filter_thres = 1`. -/
theorem c7_amended_topk_witness :
    ((0 : ℚ) < 1 ∧ (1 : ℚ) ≤ 1 ∧ Wf (⟨[1, 2], [5, 3]⟩ : T ℚ) ∧ (0 : ℕ) < 2) ∧
    (topK 1 ⟨[1, 2], [5, 3]⟩).shape = [1, 2] := by
  refine ⟨⟨by decide, by decide, by decide, by decide⟩, ?_⟩
  exact (c7_amended_topk 1 (by decide) (by decide) ⟨[1, 2], [5, 3]⟩ rfl (by decide)
    (by decide)).1

/-! ### C1: the generation driver calls forward without targets -/

/-- C1: for every model with positive total capacity, `generate(prime=None)`
raises a `TypeError` on the first loop iteration, because line 507 calls
`self.forward(seq)` with a single positional argument while `forward`
requires both `ids` and `targets`.  The claimed sampling never happens. -/
theorem c1_generate_typeerror (M : MBModel) (sample : T (WithBot ℚ) → T ℤ)
    (ft : ℚ) (dbs : ℕ) (htot : 1 ≤ reduceMult M.maxSeqLen) :
    generateM M sample none ft dbs = .error .typeError := by
  have hstep : ∀ seq, generateStep M ft sample seq = .error .typeError := fun seq => rfl
  have hloop : ∀ m seq, generateLoop M ft sample (m + 1) seq = .error .typeError := by
    intro m seq
    unfold generateLoop
    rw [hstep]
  obtain ⟨n, hn⟩ : ∃ n, reduceMult M.maxSeqLen = n + 1 :=
    ⟨_, (Nat.succ_pred_eq_of_pos htot).symm⟩
  have hgen : generateM M sample none ft dbs
      = match generateLoop M ft sample (reduceMult M.maxSeqLen) (⟨[dbs, 0], []⟩ : T ℤ) with
        | .error e => .error e
        | .ok s => .ok (reshapeT (dbs :: M.maxSeqLen) s) := rfl
  rw [hgen, hn, hloop]

/-- Witness for C1 at a concrete single-stage model. -/
theorem c1_generate_typeerror_witness :
    1 ≤ reduceMult [2] ∧
    generateM ⟨3, [1], [2], 9, [[0]], ⟨1, fun z => [(z : ℚ)]⟩, [], [fun t => t], [],
      ⟨3, fun l => [l.headD 0, l.headD 0, l.headD 0]⟩, fun l => l.headD 0⟩
      (fun t => ⟨[t.shape.getD 0 0], List.replicate (t.shape.getD 0 0) 0⟩) none 1 1
      = .error .typeError := by
  refine ⟨by decide, ?_⟩
  exact c1_generate_typeerror _ _ 1 1 (by decide)

/-! ### C4: the label-reconstruction transform (lines 537-539) -/

/-- C4: at the failing input, the reconstruction produces
`[ids[1], ids[1], targets[2]] = [20, 20, 99]`: position `T-2` receives
`ids[T-2] = 20` again (duplicated) instead of `ids[T-1] = 30`, which the
spec's left-shift description demands; `ids[T-1] = 30` is dropped entirely. -/
theorem c4_label_reconstruction_failing_input :
    reconstructIds ⟨[1, 3], [10, 20, 30]⟩ ⟨[1, 3], [20, 30, 99]⟩
      = .ok ⟨[1, 3], [20, 20, 99]⟩ ∧ ([20, 20, 99] : List ℤ) ≠ [20, 30, 99] := by
  constructor
  · rfl
  · decide

/-! ### C10: the in-place mutation of the caller's ids -/

theorem chunkList_one {α : Type} (l : List α) : chunkList 1 l = l.map (fun x => [x]) := by
  induction l with
  | nil => simp [chunkList_nil]
  | cons x xs ih =>
    rw [chunkList_eq_cons one_ne_zero (by simp)]
    show [x] :: chunkList 1 xs = [x] :: xs.map (fun x => [x])
    rw [ih]

theorem flatten_map_singleton {α : Type} (l : List α) :
    (l.map (fun x => [x])).flatten = l := by
  induction l with
  | nil => rfl
  | cons x xs ih => simpa using ih

/-- Closed form of `sliceDim` along axis 1 of a rank-2 tensor. -/
theorem sliceDim_rank2 {α : Type} {t : T α} {b L : ℕ} (hs : t.shape = [b, L]) (a c : ℕ) :
    sliceDim 1 a c t = ⟨[b, min c L - a],
      ((chunkList L t.data).map (fun r => (r.drop a).take (min c L - a))).flatten⟩ := by
  unfold sliceDim
  simp only [hs, List.getD_cons_succ, List.getD_cons_zero, List.drop_succ_cons,
    List.drop_zero, List.drop_nil, List.prod_nil, Nat.mul_one]
  congr 1
  congr 1
  apply List.map_congr_left
  intro blk _
  rw [chunkList_one, ← List.map_drop, ← List.map_take, flatten_map_singleton]

/-- Closed form of the in-place shift `x[:, :-1] = x[:, 1:]` on a rank-2
tensor. -/
theorem shiftAssignDim1_rank2 {α : Type} {t : T α} {b L : ℕ} (hs : t.shape = [b, L]) :
    shiftAssignDim1 t = ⟨[b, L], ((chunkList L t.data).map
      (fun r => (r.drop 1) ++ r.drop (L - 1))).flatten⟩ := by
  unfold shiftAssignDim1
  simp only [hs, List.getD_cons_succ, List.getD_cons_zero, List.drop_succ_cons,
    List.drop_zero, List.drop_nil, List.prod_nil, Nat.mul_one]
  congr 1
  congr 1
  apply List.map_congr_left
  intro blk _
  rw [chunkList_one, ← List.map_drop, ← List.map_drop, ← List.map_append,
    flatten_map_singleton]

/-- Closed form of the caller-visible mutation on a rank-2 tensor. -/
theorem mutateSetitemShift_rank2 {α : Type} {t : T α} {b L : ℕ} (hs : t.shape = [b, L]) :
    mutateSetitemShift t = ⟨[b, L], ((chunkList L t.data).map
      (fun r => ((r.drop 1).take (L - 2)) ++ r.drop (L - 2))).flatten⟩ := by
  unfold mutateSetitemShift
  simp only [hs, List.getD_cons_succ, List.getD_cons_zero, List.drop_succ_cons,
    List.drop_zero, List.drop_nil, List.prod_nil, Nat.mul_one]
  congr 1
  congr 1
  apply List.map_congr_left
  intro blk _
  rw [chunkList_one, ← List.map_drop, ← List.map_take, ← List.map_drop, ← List.map_append,
    flatten_map_singleton]

/-- C10: `forward` overwrites columns `0 .. T-3` of the caller's ids tensor
with the values of columns `1 .. T-2` (columns `T-2` and `T-1` are
untouched); the slice view `ids[:, :-1]` that `forward` keeps computing with
is exactly the corresponding slice of the mutated tensor; and if adjacent
columns differ anywhere in the overwritten region, the caller's tensor after
the call differs from the one passed in. -/
theorem c10_forward_mutates_ids (b L : ℕ) (t : T ℤ) (hs : t.shape = [b, L]) (hw : Wf t)
    (hL : 3 ≤ L) :
    (mutateSetitemShift t).shape = [b, L] ∧ Wf (mutateSetitemShift t) ∧
    (∀ i j, i < b → j < L →
      entry2 (mutateSetitemShift t) i j =
        if j ≤ L - 3 then entry2 t i (j + 1) else entry2 t i j) ∧
    sliceDim 1 0 (L - 1) (mutateSetitemShift t) = shiftAssignDim1 (sliceDim 1 0 (L - 1) t) ∧
    ((∃ i j, i < b ∧ j ≤ L - 3 ∧ entry2 t i j ≠ entry2 t i (j + 1)) →
      mutateSetitemShift t ≠ t) := by
  have hmut := mutateSetitemShift_rank2 hs
  have hwlen : t.data.length = b * L := by rw [hw, hs]; simp
  have hLne : L ≠ 0 := by omega
  have hcount : (chunkList L t.data).length = b := length_chunkList hLne t.data hwlen
  have huni : ∀ r ∈ (chunkList L t.data).map
      (fun r => ((r.drop 1).take (L - 2)) ++ r.drop (L - 2)), r.length = L := by
    intro r hr
    rcases List.mem_map.mp hr with ⟨row, hrow, rfl⟩
    have hrl : row.length = L := chunkList_length_mem hLne t.data hwlen hrow
    rw [List.length_append, List.length_take, List.length_drop, List.length_drop, hrl]
    omega
  have hwf : Wf (mutateSetitemShift t) := by
    unfold Wf
    rw [hmut]
    show (((chunkList L t.data).map _).flatten).length = ([b, L] : List ℕ).prod
    rw [length_flatten_uniform _ L huni, List.length_map, hcount]
    simp
  have hentry : ∀ i j, i < b → j < L →
      entry2 (mutateSetitemShift t) i j =
        if j ≤ L - 3 then entry2 t i (j + 1) else entry2 t i j := by
    intro i j hi hj
    unfold entry2
    have hg2 : t.shape.getD 1 0 = L := by rw [hs]; rfl
    rw [hmut, hg2]
    show (((chunkList L t.data).map
      (fun r => ((r.drop 1).take (L - 2)) ++ r.drop (L - 2))).flatten).getD (i * L + j) 0 = _
    rw [getD_flatten_uniform _ 0 huni i j hj]
    rw [getD_map_of_lt _ (by rw [hcount]; exact hi) [] []]
    set r := (chunkList L t.data).getD i [] with hrdef
    have hrl : r.length = L := by
      rw [hrdef, chunkList_getD hLne, List.length_take, List.length_drop, hwlen]
      have : (i + 1) * L ≤ b * L := Nat.mul_le_mul_right L (by omega)
      rw [Nat.add_mul, Nat.one_mul] at this
      omega
    have hrget : ∀ x, x < L → r.getD x 0 = t.data.getD (i * L + x) 0 := by
      intro x hx
      rw [hrdef, chunkList_getD hLne, getD_take _ hx, getD_drop]
    have hlen1 : ((r.drop 1).take (L - 2)).length = L - 2 := by
      rw [List.length_take, List.length_drop, hrl]
      omega
    by_cases hc : j ≤ L - 3
    · rw [if_pos hc]
      rw [getD_append_of_lt (by rw [hlen1]; omega)]
      rw [getD_take _ (by omega), getD_drop, hrget (1 + j) (by omega)]
      rw [show i * L + (1 + j) = i * L + (j + 1) by ring]
    · rw [if_neg hc]
      rw [getD_append_ge (by rw [hlen1]; omega)]
      rw [getD_drop, hlen1]
      rw [show L - 2 + (j - (L - 2)) = j by omega, hrget j hj]
  refine ⟨by rw [hmut], hwf, hentry, ?_, ?_⟩
  · -- the slice view forward computes with is the slice of the mutated tensor
    have hmin : min (L - 1) L - 0 = L - 1 := by omega
    have hm1 : (mutateSetitemShift t).shape = [b, L] := by rw [hmut]
    have hdatarows : chunkList L (mutateSetitemShift t).data
        = (chunkList L t.data).map (fun r => ((r.drop 1).take (L - 2)) ++ r.drop (L - 2)) := by
      rw [hmut]
      exact chunkList_flatten_uniform _ hLne huni
    have lhs_eq : sliceDim 1 0 (L - 1) (mutateSetitemShift t)
        = ⟨[b, L - 1], (((chunkList L t.data).map
            (fun r => (((r.drop 1).take (L - 2)) ++ r.drop (L - 2)))).map
            (fun r => (r.drop 0).take (L - 1))).flatten⟩ := by
      rw [sliceDim_rank2 hm1, hmin, hdatarows]
    have hsliceT : sliceDim 1 0 (L - 1) t = ⟨[b, L - 1],
        ((chunkList L t.data).map (fun r => (r.drop 0).take (L - 1))).flatten⟩ := by
      rw [sliceDim_rank2 hs, hmin]
    have hsliceshape : (sliceDim 1 0 (L - 1) t).shape = [b, L - 1] := by rw [hsliceT]
    have hsliceuni : ∀ r ∈ (chunkList L t.data).map (fun r => (r.drop 0).take (L - 1)),
        r.length = L - 1 := by
      intro r hr
      rcases List.mem_map.mp hr with ⟨row, hrow, rfl⟩
      have hrl : row.length = L := chunkList_length_mem hLne t.data hwlen hrow
      rw [List.length_take, List.length_drop, hrl]
      omega
    have hslicerows : chunkList (L - 1) (sliceDim 1 0 (L - 1) t).data
        = (chunkList L t.data).map (fun r => (r.drop 0).take (L - 1)) := by
      rw [hsliceT]
      exact chunkList_flatten_uniform _ (by omega) hsliceuni
    have rhs_eq : shiftAssignDim1 (sliceDim 1 0 (L - 1) t) = ⟨[b, L - 1],
        (((chunkList L t.data).map (fun r => (r.drop 0).take (L - 1))).map
          (fun r => (r.drop 1) ++ r.drop (L - 1 - 1))).flatten⟩ := by
      rw [shiftAssignDim1_rank2 hsliceshape, hslicerows]
    rw [lhs_eq, rhs_eq]
    congr 1
    rw [List.map_map, List.map_map]
    congr 1
    apply List.map_congr_left
    intro r hr
    have hrl := chunkList_length_mem hLne t.data hwlen hr
    show ((((r.drop 1).take (L - 2)) ++ r.drop (L - 2)).drop 0).take (L - 1)
        = (((r.drop 0).take (L - 1)).drop 1) ++ ((r.drop 0).take (L - 1)).drop (L - 1 - 1)
    rw [List.drop_zero, List.drop_zero]
    rw [List.take_append_eq_append_take]
    rw [List.take_of_length_le (by rw [List.length_take, List.length_drop, hrl]; omega)]
    rw [List.length_take, List.length_drop, hrl]
    rw [List.drop_take, List.drop_take]
    have e1 : L - 2 = L - 1 - 1 := by omega
    have e2 : L - 1 - (L - 1 - 1) ⊓ (L - 1) = L - 1 - (L - 1 - 1) := by omega
    simp only [e1, e2]
  · rintro ⟨i, j, hi, hj3, hne⟩ heq
    have h1 := hentry i j hi (by omega)
    rw [heq, if_pos hj3] at h1
    exact hne h1


/-- Witness for C10 at a concrete ids tensor: column 0 now holds column 1's
value. -/
theorem c10_forward_mutates_ids_witness :
    (Wf (⟨[1, 3], [10, 20, 30]⟩ : T ℤ) ∧ 3 ≤ 3) ∧
    entry2 (mutateSetitemShift ⟨[1, 3], [10, 20, 30]⟩) 0 0
      = entry2 (⟨[1, 3], [10, 20, 30]⟩ : T ℤ) 0 1 := by
  refine ⟨⟨by decide, by decide⟩, ?_⟩
  have h := (c10_forward_mutates_ids 1 3 ⟨[1, 3], [10, 20, 30]⟩ rfl (by decide)
    (by decide)).2.2.1 0 0 (by decide) (by decide)
  simpa using h

/-! ### C3: the inter-stage projector -/

/-- C3 counterexample: with a 1-dimensional identity projection, one batch
element and two positions holding 4 (the start-token position) and 9, the
source projects position 0 (value 4) — it dropped the LAST position — while
the claim's drop-the-start-token reading would project position 1
(value 9). -/
theorem c3_counterexample :
    nextStageRepr ⟨1, fun l => l⟩ 1 ⟨[1, 2, 1], [4, 9]⟩
      ≠ nextStageReprSpec ⟨1, fun l => l⟩ 1 ⟨[1, 2, 1], [4, 9]⟩ := by
  decide

/-- C3 as amended: the inter-stage projector drops the LAST position of the
stage output (keeping the prepended start-token position, so coarse position
`m` conditions fine block `m` causally), then linearly projects each of the
remaining `L-1` positions from `dim_i` to `dim_{i+1} * max_seq_len_{i+1}` and
reshapes each into `max_seq_len_{i+1}` fine positions of width `dim_{i+1}`,
in coarse-position-major order; the finest stage's projector is the
identity. -/
theorem c3_amended_projector (lin : RowFn) (nsl d2 : ℕ) (hout : lin.outLen = nsl * d2)
    (hlin : RowFn.Ok lin) {Nb L di : ℕ} (att : T ℚ) (hs : att.shape = [Nb, L, di])
    (hw : Wf att) (hL : 1 ≤ L) (hdi : di ≠ 0) (hnsl : nsl ≠ 0) :
    (dropLastPos att).shape = [Nb, L - 1, di] ∧ Wf (dropLastPos att) ∧
    (∀ n l q, n < Nb → l < L - 1 → q < di →
      entry3 (dropLastPos att) n l q = entry3 att n l q) ∧
    (nextStageRepr lin nsl att).shape = [Nb * (L - 1), nsl, d2] ∧
    Wf (nextStageRepr lin nsl att) ∧
    (∀ mm p e, mm < Nb * (L - 1) → p < nsl → e < d2 →
      entry3 (nextStageRepr lin nsl att) mm p e
        = (lin.fn (rowAt (dropLastPos att) mm)).getD (p * d2 + e) 0) ∧
    (∀ u : T ℚ, applyProj none u = u) := by
  have hdec : att.shape = [Nb] ++ L :: [di] := by rw [hs]; rfl
  have hdl : dropLastPos att = sliceDim 1 0 (L - 1) att := by
    unfold dropLastPos
    rw [hs]
    rfl
  have hmin : min (L - 1) L - 0 = L - 1 := by omega
  have hdrS : (dropLastPos att).shape = [Nb, L - 1, di] ∧ Wf (dropLastPos att) := by
    rw [hdl]
    have := sliceDim_specE [Nb] _ _ hdec hw 0 (L - 1)
    simpa [show min (L - 1) L = L - 1 by omega] using this
  have hentryDrop : ∀ n l q, n < Nb → l < L - 1 → q < di →
      entry3 (dropLastPos att) n l q = entry3 att n l q := by
    intro n l q hn hl hq
    unfold entry3
    have hg1 : (dropLastPos att).shape.getD 1 0 = L - 1 := by rw [hdrS.1]; rfl
    have hg2 : (dropLastPos att).shape.getD 2 0 = di := by rw [hdrS.1]; rfl
    have hg3 : att.shape.getD 1 0 = L := by rw [hs]; rfl
    have hg4 : att.shape.getD 2 0 = di := by rw [hs]; rfl
    rw [hg1, hg2, hg3, hg4, hdl]
    have := sliceDim_entryE [Nb] _ _ hdec hw 0 (L - 1)
      n l q (by simpa using hn) (by simpa [hmin] using hl)
      (by simpa using hq) 0
    simpa [hmin] using this
  -- the flattened-middle view of the dropped tensor
  have hflat : flattenMiddle (dropLastPos att) = ⟨[Nb, L - 1, di], (dropLastPos att).data⟩ := by
    unfold flattenMiddle reshapeT
    rw [hdrS.1]
    simp
  have hflatS : (flattenMiddle (dropLastPos att)).shape = [Nb, L - 1] ++ [di] := by
    rw [hflat]
    rfl
  have hflatW : Wf (flattenMiddle (dropLastPos att)) := by
    unfold Wf
    rw [hflat]
    show (dropLastPos att).data.length = ([Nb, L - 1, di] : List ℕ).prod
    rw [hdrS.2, hdrS.1]
  have hmap := mapLastRows_spec hflatS hflatW hdi lin.fn
    (fun r _ => hlin r)
  -- the projector output
  set u := mapLastRows lin.outLen lin.fn (flattenMiddle (dropLastPos att)) with hu
  have huS : u.shape = [Nb, L - 1, lin.outLen] := by
    rw [hu, hmap.1]
    rfl
  have hnext : nextStageRepr lin nsl att
      = reshapeT [Nb * (L - 1), nsl, d2] u := by
    show reshapeT [u.shape.getD 0 0 * u.shape.getD 1 0, nsl, lin.outLen / nsl] u
        = reshapeT [Nb * (L - 1), nsl, d2] u
    rw [huS, hout, Nat.mul_div_cancel_left d2 (Nat.pos_of_ne_zero hnsl)]
    rfl
  have hnextS : (nextStageRepr lin nsl att).shape = [Nb * (L - 1), nsl, d2] := by
    rw [hnext]
    rfl
  have hulen : u.data.length = (Nb * (L - 1)) * lin.outLen := by
    have h2 := hmap.2
    unfold Wf at h2
    rw [h2, huS]
    show Nb * ((L - 1) * (lin.outLen * 1)) = Nb * (L - 1) * lin.outLen
    ring
  have hnextW : Wf (nextStageRepr lin nsl att) := by
    unfold Wf
    rw [hnextS, hnext]
    show u.data.length = [Nb * (L - 1), nsl, d2].prod
    rw [hulen, hout]
    show Nb * (L - 1) * (nsl * d2) = Nb * (L - 1) * (nsl * (d2 * 1))
    ring
  refine ⟨hdrS.1, hdrS.2, hentryDrop, hnextS, hnextW, ?_, fun u => rfl⟩
  intro mm p e hmm hp he
  unfold entry3
  have hg1 : (nextStageRepr lin nsl att).shape.getD 1 0 = nsl := by rw [hnextS]; rfl
  have hg2 : (nextStageRepr lin nsl att).shape.getD 2 0 = d2 := by rw [hnextS]; rfl
  rw [hg1, hg2, hnext]
  show u.data.getD ((mm * nsl + p) * d2 + e) 0 = _
  have hudata : u.data = ((chunkList di (dropLastPos att).data).map lin.fn).flatten := by
    rw [hu]
    unfold mapLastRows
    have : lastLen (flattenMiddle (dropLastPos att)) = di := by
      unfold lastLen
      rw [hflatS]
      rfl
    rw [this, hflat]
  rw [hudata]
  have huni : ∀ r ∈ (chunkList di (dropLastPos att).data).map lin.fn,
      r.length = nsl * d2 := by
    intro r hr
    rcases List.mem_map.mp hr with ⟨row, hrow, rfl⟩
    rw [hlin row, hout]
  have hidx : (mm * nsl + p) * d2 + e = mm * (nsl * d2) + (p * d2 + e) := by ring
  have hje : p * d2 + e < nsl * d2 := by
    calc p * d2 + e < p * d2 + d2 := by omega
      _ = (p + 1) * d2 := by ring
      _ ≤ nsl * d2 := Nat.mul_le_mul_right d2 hp
  rw [hidx, getD_flatten_uniform _ _ huni mm (p * d2 + e) hje]
  have hdlen : (dropLastPos att).data.length = (Nb * (L - 1)) * di := by
    rw [hdrS.2, hdrS.1]
    show Nb * ((L - 1) * (di * 1)) = Nb * (L - 1) * di
    ring
  have hcnt : (chunkList di (dropLastPos att).data).length = Nb * (L - 1) :=
    length_chunkList hdi _ hdlen
  rw [getD_map_of_lt _ (by rw [hcnt]; exact hmm) [] []]
  congr 1
  unfold rowAt rowsT
  have : lastLen (dropLastPos att) = di := by
    unfold lastLen
    rw [hdrS.1]
    rfl
  rw [this]

/-- Witness for C3 at a concrete projection. -/
theorem c3_amended_projector_witness :
    ((⟨2, fun l => [l.headD 0, l.headD 0]⟩ : RowFn).outLen = 2 * 1 ∧
      RowFn.Ok ⟨2, fun l => [l.headD 0, l.headD 0]⟩ ∧
      Wf (⟨[1, 2, 1], [4, 9]⟩ : T ℚ)) ∧
    (nextStageRepr ⟨2, fun l => [l.headD 0, l.headD 0]⟩ 2 ⟨[1, 2, 1], [4, 9]⟩).shape
      = [1, 2, 1] := by
  refine ⟨⟨rfl, fun l => rfl, by decide⟩, ?_⟩
  have h := c3_amended_projector ⟨2, fun l => [l.headD 0, l.headD 0]⟩ 2 1 rfl
    (fun l => rfl) ⟨[1, 2, 1], [4, 9]⟩ rfl (by decide) (by decide) (by decide) (by decide)
  simpa using h.2.2.2.1

/-! ### General-rank lemmas for the stage loop -/

theorem dropLast2_append {α : Type} (pre : List α) (x y : α) :
    (pre ++ [x, y]).dropLast.dropLast = pre := by
  have h2 : pre ++ [x, y] = (pre ++ [x]) ++ [y] := by simp
  rw [h2]
  simp

theorem getD_last2_fst {α : Type} (pre : List α) (x y d : α) :
    (pre ++ [x, y]).getD ((pre ++ [x, y]).length - 2) d = x := by
  have h : (pre ++ [x, y]).length - 2 = pre.length := by simp
  rw [h]
  exact getD_at_length pre x [y] d

theorem getD_last2_snd {α : Type} (pre : List α) (x y d : α) :
    (pre ++ [x, y]).getD ((pre ++ [x, y]).length - 1) d = y := by
  have h : (pre ++ [x, y]).length - 1 = (pre ++ [x]).length := by simp
  have h2 : pre ++ [x, y] = (pre ++ [x]) ++ [y] := by simp
  rw [h2, show ((pre ++ [x]) ++ [y]).length - 1 = (pre ++ [x]).length by simp]
  exact getD_at_length (pre ++ [x]) y [] d

theorem prod_append_two (pre : List ℕ) (x y : ℕ) :
    (pre ++ [x, y]).prod = pre.prod * (x * y) := by
  simp [List.prod_append]

/-- Shape and well-formedness of the inter-stage projection applied to
`attended[..., :-1, :]`, at arbitrary rank: for `attended` of shape
`outer ++ [1 + n, d]` with `outer = o0 :: orest`, the projected
representation has shape `[outer.prod * n, nsl, d2]`. -/
theorem projNext_spec {lin : RowFn} {nsl d2 : ℕ} {o0 : ℕ} {orest : List ℕ} {nn d : ℕ}
    {attU : T ℚ} (hs : attU.shape = (o0 :: orest) ++ [1 + nn, d]) (hw : Wf attU)
    (hd : d ≠ 0) (hlin : RowFn.Ok lin) (hout : lin.outLen = nsl * d2) (hnsl : nsl ≠ 0) :
    (applyProj (some (lin, nsl)) (dropLastPos attU)).shape
        = [(o0 :: orest).prod * nn, nsl, d2] ∧
      Wf (applyProj (some (lin, nsl)) (dropLastPos attU)) := by
  have hax : attU.shape.length - 2 = (o0 :: orest).length := by rw [hs]; simp
  have hgd : attU.shape.getD (o0 :: orest).length 0 = 1 + nn := by
    rw [hs]
    exact getD_at_length (o0 :: orest) (1 + nn) [d] 0
  have hdl : dropLastPos attU = sliceDim (o0 :: orest).length 0 nn attU := by
    unfold dropLastPos
    rw [hax, hgd, show 1 + nn - 1 = nn by omega]
  have hslice := sliceDim_specE (o0 :: orest) (1 + nn) [d] hs hw 0 nn
  have hmin : min nn (1 + nn) - 0 = nn := by omega
  have hdropS : (dropLastPos attU).shape = (o0 :: orest) ++ [nn, d] := by
    rw [hdl, hslice.1, hmin]
  have hdropW : Wf (dropLastPos attU) := by rw [hdl]; exact hslice.2
  have hdlen : (dropLastPos attU).data.length = o0 * (orest.prod * (nn * d)) := by
    rw [hdropW, hdropS, prod_append_two]
    show o0 * orest.prod * (nn * d) = _
    ring
  have hfm : flattenMiddle (dropLastPos attU)
      = reshapeT [o0, orest.prod * nn, d] (dropLastPos attU) := by
    unfold flattenMiddle
    congr 1
    have hg0 : (dropLastPos attU).shape.getD 0 0 = o0 := by rw [hdropS]; rfl
    have hdrop1 : (dropLastPos attU).shape.drop 1 = orest ++ [nn, d] := by rw [hdropS]; rfl
    have hmidd : ((dropLastPos attU).shape.drop 1).dropLast = orest ++ [nn] := by
      rw [hdrop1, show orest ++ [nn, d] = (orest ++ [nn]) ++ [d] by simp]
      simp
    have hglast : (dropLastPos attU).shape.getD ((dropLastPos attU).shape.length - 1) 0
        = d := by
      rw [hdropS]
      exact getD_last2_snd (o0 :: orest) nn d 0
    rw [hg0, hmidd, hglast]
    simp [List.prod_append]
  have hfmS : (flattenMiddle (dropLastPos attU)).shape = [o0, orest.prod * nn] ++ [d] := by
    rw [hfm]; rfl
  have hfmW : Wf (flattenMiddle (dropLastPos attU)) := by
    unfold Wf
    rw [hfm]
    show (dropLastPos attU).data.length = ([o0, orest.prod * nn, d] : List ℕ).prod
    rw [hdlen]
    show _ = o0 * (orest.prod * nn * (d * 1))
    ring
  have hmap := mapLastRows_spec hfmS hfmW hd lin.fn (fun r _ => hlin r)
  set u := mapLastRows lin.outLen lin.fn (flattenMiddle (dropLastPos attU)) with hu
  have huS : u.shape = [o0, orest.prod * nn, lin.outLen] := by
    rw [hu, hmap.1]; rfl
  have hulen : u.data.length = o0 * (orest.prod * nn * (lin.outLen * 1)) := by
    have h2 := hmap.2
    unfold Wf at h2
    rw [h2, huS]
    rfl
  have hproj : applyProj (some (lin, nsl)) (dropLastPos attU)
      = reshapeT [o0 * (orest.prod * nn), nsl, d2] u := by
    show reshapeT [u.shape.getD 0 0 * u.shape.getD 1 0, nsl, lin.outLen / nsl] u = _
    rw [huS, hout, Nat.mul_div_cancel_left d2 (Nat.pos_of_ne_zero hnsl)]
    rfl
  constructor
  · rw [hproj]
    show [o0 * (orest.prod * nn), nsl, d2] = _
    have : o0 * (orest.prod * nn) = (o0 :: orest).prod * nn := by
      show _ = o0 * orest.prod * nn
      ring
    rw [this]
  · unfold Wf
    rw [hproj]
    show u.data.length = ([o0 * (orest.prod * nn), nsl, d2] : List ℕ).prod
    rw [hulen, hout]
    show o0 * (orest.prod * nn * (nsl * d2 * 1)) = o0 * (orest.prod * nn) * (nsl * (d2 * 1))
    ring

theorem exists_concat {α : Type} (l : List α) (h : l ≠ []) : ∃ xs x, l = xs ++ [x] := by
  induction l using List.reverseRecOn with
  | nil => exact absurd rfl h
  | append_singleton xs x _ => exact ⟨xs, x, rfl⟩

theorem exists_append_two {α : Type} (l : List α) (h : 2 ≤ l.length) :
    ∃ mid x y, l = mid ++ [x, y] := by
  obtain ⟨xs, y, rfl⟩ := exists_concat l (by intro hx; rw [hx] at h; simp at h)
  obtain ⟨mid, x, rfl⟩ := exists_concat xs (by
    intro hx
    rw [hx] at h
    simp at h)
  exact ⟨mid, x, y, by simp⟩

/-- Merging the two trailing axes is a pure reshape with the expected shape. -/
theorem mergeLast2_spec {α : Type} {t : T α} {pre : List ℕ} {x y : ℕ}
    (hs : t.shape = pre ++ [x, y]) (hw : Wf t) :
    (mergeLast2 t).shape = pre ++ [x * y] ∧ Wf (mergeLast2 t) ∧
      (mergeLast2 t).data = t.data := by
  have hS : (mergeLast2 t).shape = pre ++ [x * y] := by
    unfold mergeLast2 reshapeT
    show t.shape.dropLast.dropLast ++
        [t.shape.getD (t.shape.length - 2) 1 * t.shape.getD (t.shape.length - 1) 1] = _
    rw [hs, dropLast2_append, getD_last2_fst, getD_last2_snd]
  refine ⟨hS, ?_, rfl⟩
  unfold Wf
  rw [hS]
  show t.data.length = _
  rw [hw, hs, prod_append_two]
  simp [List.prod_append]

/-- Invariant of the coarse token-embedding recursion: starting from ids of
shape `base ++ suffix` with one suffix axis per remaining stage plus one, the
final ids merge the whole suffix into one axis, and the produced stage tensor
at position `i` (stage order) keeps the first `i + 1` suffix axes and ends in
the feature length of the corresponding embedding stack. -/
theorem buildAux_spec (cs : List (EmbFn × RowFn)) :
    ∀ (ids : T ℤ) (base suffix : List ℕ),
      ids.shape = base ++ suffix → suffix.length = cs.length + 1 → Wf ids →
      (∀ x ∈ suffix, x ≠ 0) →
      (∀ c ∈ cs, EmbFn.Ok c.1 ∧ c.1.dim ≠ 0 ∧ RowFn.Ok c.2) →
      (buildAux cs ids).1.shape = base ++ [suffix.prod] ∧ Wf (buildAux cs ids).1 ∧
      (buildAux cs ids).2.length = cs.length ∧
      ∀ i, i < cs.length →
        ((buildAux cs ids).2.getD i ⟨[], []⟩).shape
            = base ++ suffix.take (i + 1)
              ++ [(cs.getD (cs.length - 1 - i) ⟨⟨0, fun _ => []⟩, ⟨0, fun _ => []⟩⟩).2.outLen] ∧
        Wf ((buildAux cs ids).2.getD i ⟨[], []⟩) := by
  induction cs with
  | nil =>
    intro ids base suffix hs hlen hw hsx _
    obtain ⟨x, rfl⟩ : ∃ x, suffix = [x] := by
      cases suffix with
      | nil => simp at hlen
      | cons a t =>
        cases t with
        | nil => exact ⟨a, rfl⟩
        | cons b u => simp at hlen
    simp only [buildAux]
    refine ⟨?_, hw, rfl, by intro i hi; simp at hi⟩
    rw [hs]
    simp
  | cons c rest ih =>
    obtain ⟨e, r⟩ := c
    intro ids base suffix hs hlen hw hsx hcs
    have h2 : 2 ≤ suffix.length := by
      rw [hlen]
      simp
    obtain ⟨mid, x, y, rfl⟩ := exists_append_two suffix h2
    have hmidlen : mid.length = rest.length := by
      have hl2 : (mid ++ [x, y]).length = mid.length + 2 := by simp
      rw [hl2] at hlen
      simp at hlen
      omega
    have hx0 : x ≠ 0 := hsx x (by simp)
    have hy0 : y ≠ 0 := hsx y (by simp)
    obtain ⟨heOk, hedim, hrOk⟩ := hcs (e, r) (by simp)
    have hemb := embedMap_spec heOk hw
    have hembS : (embedMap e.dim e.fn ids).shape = (base ++ mid ++ [x]) ++ [y, e.dim] := by
      rw [hemb.1, hs]
      simp
    have hmrg := mergeLast2_spec hembS hemb.2
    have hmap := mapLastRows_spec hmrg.1 hmrg.2.1 (Nat.mul_ne_zero hy0 hedim) r.fn
      (fun l _ => hrOk l)
    have hms : ids.shape = (base ++ mid) ++ [x, y] := by rw [hs]; simp
    have hmm := mergeLast2_spec hms hw
    obtain ⟨hr1S, hr1W, hr2len, hr2⟩ := ih (mergeLast2 ids) base (mid ++ [x * y])
      (by rw [hmm.1]; simp) (by simp; omega) hmm.2.1
      (by
        intro z hz
        rcases List.mem_append.mp hz with hz | hz
        · exact hsx z (by simp [hz])
        · simp at hz
          rw [hz]
          exact Nat.mul_ne_zero hx0 hy0)
      (fun cc hcc => hcs cc (by simp [hcc]))
    simp only [buildAux]
    refine ⟨?_, hr1W, by simp [hr2len], ?_⟩
    · rw [hr1S]
      congr 2
      simp [List.prod_append]
    · intro i hi
      rcases Nat.lt_or_ge i rest.length with hilt | hige
      · rw [getD_append_of_lt (by rw [hr2len]; exact hilt)]
        obtain ⟨hsh, hwf⟩ := hr2 i hilt
        refine ⟨?_, hwf⟩
        rw [hsh]
        have htake : (mid ++ [x * y]).take (i + 1) = (mid ++ [x, y]).take (i + 1) := by
          rw [List.take_append_of_le_length (by omega),
            List.take_append_of_le_length (by omega)]
        have hidxeq : ((e, r) :: rest).getD (((e, r) :: rest).length - 1 - i)
              (⟨⟨0, fun _ => []⟩, ⟨0, fun _ => []⟩⟩ : EmbFn × RowFn)
            = rest.getD (rest.length - 1 - i) ⟨⟨0, fun _ => []⟩, ⟨0, fun _ => []⟩⟩ := by
          have h1 : ((e, r) :: rest).length - 1 - i = (rest.length - 1 - i) + 1 := by
            simp
            omega
          rw [h1, List.getD_cons_succ]
        rw [htake, hidxeq]
      · have hieq : i = rest.length := by
          simp only [List.length_cons] at hi
          omega
        subst hieq
        have hgd : (((buildAux rest (mergeLast2 ids)).2
            ++ [mapLastRows r.outLen r.fn (mergeLast2 (embedMap e.dim e.fn ids))]).getD
              rest.length ⟨[], []⟩)
            = mapLastRows r.outLen r.fn (mergeLast2 (embedMap e.dim e.fn ids)) := by
          rw [← hr2len]
          exact getD_at_length _ _ [] _
        rw [hgd]
        refine ⟨?_, hmap.2⟩
        rw [hmap.1]
        have htk : (mid ++ [x, y]).take (rest.length + 1) = mid ++ [x] := by
          rw [← hmidlen]
          rw [List.take_append_eq_append_take]
          simp
        have h0 : ((e, r) :: rest).length - 1 - rest.length = 0 := by simp
        rw [htk, h0]
        simp

/-- Packaging per-stage facts about the model lists into `StagesOk` for the
zipped list that `forward` feeds to the stage loop. -/
theorem stagesOk_zip (sts : List (List ℚ)) :
    ∀ (toks : List (T ℚ)) (trs : List (T ℚ → T ℚ))
      (lins : List RowFn) (nsls : List ℕ) (outer : List ℕ),
      toks.length = sts.length → trs.length = sts.length →
      lins.length + 1 = sts.length → nsls.length = lins.length →
      (∀ i, i < sts.length →
        (toks.getD i ⟨[], []⟩).shape
            = outer ++ nsls.take i ++ [(sts.getD i []).length] ∧
        Wf (toks.getD i ⟨[], []⟩) ∧ (sts.getD i []).length ≠ 0) →
      (∀ tr ∈ trs, TrOk tr) →
      (∀ i, i < lins.length →
        RowFn.Ok (lins.getD i ⟨0, fun _ => []⟩) ∧
        (lins.getD i ⟨0, fun _ => []⟩).outLen
            = nsls.getD i 0 * (sts.getD (i + 1) []).length ∧
        nsls.getD i 0 ≠ 0) →
      StagesOk outer (sts.zip (toks.zip (trs.zip ((lins.zip nsls).map some ++ [none]))))
        (outer ++ nsls) ((sts.getD (sts.length - 1) []).length) := by
  induction sts with
  | nil =>
    intro toks trs lins nsls outer _ _ hlins _ _ _ _
    simp at hlins
  | cons st sts ih =>
    intro toks trs lins nsls outer htoks htrs hlins hnsls htok htr hlin
    cases toks with
    | nil => simp at htoks
    | cons tok toks' =>
    cases trs with
    | nil => simp at htrs
    | cons tr trs' =>
    simp only [List.length_cons] at htoks htrs hlins
    cases lins with
    | nil =>
      cases nsls with
      | cons a b => simp at hnsls
      | nil =>
      cases sts with
      | cons s2 ss => simp at hlins
      | nil =>
      have h0 := htok 0 (by simp)
      simp only [List.getD_cons_zero, List.take_nil, List.append_nil] at h0
      exact ⟨by simp, rfl, h0.1, h0.2.1, h0.2.2, htr tr (by simp)⟩
    | cons lin lins' =>
      cases nsls with
      | nil => simp at hnsls
      | cons nsl nsls' =>
      simp only [List.length_cons] at hnsls
      cases sts with
      | nil => simp at hlins
      | cons st2 sts2 =>
      cases toks' with
      | nil => simp at htoks
      | cons tok2 toks2 =>
      cases trs' with
      | nil => simp at htrs
      | cons tr2 trs2 =>
      have h0 := htok 0 (by simp)
      simp only [List.getD_cons_zero, List.take_zero, List.append_nil] at h0
      have hl0 := hlin 0 (by simp)
      simp only [List.getD_cons_zero, List.getD_cons_succ] at hl0
      have hdl : ((st :: st2 :: sts2).getD ((st :: st2 :: sts2).length - 1) [])
          = ((st2 :: sts2).getD ((st2 :: sts2).length - 1) []) := by
        simp only [List.length_cons, Nat.add_sub_cancel, List.getD_cons_succ]
      simp only [List.length_cons] at htoks htrs hlins
      have hrec := ih (tok2 :: toks2) (tr2 :: trs2) lins' nsls' (outer ++ [nsl])
        (by simp only [List.length_cons]; omega)
        (by simp only [List.length_cons]; omega)
        (by simp only [List.length_cons]; omega)
        (by omega)
        (by
          intro i hi
          have hh := htok (i + 1) (by simp only [List.length_cons] at hi ⊢; omega)
          simp only [List.getD_cons_succ, List.take_succ_cons] at hh
          refine ⟨?_, hh.2.1, hh.2.2⟩
          rw [hh.1]
          simp)
        (fun tr3 htr3 => htr tr3 (by simp [htr3]))
        (by
          intro i hi
          have hh := hlin (i + 1) (by simp only [List.length_cons] at hi ⊢; omega)
          simp only [List.getD_cons_succ] at hh
          exact hh)
      have hitem : ((((st2 :: sts2).zip ((tok2 :: toks2).zip ((tr2 :: trs2).zip
            (List.map some (lins'.zip nsls') ++ [none])))).getD 0
            ([], ⟨[], []⟩, id, none)).1 : List ℚ) = st2 := by
        have e1 : (st2 :: sts2).zip ((tok2 :: toks2).zip ((tr2 :: trs2).zip
              (List.map some (lins'.zip nsls') ++ [none])))
            = List.zipWith Prod.mk (st2 :: sts2) ((tok2 :: toks2).zip ((tr2 :: trs2).zip
              (List.map some (lins'.zip nsls') ++ [none]))) := rfl
        rw [e1, getD_zipWith_of_lt Prod.mk (by simp) (by
            simp only [List.length_zip, List.length_cons, List.length_append,
              List.length_map, List.length_singleton]
            omega)
          (([], ⟨[], []⟩, id, none) : List ℚ × (T ℚ × ((T ℚ → T ℚ) × Option (RowFn × ℕ))))
          ([] : List ℚ)
          ((⟨[], []⟩, id, none) : T ℚ × ((T ℚ → T ℚ) × Option (RowFn × ℕ)))]
        rfl
      rw [List.zip_cons_cons, List.map_cons, List.cons_append, List.zip_cons_cons,
        List.zip_cons_cons, List.zip_cons_cons]
      simp only [StagesOk]
      refine ⟨h0.1, h0.2.1, h0.2.2, htr tr (by simp), hl0.1, by rw [hitem]; exact hl0.2.1,
        hl0.2.2, ?_⟩
      rw [hdl]
      have hfo : (outer ++ [nsl]) ++ nsls' = outer ++ nsl :: nsls' := by simp
      rw [← hfo]
      exact hrec

/-- One stage of the loop succeeds and produces `attended` of shape
`ou ++ [1 + n, d]` whenever the stage tokens have shape `ou ++ [n, d]` and
the incoming previous-stage representation (if any) has the packed shape
`[ou.prod, n, d]`. -/
theorem stageStep_spec {st : List ℚ} {tok : T ℚ} {tr : T ℚ → T ℚ} (pj : Option (RowFn × ℕ))
    {prev : Option (T ℚ)} {ou : List ℕ} {nn : ℕ}
    (htok : tok.shape = ou ++ [nn, st.length]) (hwtok : Wf tok) (htr : TrOk tr)
    (hprev : prev = none ∨
      ∃ p, prev = some p ∧ p.shape = [ou.prod, nn, st.length] ∧ Wf p) :
    ∃ attU, stageStep st tok tr pj prev = .ok (attU, applyProj pj (dropLastPos attU)) ∧
      attU.shape = ou ++ [1 + nn, st.length] ∧ Wf attU := by
  have hdl2 : tok.shape.dropLast.dropLast = ou := by
    rw [htok]
    exact dropLast2_append ou nn st.length
  have hg1 : tok.shape.getD (tok.shape.length - 2) 0 = nn := by
    rw [htok]
    exact getD_last2_fst ou nn st.length 0
  have hg2 : tok.shape.getD (tok.shape.length - 1) 0 = st.length := by
    rw [htok]
    exact getD_last2_snd ou nn st.length 0
  have hpacked : packStar tok = ⟨[ou.prod, nn, st.length], tok.data⟩ := by
    unfold packStar reshapeT
    rw [hdl2, hg1, hg2]
  have htlen : tok.data.length = ou.prod * (nn * st.length) := by
    rw [hwtok, htok, prod_append_two]
  have hstlen : ((List.replicate ou.prod st).flatten).length = ou.prod * st.length := by
    rw [length_flatten_uniform _ st.length (fun r hr => by
      rw [List.eq_of_mem_replicate hr]), List.length_replicate]
  have hwstart : Wf (⟨[ou.prod, 1, st.length],
      (List.replicate ou.prod st).flatten⟩ : T ℚ) := by
    unfold Wf
    show _ = ou.prod * (1 * (st.length * 1))
    rw [hstlen]
    ring
  have hwpacked : Wf (⟨[ou.prod, nn, st.length], tok.data⟩ : T ℚ) := by
    unfold Wf
    show _ = ou.prod * (nn * (st.length * 1))
    rw [htlen]
    ring
  have hcs := catDim_specE [ou.prod] 1 nn [st.length]
    ⟨[ou.prod, 1, st.length], (List.replicate ou.prod st).flatten⟩
    ⟨[ou.prod, nn, st.length], tok.data⟩ rfl rfl hwstart hwpacked
  have hlen1 : ([ou.prod] : List ℕ).length = 1 := rfl
  rw [hlen1] at hcs
  set catted := catDim 1 (⟨[ou.prod, 1, st.length], (List.replicate ou.prod st).flatten⟩ : T ℚ)
    (⟨[ou.prod, nn, st.length], tok.data⟩ : T ℚ) with hcatted
  have hcattedS : catted.shape = [ou.prod, 1 + nn, st.length] := hcs.1
  have hcattedW : Wf catted := hcs.2
  have hcat : CatOk 1 (⟨[ou.prod, 1, st.length], (List.replicate ou.prod st).flatten⟩ : T ℚ)
      (⟨[ou.prod, nn, st.length], tok.data⟩ : T ℚ) := rfl
  have hrun : ∃ sTok, (stageStep st tok tr pj prev
        = .ok (unpackStar ou (tr sTok),
          applyProj pj (dropLastPos (unpackStar ou (tr sTok))))) ∧
      sTok.shape = [ou.prod, 1 + nn, st.length] ∧ Wf sTok := by
    rcases hprev with hp | ⟨p, hp, hpS, hpW⟩
    · refine ⟨catted, ?_, hcattedS, hcattedW⟩
      simp only [stageStep]
      rw [hp, hpacked, hdl2]
      rw [show (⟨[ou.prod, nn, st.length], tok.data⟩ : T ℚ).shape.getD 0 0 = ou.prod
        from rfl]
      rw [if_pos hcat]
    · have hpp := catDim_specE [ou.prod] 1 nn [st.length]
        (constT ([ou.prod, nn, st.length].set 1 1) (0 : ℚ)) p
        (by rw [(constT_spec _ _).1]; rfl) hpS (constT_spec _ _).2 hpW
      rw [hlen1] at hpp
      have hppS : (padDimFrontOne 1 0 p).shape = [ou.prod, 1 + nn, st.length] := by
        unfold padDimFrontOne
        rw [hpS]
        exact hpp.1
      have hppW : Wf (padDimFrontOne 1 0 p) := by
        unfold padDimFrontOne
        rw [hpS]
        exact hpp.2
      have hadd : AddOk catted (padDimFrontOne 1 0 p) := by
        unfold AddOk
        rw [hcattedS, hppS]
      have hsum := addT_spec hadd hcattedW hppW
      have hadd2 : AddOk (catDim 1
          (⟨[ou.prod, 1, st.length], (List.replicate ou.prod st).flatten⟩ : T ℚ)
          (⟨[ou.prod, nn, st.length], tok.data⟩ : T ℚ)) (padDimFrontOne 1 0 p) := hadd
      refine ⟨addT catted (padDimFrontOne 1 0 p), ?_, by rw [hsum.1, hcattedS], hsum.2⟩
      simp only [stageStep]
      rw [hp, hpacked, hdl2]
      rw [show (⟨[ou.prod, nn, st.length], tok.data⟩ : T ℚ).shape.getD 0 0 = ou.prod
        from rfl]
      rw [if_pos hcat]
      dsimp only
      rw [if_pos hadd2]
  rcases hrun with ⟨sTok, hrun, hsS, hsW⟩
  have htrS := (htr sTok).1
  have htrW := (htr sTok).2 hsW
  have hattS : (unpackStar ou (tr sTok)).shape = ou ++ [1 + nn, st.length] := by
    unfold unpackStar reshapeT
    show ou ++ (tr sTok).shape.drop 1 = _
    rw [htrS, hsS]
    rfl
  have hattW : Wf (unpackStar ou (tr sTok)) := by
    unfold Wf
    show (tr sTok).data.length = (unpackStar ou (tr sTok)).shape.prod
    rw [hattS, htrW, htrS, hsS, prod_append_two]
    show ou.prod * ((1 + nn) * (st.length * 1)) = _
    ring
  exact ⟨unpackStar ou (tr sTok), hrun, hattS, hattW⟩

theorem dropLast_append_getLastD {α : Type} (l : List α) (h : l ≠ []) (d : α) :
    l.dropLast ++ [l.getLastD d] = l := by
  induction l using List.reverseRecOn with
  | nil => exact absurd rfl h
  | append_singleton xs x _ => simp

theorem prod_dropLast_getLastD (l : List ℕ) (h : l ≠ []) :
    l.dropLast.prod * l.getLastD 0 = l.prod := by
  conv_rhs => rw [← dropLast_append_getLastD l h 0]
  simp [List.prod_append]

/-- The stage loop runs to completion under `StagesOk` and returns the final
`attended`, of shape `fo.dropLast ++ [1 + fo.getLastD 0, dl]` (`fo` the final
stage's leading axes, `dl` its feature dimension). -/
theorem mainLoop_spec (rest : List (List ℚ × (T ℚ × ((T ℚ → T ℚ) × Option (RowFn × ℕ))))) :
    ∀ (st : List ℚ) (tok : T ℚ) (tr : T ℚ → T ℚ) (pj : Option (RowFn × ℕ))
      (outer fo : List ℕ) (dl : ℕ) (prev : Option (T ℚ)) (acc : T ℚ),
      2 ≤ outer.length →
      StagesOk outer ((st, tok, tr, pj) :: rest) fo dl →
      (prev = none ∨ ∃ p, prev = some p ∧
        p.shape = [outer.dropLast.prod, outer.getLastD 0, st.length] ∧ Wf p) →
      ∃ att, mainLoop ((st, tok, tr, pj) :: rest) prev acc = .ok att ∧
        att.shape = fo.dropLast ++ [1 + fo.getLastD 0, dl] ∧ Wf att := by
  induction rest with
  | nil =>
    intro st tok tr pj outer fo dl prev acc houter hok hprev
    match pj with
    | some q => exact absurd hok (by simp [StagesOk])
    | none =>
      obtain ⟨hfo, hdl, htokS, htokW, hd0, htr⟩ := hok
      have hne : outer ≠ [] := by intro h; rw [h] at houter; simp at houter
      have hdec : outer = outer.dropLast ++ [outer.getLastD 0] :=
        (dropLast_append_getLastD outer hne 0).symm
      have htok2 : tok.shape = outer.dropLast ++ [outer.getLastD 0, st.length] := by
        rw [htokS, hdec]
        simp
      obtain ⟨attU, hstep, hattS, hattW⟩ := stageStep_spec none htok2 htokW htr hprev
      refine ⟨attU, ?_, ?_, hattW⟩
      · simp only [mainLoop]
        rw [hstep]
      · rw [hattS, hfo, hdl]
  | cons item2 rest ih =>
    intro st tok tr pj outer fo dl prev acc houter hok hprev
    obtain ⟨st2, tok2, tr2, pj2⟩ := item2
    match pj with
    | none => exact absurd hok (by simp [StagesOk])
    | some (lin, nsl) =>
      obtain ⟨htokS, htokW, hd0, htr, hlin, hout, hnsl, hrest⟩ := hok
      have hout2 : lin.outLen = nsl * st2.length := hout
      have hne : outer ≠ [] := by intro h; rw [h] at houter; simp at houter
      have hdec : outer = outer.dropLast ++ [outer.getLastD 0] :=
        (dropLast_append_getLastD outer hne 0).symm
      have htok2 : tok.shape = outer.dropLast ++ [outer.getLastD 0, st.length] := by
        rw [htokS, hdec]
        simp
      obtain ⟨attU, hstep, hattS, hattW⟩ :=
        stageStep_spec (some (lin, nsl)) htok2 htokW htr hprev
      have hdlne : outer.dropLast ≠ [] := by
        intro h
        have hld : outer.dropLast.length = outer.length - 1 := List.length_dropLast outer
        rw [h] at hld
        simp at hld
        omega
      obtain ⟨o0, orest, hoo⟩ : ∃ o0 orest, outer.dropLast = o0 :: orest := by
        cases h : outer.dropLast with
        | nil => exact absurd h hdlne
        | cons a b => exact ⟨a, b, rfl⟩
      have hattS2 : attU.shape = (o0 :: orest) ++ [1 + outer.getLastD 0, st.length] := by
        rw [hattS, hoo]
      have hproj := projNext_spec hattS2 hattW hd0 hlin hout2 hnsl
      have hprodO : (o0 :: orest).prod * outer.getLastD 0 = outer.prod := by
        rw [← hoo]
        exact prod_dropLast_getLastD outer hne
      have hnext : (applyProj (some (lin, nsl)) (dropLastPos attU)).shape
          = [outer.prod, nsl, st2.length] := by
        rw [hproj.1, hprodO]
      have ho2 : 2 ≤ (outer ++ [nsl]).length := by
        rw [List.length_append]
        omega
      have hprev2 : some (applyProj (some (lin, nsl)) (dropLastPos attU)) = none ∨
          ∃ p, some (applyProj (some (lin, nsl)) (dropLastPos attU)) = some p ∧
            p.shape = [(outer ++ [nsl]).dropLast.prod, (outer ++ [nsl]).getLastD 0,
              st2.length] ∧ Wf p := by
        refine Or.inr ⟨_, rfl, ?_, hproj.2⟩
        rw [hnext]
        congr 2
        · simp
        · simp
      obtain ⟨att, hloop, hattS3, hattW3⟩ :=
        ih st2 tok2 tr2 pj2 (outer ++ [nsl]) fo dl _ attU ho2 hrest hprev2
      refine ⟨att, ?_, hattS3, hattW3⟩
      simp only [mainLoop]
      rw [hstep]
      exact hloop

/-- On a flat `(b, T)` batch with nonempty ids and targets, the ids
transformation at the top of `forward` succeeds and keeps the `(b, T)`
shape (column `T-1` of the targets replaces the dropped ids column). -/
theorem reconstructIds_flat {b L0 Tt : ℕ} {ids tg : T ℤ} (hi : ids.shape = [b, L0])
    (ht : tg.shape = [b, Tt]) (hwi : Wf ids) (hwt : Wf tg) (hL : 1 ≤ L0) (hT : 1 ≤ Tt) :
    ∃ ids3, reconstructIds ids tg = .ok ids3 ∧ ids3.shape = [b, L0] ∧ Wf ids3 := by
  have hidec : ids.shape = [b] ++ L0 :: [] := by rw [hi]; rfl
  have htdec : tg.shape = [b] ++ Tt :: [] := by rw [ht]; rfl
  have hg1 : ids.shape.getD 1 0 = L0 := by rw [hi]; rfl
  have hslice := sliceDim_specE [b] _ _ hidec hwi 0 (L0 - 1)
  rw [show ([b] : List ℕ).length = 1 from rfl] at hslice
  have hs1 : (sliceDim 1 0 (L0 - 1) ids).shape = [b, L0 - 1] := by
    rw [hslice.1]
    have hmin : min (L0 - 1) L0 - 0 = L0 - 1 := by omega
    rw [hmin]
    rfl
  have hs1W : Wf (sliceDim 1 0 (L0 - 1) ids) := hslice.2
  have hshift := shiftAssignDim1_rank2 hs1
  have hs2 : (shiftAssignDim1 (sliceDim 1 0 (L0 - 1) ids)).shape = [b, L0 - 1] := by
    rw [hshift]
  have hs2W : Wf (shiftAssignDim1 (sliceDim 1 0 (L0 - 1) ids)) := by
    unfold Wf
    rw [hshift]
    show (((chunkList (L0 - 1) (sliceDim 1 0 (L0 - 1) ids).data).map
        (fun r => (r.drop 1) ++ r.drop (L0 - 1 - 1))).flatten).length
      = ([b, L0 - 1] : List ℕ).prod
    have hdlen : (sliceDim 1 0 (L0 - 1) ids).data.length = b * (L0 - 1) := by
      rw [hs1W, hs1]
      show b * ((L0 - 1) * 1) = b * (L0 - 1)
      ring
    rcases Nat.eq_zero_or_pos (L0 - 1) with h0 | hpos
    · rw [h0, chunkList_zero]
      simp
    · have hcount : (chunkList (L0 - 1) (sliceDim 1 0 (L0 - 1) ids).data).length = b :=
        length_chunkList hpos.ne' _ hdlen
      rw [length_flatten_uniform _ (L0 - 1) ?hrows]
      · rw [List.length_map, hcount]
        show b * (L0 - 1) = b * ((L0 - 1) * 1)
        ring
      case hrows =>
        intro r hr
        rcases List.mem_map.mp hr with ⟨row, hrow, rfl⟩
        have hrl : row.length = L0 - 1 :=
          chunkList_length_mem hpos.ne' _ hdlen hrow
        rw [List.length_append, List.length_drop, List.length_drop, hrl]
        omega
  have htl := sliceDim_specE [b] _ _ htdec hwt (Tt - 1) Tt
  rw [show ([b] : List ℕ).length = 1 from rfl] at htl
  have htlS : (sliceDim 1 (Tt - 1) Tt tg).shape = [b, 1] := by
    rw [htl.1]
    have hmin : min Tt Tt - (Tt - 1) = 1 := by omega
    rw [hmin]
    rfl
  have hgt : tg.shape.getD 1 0 = Tt := by rw [ht]; rfl
  have hlen2 : (shiftAssignDim1 (sliceDim 1 0 (L0 - 1) ids)).shape.length - 1 = 1 := by
    rw [hs2]
    rfl
  have hcat : CatOk ((shiftAssignDim1 (sliceDim 1 0 (L0 - 1) ids)).shape.length - 1)
      (shiftAssignDim1 (sliceDim 1 0 (L0 - 1) ids)) (sliceDim 1 (Tt - 1) Tt tg) := by
    unfold CatOk
    rw [hlen2, hs2, htlS]
    rfl
  have hcs := catDim_specE [b] (L0 - 1) 1 []
    (shiftAssignDim1 (sliceDim 1 0 (L0 - 1) ids)) (sliceDim 1 (Tt - 1) Tt tg)
    (by rw [hs2]; rfl) (by rw [htlS]; rfl) hs2W htl.2
  have hcatS : (catDim 1 (shiftAssignDim1 (sliceDim 1 0 (L0 - 1) ids))
      (sliceDim 1 (Tt - 1) Tt tg)).shape = [b, L0] := by
    have h1 : ([b] : List ℕ).length = 1 := rfl
    rw [h1] at hcs
    rw [hcs.1]
    have : L0 - 1 + 1 = L0 := by omega
    rw [this]
    rfl
  have hcatW : Wf (catDim 1 (shiftAssignDim1 (sliceDim 1 0 (L0 - 1) ids))
      (sliceDim 1 (Tt - 1) Tt tg)) := by
    have h1 : ([b] : List ℕ).length = 1 := rfl
    rw [h1] at hcs
    exact hcs.2
  refine ⟨_, ?_, hcatS, hcatW⟩
  simp only [reconstructIds]
  rw [if_neg (by rw [hi, ht]; simp)]
  rw [hg1, hgt]
  rw [if_pos hcat, hlen2]

theorem remainderToMult_mod (n m : ℕ) (hm : m ≠ 0) : (n + remainderToMult n m) % m = 0 := by
  unfold remainderToMult
  have hlt : n % m < m := Nat.mod_lt _ (Nat.pos_of_ne_zero hm)
  rcases eq_or_ne (n % m) 0 with h | h
  · rw [h]
    simp [Nat.add_mod, Nat.mod_self, h]
  · have hp : (m - n % m) % m = m - n % m := Nat.mod_eq_of_lt (by omega)
    rw [hp, Nat.add_mod]
    rw [show n % m + (m - n % m) % m = m by rw [hp]; omega]
    exact Nat.mod_self m

theorem remainderToMult_eq_div_mul (n m : ℕ) (hm : m ≠ 0) :
    n + remainderToMult n m = ((n + remainderToMult n m) / m) * m :=
  (Nat.div_mul_cancel (Nat.dvd_of_mod_eq_zero (remainderToMult_mod n m hm))).symm

theorem remainderToMult_div_pos (n m : ℕ) (hm : m ≠ 0) (hn : 1 ≤ n) :
    1 ≤ (n + remainderToMult n m) / m := by
  by_contra hcon
  push_neg at hcon
  have h0 : (n + remainderToMult n m) / m = 0 := Nat.lt_one_iff.mp hcon
  have heq := remainderToMult_eq_div_mul n m hm
  rw [h0] at heq
  simp at heq
  omega

theorem remainderToMult_div_le (n m s0 : ℕ) (hm : m ≠ 0) (h : n ≤ s0 * m) :
    (n + remainderToMult n m) / m ≤ s0 := by
  have hmod := remainderToMult_mod n m hm
  have hlt : remainderToMult n m < m := by
    unfold remainderToMult
    exact Nat.mod_lt _ (Nat.pos_of_ne_zero hm)
  have hle : n + remainderToMult n m ≤ s0 * m := by
    by_contra hgt
    push_neg at hgt
    obtain ⟨k, hk⟩ := Nat.dvd_of_mod_eq_zero hmod
    rw [hk] at hgt
    rw [Nat.mul_comm m k] at hgt
    have h1 : s0 < k := Nat.lt_of_mul_lt_mul_right hgt
    have h2 : k * m < (s0 + 1) * m := by
      have hub : n + remainderToMult n m < s0 * m + m := by omega
      rw [hk, Nat.mul_comm m k] at hub
      have : (s0 + 1) * m = s0 * m + m := by ring
      omega
    have h3 : k < s0 + 1 := Nat.lt_of_mul_lt_mul_right h2
    omega
  calc (n + remainderToMult n m) / m ≤ (s0 * m) / m := Nat.div_le_div_right hle
    _ = s0 := Nat.mul_div_cancel _ (Nat.pos_of_ne_zero hm)

theorem getD_mem_of_lt {α : Type} {l : List α} {i : ℕ} (hi : i < l.length) (d : α) :
    l.getD i d ∈ l := by
  rw [List.getD_eq_getElem?_getD, List.getElem?_eq_getElem hi]
  exact List.getElem_mem hi

theorem getLastD_congr {α : Type} (l : List α) (h : l ≠ []) (d1 d2 : α) :
    l.getLastD d1 = l.getLastD d2 := by
  induction l using List.reverseRecOn with
  | nil => exact absurd rfl h
  | append_singleton xs x _ => simp

theorem forward_flat_both (M : MBModel) (hok : MBOk M) {b L0 Tt : ℕ} {ids0 targets : T ℤ}
    (hi : ids0.shape = [b, L0]) (ht : targets.shape = [b, Tt]) (hwi : Wf ids0)
    (hwt : Wf targets) (hb : b ≠ 0) (hL : 1 ≤ L0) (hT : 1 ≤ Tt)
    (hmax : L0 ≤ M.maxSeqLen.getD 0 0 * (M.maxSeqLen.drop 1).prod) :
    ∃ lgF lgT loss,
      forwardM M ids0 targets false = .ok (.logitsOnly lgF) ∧
      forwardM M ids0 targets true = .ok (.withLoss lgT loss) ∧
      lgF.shape = [b, L0, M.toLogits.outLen] ∧ Wf lgF ∧
      lgT.shape = [b, 1 + (L0 + remainderToMult L0 (M.maxSeqLen.drop 1).prod),
        M.toLogits.outLen] ∧ Wf lgT ∧
      (∀ bi j q, bi < b → j < L0 → q < M.toLogits.outLen →
        entry3 lgF bi j q = entry3 lgT bi (j + 1) q) := by
  obtain ⟨hmne, hstl, htrl, hcel, hpll, hsne, hstne, hfOk, hfd0, hfdl, hcok, hcoutl,
    htrok, hplok, hlogOk, hV0⟩ := hok
  obtain ⟨ids3, hrec, h3S, h3W⟩ := reconstructIds_flat hi ht hwi hwt hL hT
  have hndim : ids3.shape.length = 2 := by rw [h3S]; rfl
  have hne0 : ¬(ids3.data.length = 0) := by
    rw [h3W, h3S]
    show ¬(b * (L0 * 1) = 0)
    simp only [Nat.mul_one]
    exact Nat.mul_ne_zero hb (by omega)
  have hmm0 : (M.maxSeqLen.drop 1).prod ≠ 0 :=
    List.prod_ne_zero (fun hx => hsne 0 (List.mem_of_mem_drop hx) rfl)
  set padding := remainderToMult L0 ((M.maxSeqLen.drop 1).prod) with hpaddef
  set t := (L0 + padding) / ((M.maxSeqLen.drop 1).prod) with htdef
  have hmul : L0 + padding = t * (M.maxSeqLen.drop 1).prod :=
    remainderToMult_eq_div_mul L0 _ hmm0
  have ht1 : 1 ≤ t := remainderToMult_div_pos L0 _ hmm0 hL
  have hts0 : t ≤ M.maxSeqLen.getD 0 0 := remainderToMult_div_le L0 _ _ hmm0 hmax
  -- facts about the padded + reshaped ids
  have hpadc := catDim_specE [b] L0 padding []
    ids3 (constT (ids3.shape.set 1 padding) M.padId)
    (by rw [h3S]; rfl)
    (by rw [(constT_spec _ _).1, h3S]; rfl)
    h3W (constT_spec _ _).2
  rw [show ([b] : List ℕ).length = 1 from rfl] at hpadc
  have hlen31 : ids3.shape.length - 1 = 1 := by rw [h3S]; rfl
  have hplS : (padLastRight padding M.padId ids3).shape = [b, L0 + padding] := by
    unfold padLastRight
    rw [hlen31]
    rw [hpadc.1]
    rfl
  have hplW : Wf (padLastRight padding M.padId ids3) := by
    unfold padLastRight
    rw [hlen31]
    exact hpadc.2
  have hidsPS : (reshapeT ([b, t] ++ M.maxSeqLen.drop 1)
      (padLastRight padding M.padId ids3)).shape = [b, t] ++ M.maxSeqLen.drop 1 := rfl
  have hidsPW : Wf (reshapeT ([b, t] ++ M.maxSeqLen.drop 1)
      (padLastRight padding M.padId ids3)) := by
    unfold Wf
    rw [hidsPS]
    show (padLastRight padding M.padId ids3).data.length = _
    rw [hplW, hplS]
    show b * ((L0 + padding) * 1) = ([b, t] ++ M.maxSeqLen.drop 1).prod
    rw [show ([b, t] ++ M.maxSeqLen.drop 1 : List ℕ) = [b] ++ t :: M.maxSeqLen.drop 1
      from rfl, prod_decomp, hmul]
    simp only [List.prod_cons, List.prod_nil]
    ring
  -- token construction facts
  have hslen : (M.maxSeqLen.drop 1).length = M.maxSeqLen.length - 1 := List.length_drop 1 _
  have hSpos : 1 ≤ M.maxSeqLen.length := by
    cases h : M.maxSeqLen with
    | nil => exact absurd h hmne
    | cons a l => simp
  have hbuild := buildAux_spec M.coarseEmbs
    (reshapeT ([b, t] ++ M.maxSeqLen.drop 1) (padLastRight padding M.padId ids3))
    [b] (t :: M.maxSeqLen.drop 1)
    (by rw [hidsPS]; rfl)
    (by simp only [List.length_cons]; omega)
    hidsPW
    (by
      intro x hx
      rcases List.mem_cons.mp hx with hx | hx
      · rw [hx]; omega
      · exact hsne x (List.mem_of_mem_drop hx))
    hcok
  have hfine := embedMap_spec hfOk hidsPW
  have hbt2 : (buildTokens M (reshapeT ([b, t] ++ M.maxSeqLen.drop 1)
        (padLastRight padding M.padId ids3))).2
      = (buildAux M.coarseEmbs (reshapeT ([b, t] ++ M.maxSeqLen.drop 1)
          (padLastRight padding M.padId ids3))).2
        ++ [embedMap M.fineEmb.dim M.fineEmb.fn (reshapeT ([b, t] ++ M.maxSeqLen.drop 1)
          (padLastRight padding M.padId ids3))] := rfl
  have htoki : ∀ i, i < M.startTokens.length →
      ((buildTokens M (reshapeT ([b, t] ++ M.maxSeqLen.drop 1)
          (padLastRight padding M.padId ids3))).2.getD i ⟨[], []⟩).shape
        = [b, t] ++ (M.maxSeqLen.drop 1).take i ++ [(M.startTokens.getD i []).length] ∧
      Wf ((buildTokens M (reshapeT ([b, t] ++ M.maxSeqLen.drop 1)
          (padLastRight padding M.padId ids3))).2.getD i ⟨[], []⟩) ∧
      (M.startTokens.getD i []).length ≠ 0 := by
    intro i hi
    have hne0i : (M.startTokens.getD i []).length ≠ 0 :=
      hstne _ (getD_mem_of_lt hi [])
    rw [hbt2]
    rcases Nat.lt_or_ge i M.coarseEmbs.length with hic | hic
    · rw [getD_append_of_lt (by rw [hbuild.2.2.1]; exact hic)]
      obtain ⟨hsh, hwf⟩ := hbuild.2.2.2 i hic
      refine ⟨?_, hwf, hne0i⟩
      rw [hsh]
      rw [hcoutl (M.coarseEmbs.length - 1 - i) (by omega)]
      rw [show M.coarseEmbs.length - 1 - (M.coarseEmbs.length - 1 - i) = i by omega]
      rw [show (t :: M.maxSeqLen.drop 1).take (i + 1)
        = t :: (M.maxSeqLen.drop 1).take i from rfl]
      rfl
    · have hieq : i = M.coarseEmbs.length := by omega
      subst hieq
      rw [show ((buildAux M.coarseEmbs (reshapeT ([b, t] ++ M.maxSeqLen.drop 1)
            (padLastRight padding M.padId ids3))).2
          ++ [embedMap M.fineEmb.dim M.fineEmb.fn (reshapeT ([b, t] ++ M.maxSeqLen.drop 1)
            (padLastRight padding M.padId ids3))]).getD M.coarseEmbs.length ⟨[], []⟩
          = embedMap M.fineEmb.dim M.fineEmb.fn (reshapeT ([b, t] ++ M.maxSeqLen.drop 1)
            (padLastRight padding M.padId ids3)) by
        rw [← hbuild.2.2.1]
        exact getD_at_length _ _ [] _]
      refine ⟨?_, hfine.2, hne0i⟩
      rw [hfine.1, hidsPS]
      rw [show (M.maxSeqLen.drop 1).take M.coarseEmbs.length = M.maxSeqLen.drop 1 by
        apply List.take_of_length_le
        omega]
      rw [hfdl, hstl]
      rw [show M.maxSeqLen.length - 1 = M.coarseEmbs.length by omega]
  have hzip := stagesOk_zip M.startTokens
    (buildTokens M (reshapeT ([b, t] ++ M.maxSeqLen.drop 1)
      (padLastRight padding M.padId ids3))).2
    M.transformers M.projLinears (M.maxSeqLen.drop 1) [b, t]
    (by rw [hbt2]; simp only [List.length_append, List.length_singleton, hbuild.2.2.1]; omega)
    (by omega)
    (by omega)
    (by omega)
    htoki htrok
    (by
      intro i hi
      exact hplok i hi)
  -- expose the head of every per-stage list
  have hstne2 : M.startTokens ≠ [] := by
    intro h
    rw [h] at hstl
    simp at hstl
    omega
  obtain ⟨st0, sts1, hst0⟩ := List.exists_cons_of_ne_nil hstne2
  have htkne : (buildTokens M (reshapeT ([b, t] ++ M.maxSeqLen.drop 1)
      (padLastRight padding M.padId ids3))).2 ≠ [] := by
    rw [hbt2]
    simp
  obtain ⟨tk0, tks1, htk0⟩ := List.exists_cons_of_ne_nil htkne
  have htrne : M.transformers ≠ [] := by
    intro h
    rw [h] at htrl
    simp at htrl
    omega
  obtain ⟨tr0, trs1, htr0⟩ := List.exists_cons_of_ne_nil htrne
  have hppne : (M.projLinears.zip (M.maxSeqLen.drop 1)).map some ++ [none] ≠ [] := by
    simp
  obtain ⟨pp0, pps1, hpp0⟩ := List.exists_cons_of_ne_nil hppne
  have hppeq : M.projPlan = (M.projLinears.zip (M.maxSeqLen.drop 1)).map some ++ [none] :=
    rfl
  -- run the stage loop
  rw [hst0, htk0, htr0, hpp0] at hzip
  rw [List.zip_cons_cons, List.zip_cons_cons, List.zip_cons_cons] at hzip
  obtain ⟨att, hml, hattS, hattW⟩ := mainLoop_spec
    (sts1.zip (tks1.zip (trs1.zip pps1))) st0 tk0 tr0 pp0 [b, t] _ _
    none ⟨[], []⟩ (by simp) hzip (Or.inl rfl)
  -- logits shapes
  have hdl0 : ((st0 :: sts1).getD ((st0 :: sts1).length - 1) []).length ≠ 0 := by
    refine hstne _ ?_
    rw [hst0]
    exact getD_mem_of_lt (by simp) []
  have hlog := mapLastRows_specE
    (([b, t] ++ M.maxSeqLen.drop 1).dropLast
      ++ [1 + ([b, t] ++ M.maxSeqLen.drop 1).getLastD 0])
    (((st0 :: sts1).getD ((st0 :: sts1).length - 1) []).length)
    (by rw [hattS]; simp) hattW hdl0 M.toLogits.fn (fun r _ => hlogOk r)
  have hlogS : (mapLastRows M.toLogits.outLen M.toLogits.fn att).shape
      = ([b, t] ++ M.maxSeqLen.drop 1).dropLast
        ++ [1 + ([b, t] ++ M.maxSeqLen.drop 1).getLastD 0, M.toLogits.outLen] := by
    rw [hlog.1]
    simp
  have hloglen : (mapLastRows M.toLogits.outLen M.toLogits.fn att).shape.length - 2
      = ([b, t] ++ M.maxSeqLen.drop 1).dropLast.length := by
    rw [hlogS]
    simp
  have hlogget : (mapLastRows M.toLogits.outLen M.toLogits.fn att).shape.getD
        (([b, t] ++ M.maxSeqLen.drop 1).dropLast.length) 0
      = 1 + ([b, t] ++ M.maxSeqLen.drop 1).getLastD 0 := by
    rw [hlogS]
    exact getD_at_length _ _ _ _
  -- drop the start-token position
  have hsl2 := sliceDim_specE (([b, t] ++ M.maxSeqLen.drop 1).dropLast)
    (1 + ([b, t] ++ M.maxSeqLen.drop 1).getLastD 0) [M.toLogits.outLen]
    hlogS hlog.2 1 (1 + ([b, t] ++ M.maxSeqLen.drop 1).getLastD 0)
  have hsl2S : (sliceDim ([b, t] ++ M.maxSeqLen.drop 1).dropLast.length 1
        (1 + ([b, t] ++ M.maxSeqLen.drop 1).getLastD 0)
        (mapLastRows M.toLogits.outLen M.toLogits.fn att)).shape
      = ([b, t] ++ M.maxSeqLen.drop 1).dropLast
        ++ [([b, t] ++ M.maxSeqLen.drop 1).getLastD 0, M.toLogits.outLen] := by
    rw [hsl2.1]
    congr 2
    omega
  -- flatten the middle axes and trim the padding
  have hfod : ([b, t] ++ M.maxSeqLen.drop 1).dropLast
      = b :: (t :: M.maxSeqLen.drop 1).dropLast := rfl
  have hg : ([b, t] ++ M.maxSeqLen.drop 1).getLastD 0
      = (t :: M.maxSeqLen.drop 1).getLastD 0 := by
    rw [show ([b, t] ++ M.maxSeqLen.drop 1 : List ℕ)
      = b :: (t :: M.maxSeqLen.drop 1) from rfl]
    rw [List.getLastD_cons]
    exact getLastD_congr _ (by simp) _ _
  have hP : ((t :: M.maxSeqLen.drop 1).dropLast
        ++ [([b, t] ++ M.maxSeqLen.drop 1).getLastD 0]).prod = L0 + padding := by
    rw [hg]
    rw [dropLast_append_getLastD (t :: M.maxSeqLen.drop 1) (by simp) 0]
    rw [List.prod_cons, hmul]
  have hfm : flattenMiddle (sliceDim ([b, t] ++ M.maxSeqLen.drop 1).dropLast.length 1
        (1 + ([b, t] ++ M.maxSeqLen.drop 1).getLastD 0)
        (mapLastRows M.toLogits.outLen M.toLogits.fn att))
      = reshapeT [b, L0 + padding, M.toLogits.outLen]
        (sliceDim ([b, t] ++ M.maxSeqLen.drop 1).dropLast.length 1
          (1 + ([b, t] ++ M.maxSeqLen.drop 1).getLastD 0)
          (mapLastRows M.toLogits.outLen M.toLogits.fn att)) := by
    unfold flattenMiddle
    congr 1
    have hx0 : (sliceDim ([b, t] ++ M.maxSeqLen.drop 1).dropLast.length 1
          (1 + ([b, t] ++ M.maxSeqLen.drop 1).getLastD 0)
          (mapLastRows M.toLogits.outLen M.toLogits.fn att)).shape.getD 0 0 = b := by
      rw [hsl2S, hfod]
      rfl
    have hx1 : ((sliceDim ([b, t] ++ M.maxSeqLen.drop 1).dropLast.length 1
          (1 + ([b, t] ++ M.maxSeqLen.drop 1).getLastD 0)
          (mapLastRows M.toLogits.outLen M.toLogits.fn att)).shape.drop 1).dropLast
        = (t :: M.maxSeqLen.drop 1).dropLast
          ++ [([b, t] ++ M.maxSeqLen.drop 1).getLastD 0] := by
      rw [hsl2S, hfod]
      rw [show (b :: (t :: M.maxSeqLen.drop 1).dropLast)
            ++ [([b, t] ++ M.maxSeqLen.drop 1).getLastD 0, M.toLogits.outLen]
          = b :: ((t :: M.maxSeqLen.drop 1).dropLast
            ++ [([b, t] ++ M.maxSeqLen.drop 1).getLastD 0, M.toLogits.outLen]) from rfl]
      rw [List.drop_succ_cons, List.drop_zero]
      rw [show (t :: M.maxSeqLen.drop 1).dropLast
            ++ [([b, t] ++ M.maxSeqLen.drop 1).getLastD 0, M.toLogits.outLen]
          = ((t :: M.maxSeqLen.drop 1).dropLast
            ++ [([b, t] ++ M.maxSeqLen.drop 1).getLastD 0]) ++ [M.toLogits.outLen] by
        simp]
      simp
    have hx2 : (sliceDim ([b, t] ++ M.maxSeqLen.drop 1).dropLast.length 1
          (1 + ([b, t] ++ M.maxSeqLen.drop 1).getLastD 0)
          (mapLastRows M.toLogits.outLen M.toLogits.fn att)).shape.getD
          ((sliceDim ([b, t] ++ M.maxSeqLen.drop 1).dropLast.length 1
            (1 + ([b, t] ++ M.maxSeqLen.drop 1).getLastD 0)
            (mapLastRows M.toLogits.outLen M.toLogits.fn att)).shape.length - 1) 0
        = M.toLogits.outLen := by
      rw [hsl2S, hfod]
      exact getD_last2_snd _ _ _ _
    rw [hx0, hx1, hx2, hP]
  have hfmS : (reshapeT [b, L0 + padding, M.toLogits.outLen]
      (sliceDim ([b, t] ++ M.maxSeqLen.drop 1).dropLast.length 1
        (1 + ([b, t] ++ M.maxSeqLen.drop 1).getLastD 0)
        (mapLastRows M.toLogits.outLen M.toLogits.fn att))).shape
      = [b] ++ (L0 + padding) :: [M.toLogits.outLen] := rfl
  have hfmW : Wf (reshapeT [b, L0 + padding, M.toLogits.outLen]
      (sliceDim ([b, t] ++ M.maxSeqLen.drop 1).dropLast.length 1
        (1 + ([b, t] ++ M.maxSeqLen.drop 1).getLastD 0)
        (mapLastRows M.toLogits.outLen M.toLogits.fn att))) := by
    have hP2 : (t :: M.maxSeqLen.drop 1).dropLast.prod
        * ([b, t] ++ M.maxSeqLen.drop 1).getLastD 0 = L0 + padding := by
      rw [← hP]
      simp [List.prod_append]
    unfold Wf
    rw [hfmS]
    show (sliceDim ([b, t] ++ M.maxSeqLen.drop 1).dropLast.length 1
        (1 + ([b, t] ++ M.maxSeqLen.drop 1).getLastD 0)
        (mapLastRows M.toLogits.outLen M.toLogits.fn att)).data.length = _
    rw [hsl2.2, hsl2S, hfod, prod_append_two, List.prod_cons, ← hP2]
    show b * (t :: M.maxSeqLen.drop 1).dropLast.prod
        * (([b, t] ++ M.maxSeqLen.drop 1).getLastD 0 * M.toLogits.outLen)
      = b * ((t :: M.maxSeqLen.drop 1).dropLast.prod
          * ([b, t] ++ M.maxSeqLen.drop 1).getLastD 0 * (M.toLogits.outLen * 1))
    ring
  have hfin := sliceDim_specE [b] (L0 + padding) [M.toLogits.outLen] hfmS hfmW 0 L0
  rw [show ([b] : List ℕ).length = 1 from rfl] at hfin
  have hfinS : (sliceDim 1 0 L0 (reshapeT [b, L0 + padding, M.toLogits.outLen]
      (sliceDim ([b, t] ++ M.maxSeqLen.drop 1).dropLast.length 1
        (1 + ([b, t] ++ M.maxSeqLen.drop 1).getLastD 0)
        (mapLastRows M.toLogits.outLen M.toLogits.fn att)))).shape
      = [b, L0, M.toLogits.outLen] := by
    rw [hfin.1]
    rw [show min L0 (L0 + padding) - 0 = L0 by omega]
    rfl
  -- the loss path: extract and re-prepend the start-token logits
  have hlg0 : (mapLastRows M.toLogits.outLen M.toLogits.fn att).shape.getD 0 0 = b := by
    rw [hlogS, hfod]
    rfl
  have hll : lastLen (mapLastRows M.toLogits.outLen M.toLogits.fn att)
      = M.toLogits.outLen := by
    unfold lastLen
    rw [hlogS, hfod]
    exact getD_last2_snd _ _ _ _
  have hApne : (t :: M.maxSeqLen.drop 1).dropLast.prod ≠ 0 := by
    refine List.prod_ne_zero ?_
    intro hmem
    rcases List.mem_cons.mp (List.dropLast_subset _ hmem) with hc | hc
    · omega
    · exact hsne 0 (List.mem_of_mem_drop hc) rfl
  have hstW : Wf (reshapeT [b, 1, M.toLogits.outLen]
      (startExtract (mapLastRows M.toLogits.outLen M.toLogits.fn att))) := by
    unfold Wf
    show (startExtract (mapLastRows M.toLogits.outLen M.toLogits.fn att)).data.length
      = ([b, 1, M.toLogits.outLen] : List ℕ).prod
    unfold startExtract
    show (((chunkList (((mapLastRows M.toLogits.outLen M.toLogits.fn att).shape.drop 1).prod)
        (mapLastRows M.toLogits.outLen M.toLogits.fn att).data).map
        (fun blk => blk.take (lastLen (mapLastRows M.toLogits.outLen M.toLogits.fn att)))).flatten).length
      = _
    rw [hll]
    have hdrop1 : ((mapLastRows M.toLogits.outLen M.toLogits.fn att).shape.drop 1).prod
        = (t :: M.maxSeqLen.drop 1).dropLast.prod
          * ((1 + ([b, t] ++ M.maxSeqLen.drop 1).getLastD 0) * M.toLogits.outLen) := by
      rw [hlogS, hfod]
      rw [show ((b :: (t :: M.maxSeqLen.drop 1).dropLast)
            ++ [1 + ([b, t] ++ M.maxSeqLen.drop 1).getLastD 0, M.toLogits.outLen]).drop 1
          = (t :: M.maxSeqLen.drop 1).dropLast
            ++ [1 + ([b, t] ++ M.maxSeqLen.drop 1).getLastD 0, M.toLogits.outLen] from rfl]
      rw [prod_append_two]
    have hC0 : ((mapLastRows M.toLogits.outLen M.toLogits.fn att).shape.drop 1).prod ≠ 0 := by
      rw [hdrop1]
      exact Nat.mul_ne_zero hApne (Nat.mul_ne_zero (by omega) hV0)
    have hVleC : M.toLogits.outLen
        ≤ ((mapLastRows M.toLogits.outLen M.toLogits.fn att).shape.drop 1).prod := by
      rw [hdrop1]
      calc M.toLogits.outLen
          ≤ (1 + ([b, t] ++ M.maxSeqLen.drop 1).getLastD 0) * M.toLogits.outLen := by
            have h1 : 1 ≤ 1 + ([b, t] ++ M.maxSeqLen.drop 1).getLastD 0 := by omega
            calc M.toLogits.outLen = 1 * M.toLogits.outLen := by ring
              _ ≤ _ := Nat.mul_le_mul_right _ h1
        _ ≤ _ := by
            have h2 : 1 ≤ (t :: M.maxSeqLen.drop 1).dropLast.prod :=
              Nat.pos_of_ne_zero hApne
            calc (1 + ([b, t] ++ M.maxSeqLen.drop 1).getLastD 0) * M.toLogits.outLen
                = 1 * ((1 + ([b, t] ++ M.maxSeqLen.drop 1).getLastD 0)
                  * M.toLogits.outLen) := by ring
              _ ≤ _ := Nat.mul_le_mul_right _ h2
    have hloglen2 : (mapLastRows M.toLogits.outLen M.toLogits.fn att).data.length
        = b * ((mapLastRows M.toLogits.outLen M.toLogits.fn att).shape.drop 1).prod := by
      rw [hlog.2, hlogS, hfod]
      show (b :: ((t :: M.maxSeqLen.drop 1).dropLast
          ++ [1 + ([b, t] ++ M.maxSeqLen.drop 1).getLastD 0, M.toLogits.outLen])).prod
        = b * ((t :: M.maxSeqLen.drop 1).dropLast
          ++ [1 + ([b, t] ++ M.maxSeqLen.drop 1).getLastD 0, M.toLogits.outLen]).prod
      rw [List.prod_cons]
    have hcount : (chunkList (((mapLastRows M.toLogits.outLen M.toLogits.fn att).shape.drop
        1).prod) (mapLastRows M.toLogits.outLen M.toLogits.fn att).data).length = b :=
      length_chunkList hC0 _ hloglen2
    rw [length_flatten_uniform _ M.toLogits.outLen ?hu, List.length_map, hcount]
    · show b * M.toLogits.outLen = b * (1 * (M.toLogits.outLen * 1))
      ring
    case hu =>
      intro r hr
      rcases List.mem_map.mp hr with ⟨blk, hblk, rfl⟩
      have hbl := chunkList_length_mem hC0 _ hloglen2 hblk
      rw [List.length_take, hbl]
      omega
  have hcat2 : CatOk 1 (reshapeT [b, 1, M.toLogits.outLen]
      (startExtract (mapLastRows M.toLogits.outLen M.toLogits.fn att)))
      (reshapeT [b, L0 + padding, M.toLogits.outLen]
        (sliceDim ([b, t] ++ M.maxSeqLen.drop 1).dropLast.length 1
          (1 + ([b, t] ++ M.maxSeqLen.drop 1).getLastD 0)
          (mapLastRows M.toLogits.outLen M.toLogits.fn att))) := rfl
  have hTc := catDim_specE [b] 1 (L0 + padding) [M.toLogits.outLen]
    (reshapeT [b, 1, M.toLogits.outLen]
      (startExtract (mapLastRows M.toLogits.outLen M.toLogits.fn att)))
    (reshapeT [b, L0 + padding, M.toLogits.outLen]
      (sliceDim ([b, t] ++ M.maxSeqLen.drop 1).dropLast.length 1
        (1 + ([b, t] ++ M.maxSeqLen.drop 1).getLastD 0)
        (mapLastRows M.toLogits.outLen M.toLogits.fn att)))
    rfl rfl hstW hfmW
  rw [show ([b] : List ℕ).length = 1 from rfl] at hTc
  have hmain : ∀ rL : Bool, forwardM M ids0 targets rL
      = if ¬rL = true then
          .ok (.logitsOnly (sliceDim 1 0 L0 (reshapeT [b, L0 + padding, M.toLogits.outLen]
            (sliceDim ([b, t] ++ M.maxSeqLen.drop 1).dropLast.length 1
              (1 + ([b, t] ++ M.maxSeqLen.drop 1).getLastD 0)
              (mapLastRows M.toLogits.outLen M.toLogits.fn att)))))
        else
          .ok (.withLoss
            (catDim 1 (reshapeT [b, 1, M.toLogits.outLen]
              (startExtract (mapLastRows M.toLogits.outLen M.toLogits.fn att)))
              (reshapeT [b, L0 + padding, M.toLogits.outLen]
                (sliceDim ([b, t] ++ M.maxSeqLen.drop 1).dropLast.length 1
                  (1 + ([b, t] ++ M.maxSeqLen.drop 1).getLastD 0)
                  (mapLastRows M.toLogits.outLen M.toLogits.fn att))))
            (computeLoss3 M
              (catDim 1 (reshapeT [b, 1, M.toLogits.outLen]
                (startExtract (mapLastRows M.toLogits.outLen M.toLogits.fn att)))
                (reshapeT [b, L0 + padding, M.toLogits.outLen]
                  (sliceDim ([b, t] ++ M.maxSeqLen.drop 1).dropLast.length 1
                    (1 + ([b, t] ++ M.maxSeqLen.drop 1).getLastD 0)
                    (mapLastRows M.toLogits.outLen M.toLogits.fn att))))
              (buildTokens M (reshapeT ([b, t] ++ M.maxSeqLen.drop 1)
                (padLastRight padding M.padId ids3))).1)) := by
    intro rL
    simp only [forwardM]
    rw [hrec]
    dsimp only
    rw [if_neg (not_not_intro (Or.inl hndim))]
    rw [if_neg hne0]
    rw [if_pos hndim]
    rw [h3S]
    rw [show ([b, L0] : List ℕ).getD 0 0 = b from rfl,
      show ([b, L0] : List ℕ).getD (([b, L0] : List ℕ).length - 1) 0 = L0 from rfl,
      reduceMult_eq_prod]
    rw [← hpaddef]
    rw [← htdef]
    rw [if_neg (not_not_intro (show (List.drop 1 (reshapeT ([b, t] ++ M.maxSeqLen.drop 1)
        (padLastRight padding M.padId ids3)).shape).getD 0 0 ≤ M.maxSeqLen.getD 0 0
      from hts0))]
    rw [if_neg (not_not_intro (show List.drop 1 (List.drop 1 (reshapeT
        ([b, t] ++ M.maxSeqLen.drop 1) (padLastRight padding M.padId ids3)).shape)
        = M.maxSeqLen.drop 1 from rfl))]
    rw [hppeq, hst0, htk0, htr0, hpp0]
    rw [List.zip_cons_cons, List.zip_cons_cons, List.zip_cons_cons]
    rw [hml]
    dsimp only
    rw [if_pos (show ([b, L0] : List ℕ).length = 2 from rfl)]
    rw [hloglen, hlogget]
    rw [hfm]
    rw [hlg0, hll]
    rw [if_pos hcat2]
  refine ⟨sliceDim 1 0 L0 (reshapeT [b, L0 + padding, M.toLogits.outLen]
      (sliceDim ([b, t] ++ M.maxSeqLen.drop 1).dropLast.length 1
        (1 + ([b, t] ++ M.maxSeqLen.drop 1).getLastD 0)
        (mapLastRows M.toLogits.outLen M.toLogits.fn att))),
    catDim 1 (reshapeT [b, 1, M.toLogits.outLen]
        (startExtract (mapLastRows M.toLogits.outLen M.toLogits.fn att)))
      (reshapeT [b, L0 + padding, M.toLogits.outLen]
        (sliceDim ([b, t] ++ M.maxSeqLen.drop 1).dropLast.length 1
          (1 + ([b, t] ++ M.maxSeqLen.drop 1).getLastD 0)
          (mapLastRows M.toLogits.outLen M.toLogits.fn att))),
    computeLoss3 M
      (catDim 1 (reshapeT [b, 1, M.toLogits.outLen]
          (startExtract (mapLastRows M.toLogits.outLen M.toLogits.fn att)))
        (reshapeT [b, L0 + padding, M.toLogits.outLen]
          (sliceDim ([b, t] ++ M.maxSeqLen.drop 1).dropLast.length 1
            (1 + ([b, t] ++ M.maxSeqLen.drop 1).getLastD 0)
            (mapLastRows M.toLogits.outLen M.toLogits.fn att))))
      (buildTokens M (reshapeT ([b, t] ++ M.maxSeqLen.drop 1)
        (padLastRight padding M.padId ids3))).1,
    ?_, ?_, hfinS, hfin.2, ?_, hTc.2, ?_⟩
  · rw [hmain false]
    rw [if_pos (show ¬false = true by decide)]
  · rw [hmain true]
    rw [if_neg (show ¬¬true = true by decide)]
  · rw [hTc.1]
    rfl
  · intro bi j q hbi hj hq
    have hmin : min L0 (L0 + padding) - 0 = L0 := by omega
    have hVp : ([M.toLogits.outLen] : List ℕ).prod = M.toLogits.outLen := by simp
    have hse := sliceDim_entryE [b] (L0 + padding) [M.toLogits.outLen] hfmS hfmW 0 L0
      bi j q (by simpa using hbi) (by omega)
      (by simpa using hq) 0
    have hce := catDim_entry_rightE [b] 1 (L0 + padding) [M.toLogits.outLen]
      (reshapeT [b, 1, M.toLogits.outLen]
        (startExtract (mapLastRows M.toLogits.outLen M.toLogits.fn att)))
      (reshapeT [b, L0 + padding, M.toLogits.outLen]
        (sliceDim ([b, t] ++ M.maxSeqLen.drop 1).dropLast.length 1
          (1 + ([b, t] ++ M.maxSeqLen.drop 1).getLastD 0)
          (mapLastRows M.toLogits.outLen M.toLogits.fn att)))
      rfl rfl hstW hfmW
      bi j q (by simpa using hbi) (by omega) (by simpa using hq) 0
    unfold entry3
    rw [show (sliceDim 1 0 L0 (reshapeT [b, L0 + padding, M.toLogits.outLen]
        (sliceDim ([b, t] ++ M.maxSeqLen.drop 1).dropLast.length 1
          (1 + ([b, t] ++ M.maxSeqLen.drop 1).getLastD 0)
          (mapLastRows M.toLogits.outLen M.toLogits.fn att)))).shape.getD 1 0 = L0 by
      rw [hfinS]
      rfl]
    rw [show (sliceDim 1 0 L0 (reshapeT [b, L0 + padding, M.toLogits.outLen]
        (sliceDim ([b, t] ++ M.maxSeqLen.drop 1).dropLast.length 1
          (1 + ([b, t] ++ M.maxSeqLen.drop 1).getLastD 0)
          (mapLastRows M.toLogits.outLen M.toLogits.fn att)))).shape.getD 2 0
        = M.toLogits.outLen by rw [hfinS]; rfl]
    rw [show (catDim 1 (reshapeT [b, 1, M.toLogits.outLen]
        (startExtract (mapLastRows M.toLogits.outLen M.toLogits.fn att)))
        (reshapeT [b, L0 + padding, M.toLogits.outLen]
          (sliceDim ([b, t] ++ M.maxSeqLen.drop 1).dropLast.length 1
            (1 + ([b, t] ++ M.maxSeqLen.drop 1).getLastD 0)
            (mapLastRows M.toLogits.outLen M.toLogits.fn att)))).shape.getD 1 0
        = 1 + (L0 + padding) by rw [hTc.1]; rfl]
    rw [show (catDim 1 (reshapeT [b, 1, M.toLogits.outLen]
        (startExtract (mapLastRows M.toLogits.outLen M.toLogits.fn att)))
        (reshapeT [b, L0 + padding, M.toLogits.outLen]
          (sliceDim ([b, t] ++ M.maxSeqLen.drop 1).dropLast.length 1
            (1 + ([b, t] ++ M.maxSeqLen.drop 1).getLastD 0)
            (mapLastRows M.toLogits.outLen M.toLogits.fn att)))).shape.getD 2 0
        = M.toLogits.outLen by rw [hTc.1]; rfl]
    rw [show ([b] : List ℕ).length = 1 from rfl] at hse hce
    rw [hmin, hVp] at hse
    rw [hVp] at hce
    rw [show (bi * (1 + (L0 + padding)) + (j + 1)) * M.toLogits.outLen + q
        = (bi * (1 + (L0 + padding)) + (1 + j)) * M.toLogits.outLen + q by ring]
    rw [hse, hce]
    rw [show bi * (L0 + padding) + (0 + j) = bi * (L0 + padding) + j by ring]

theorem filter_eq_singleton_of_unique {α : Type} (p : α → Bool) (d : α) :
    ∀ (l : List α) (i0 : ℕ), i0 < l.length → p (l.getD i0 d) = true →
      (∀ i, i < l.length → i ≠ i0 → p (l.getD i d) = false) →
      l.filter p = [l.getD i0 d] := by
  intro l
  induction l with
  | nil =>
    intro i0 h
    simp at h
  | cons a l ih =>
    intro i0 h0 hp hq
    cases i0 with
    | zero =>
      simp only [List.getD_cons_zero] at hp ⊢
      rw [List.filter_cons_of_pos hp]
      rw [List.filter_eq_nil_iff.mpr ?hnil]
      case hnil =>
        intro x hx
        obtain ⟨i, hi, rfl⟩ := List.mem_iff_getElem.mp hx
        have := hq (i + 1) (by simp only [List.length_cons]; omega) (by omega)
        rw [List.getD_cons_succ] at this
        rw [List.getD_eq_getElem l d hi] at this
        simp [this]
    | succ i0' =>
      have hpa : p a = false := by
        have := hq 0 (by simp) (by omega)
        rw [List.getD_cons_zero] at this
        exact this
      rw [List.filter_cons_of_neg (by simp [hpa])]
      rw [List.getD_cons_succ]
      refine ih i0' (by simp only [List.length_cons] at h0; omega)
        (by rw [List.getD_cons_succ] at hp; exact hp) ?_
      intro i hi hne
      have := hq (i + 1) (by simp only [List.length_cons]; omega) (by omega)
      rw [List.getD_cons_succ] at this
      exact this

/-- C9: the cross-entropy of `forward` (lines 658-660) averages
`logsumexp(column) - column[target]` over the positions whose label differs
from the configured pad id; when exactly one label position is non-pad, the
loss equals the cross entropy of that single position's logit column and
label. -/
theorem c9_single_nonpad_ce (lse : List ℚ → ℚ) (input : T ℚ) (target : T ℤ)
    (pad : ℤ) {bN c n : ℕ} (hs : input.shape = [bN, c, n]) (hw : Wf input)
    (hst : target.shape = [bN, n]) (hwt : Wf target) (hn : n ≠ 0) (hc : c ≠ 0)
    {bi0 j0 : ℕ} (hbi0 : bi0 < bN) (hj0 : j0 < n)
    (hone : entry2 target bi0 j0 ≠ pad)
    (hrest : ∀ bi j, bi < bN → j < n → ¬(bi = bi0 ∧ j = j0) →
      entry2 target bi j = pad) :
    ceLoss lse input target pad
      = lse ((List.range c).map (fun k => entry3 input bi0 k j0))
        - ((List.range c).map (fun k => entry3 input bi0 k j0)).getD
            (entry2 target bi0 j0).toNat 0 := by
  have hcn : c * n ≠ 0 := Nat.mul_ne_zero hc hn
  have hg1 : input.shape.getD 1 0 = c := by rw [hs]; rfl
  have hg2 : input.shape.getD 2 0 = n := by rw [hs]; rfl
  have hgt : target.shape.getD 1 0 = n := by rw [hst]; rfl
  have hilen : input.data.length = bN * (c * n) := by
    rw [hw, hs]
    show bN * (c * (n * 1)) = bN * (c * n)
    ring
  have htlen : target.data.length = bN * n := by
    rw [hwt, hst]
    show bN * (n * 1) = bN * n
    ring
  have hmatlen : ((chunkList (c * n) input.data).map (chunkList n)).length = bN := by
    rw [List.length_map]
    exact length_chunkList hcn _ hilen
  have htglen : (chunkList n target.data).length = bN := length_chunkList hn _ htlen
  have hblklen : ∀ bi, bi < bN → ((chunkList (c * n) input.data).getD bi []).length
      = c * n := by
    intro bi hbi
    rw [chunkList_getD hcn, List.length_take, List.length_drop, hilen]
    have h1 : (bi + 1) * (c * n) ≤ bN * (c * n) := Nat.mul_le_mul_right _ (by omega)
    have h2 : (bi + 1) * (c * n) = bi * (c * n) + c * n := by ring
    omega
  have hcol : ∀ bi j, bi < bN → j < n →
      (chunkList n ((chunkList (c * n) input.data).getD bi [])).map
          (fun r => r.getD j 0)
        = (List.range c).map (fun k => entry3 input bi k j) := by
    intro bi j hbi hj
    have hrows : (chunkList n ((chunkList (c * n) input.data).getD bi [])).length = c :=
      length_chunkList hn _ (hblklen bi hbi)
    refine List.ext_getElem ?_ ?_
    · rw [List.length_map, List.length_map, List.length_range, hrows]
    · intro k h1 h2
      rw [List.length_map, hrows] at h1
      rw [List.getElem_map, List.getElem_map, List.getElem_range]
      rw [← List.getD_eq_getElem _ ([] : List ℚ) (by rw [hrows]; exact h1)]
      rw [chunkList_getD hn]
      rw [getD_take _ hj]
      rw [getD_drop]
      rw [chunkList_getD hcn]
      rw [getD_take _ (show k * n + j < c * n by
        calc k * n + j < k * n + n := by omega
          _ = (k + 1) * n := by ring
          _ ≤ c * n := Nat.mul_le_mul_right _ (by omega))]
      rw [getD_drop]
      unfold entry3
      rw [hg1, hg2]
      congr 1
      ring
  have htgD : ∀ bi j, bi < bN → j < n →
      ((chunkList n target.data).getD bi []).getD j 0 = entry2 target bi j := by
    intro bi j hbi hj
    rw [chunkList_getD hn]
    rw [getD_take _ hj]
    rw [getD_drop]
    unfold entry2
    rw [hgt]
  have hpair : ∀ bi j, bi < bN → j < n →
      ((((chunkList (c * n) input.data).map (chunkList n)).zip
          (chunkList n target.data)).flatMap (fun mt =>
        (List.range n).map (fun j => ((mt.1.map (fun r => r.getD j 0)),
          mt.2.getD j 0)))).getD (bi * n + j) ([], 0)
      = ((List.range c).map (fun k => entry3 input bi k j), entry2 target bi j) := by
    intro bi j hbi hj
    rw [List.flatMap_def]
    have huni : ∀ r ∈ ((((chunkList (c * n) input.data).map (chunkList n)).zip
        (chunkList n target.data)).map (fun mt =>
          (List.range n).map (fun j => ((mt.1.map (fun r => r.getD j 0)),
            mt.2.getD j 0)))), r.length = n := by
      intro r hr
      rcases List.mem_map.mp hr with ⟨mt, hmt, rfl⟩
      simp
    rw [getD_flatten_uniform _ _ huni bi j hj]
    rw [getD_map_of_lt _ (by rw [List.length_zip, hmatlen, htglen, Nat.min_self]; exact hbi)
      _ (([], []) : List (List ℚ) × List ℤ)]
    rw [show ((((chunkList (c * n) input.data).map (chunkList n)).zip
        (chunkList n target.data)) : List (List (List ℚ) × List ℤ))
      = List.zipWith Prod.mk (((chunkList (c * n) input.data).map (chunkList n)))
        (chunkList n target.data) from rfl]
    rw [getD_zipWith_of_lt Prod.mk (by rw [hmatlen]; exact hbi)
      (by rw [htglen]; exact hbi) (([], []) : List (List ℚ) × List ℤ) [] []]
    rw [getD_map_of_lt _ (by rw [List.length_range]; exact hj) _ 0]
    rw [show (List.range n).getD j 0 = j from by
      rw [List.getD_eq_getElem _ _ (by rw [List.length_range]; exact hj)]
      simp]
    rw [getD_map_of_lt (chunkList n)
      (by rw [length_chunkList hcn _ hilen]; exact hbi) _ []]
    rw [hcol bi j hbi hj, htgD bi j hbi hj]
  -- the filtered list keeps exactly the one non-pad position
  have hplen : (((((chunkList (c * n) input.data).map (chunkList n)).zip
      (chunkList n target.data)).flatMap (fun mt =>
        (List.range n).map (fun j => ((mt.1.map (fun r => r.getD j 0)),
          mt.2.getD j 0))))).length = bN * n := by
    rw [List.flatMap_def]
    rw [length_flatten_uniform _ n (by
      intro r hr
      rcases List.mem_map.mp hr with ⟨mt, hmt, rfl⟩
      simp)]
    rw [List.length_map, List.length_zip, hmatlen, htglen, Nat.min_self]
  have hfilter : (((((chunkList (c * n) input.data).map (chunkList n)).zip
      (chunkList n target.data)).flatMap (fun mt =>
        (List.range n).map (fun j => ((mt.1.map (fun r => r.getD j 0)),
          mt.2.getD j 0))))).filter (fun p => decide (p.2 ≠ pad))
      = [((List.range c).map (fun k => entry3 input bi0 k j0), entry2 target bi0 j0)] := by
    rw [← hpair bi0 j0 hbi0 hj0]
    refine filter_eq_singleton_of_unique _ ([], 0) _ (bi0 * n + j0)
      (by
        rw [hplen]
        calc bi0 * n + j0 < bi0 * n + n := by omega
          _ = (bi0 + 1) * n := by ring
          _ ≤ bN * n := Nat.mul_le_mul_right _ (by omega))
      (by
        rw [hpair bi0 j0 hbi0 hj0]
        simpa using hone)
      ?_
    intro i hi hne
    rw [hplen] at hi
    have hdec : i = (i / n) * n + i % n := by
      rw [Nat.mul_comm]
      exact (Nat.div_add_mod i n).symm
    have hjlt : i % n < n := Nat.mod_lt _ (Nat.pos_of_ne_zero hn)
    have hblt : i / n < bN := by
      by_contra hcon
      push_neg at hcon
      have : bN * n ≤ (i / n) * n := Nat.mul_le_mul_right _ hcon
      omega
    rw [hdec, hpair (i / n) (i % n) hblt hjlt]
    have : entry2 target (i / n) (i % n) = pad := by
      refine hrest _ _ hblt hjlt ?_
      rintro ⟨h1, h2⟩
      apply hne
      rw [← h1, ← h2]
      exact hdec
    simpa using this
  simp only [ceLoss]
  rw [hg1, hg2, hgt, hfilter]
  simp

theorem c9_single_nonpad_ce_witness :
    ceLoss (fun l => l.headD 0) ⟨[1, 2, 2], [5, 6, 7, 8]⟩ ⟨[1, 2], [-1, 1]⟩ (-1)
      = (fun l => l.headD 0)
          ((List.range 2).map (fun k => entry3 ⟨[1, 2, 2], [5, 6, 7, 8]⟩ 0 k 1))
        - ((List.range 2).map (fun k => entry3 ⟨[1, 2, 2], [5, 6, 7, 8]⟩ 0 k 1)).getD
            (entry2 ⟨[1, 2], [-1, 1]⟩ 0 1).toNat 0 :=
  @c9_single_nonpad_ce (fun l => l.headD 0) ⟨[1, 2, 2], [5, 6, 7, 8]⟩
    ⟨[1, 2], [-1, 1]⟩ (-1) 1 2 2 rfl rfl rfl rfl (by decide) (by decide) 0 1
    (by decide) (by decide) (by decide)
    (by
      intro bi j hbi hj hne
      have hb : bi = 0 := by omega
      subst hb
      have hj1 : j ≠ 1 := fun h => hne ⟨rfl, h⟩
      have hj2 : j = 0 := by omega
      subst hj2
      decide)

theorem c5M_ok : MBOk c5M := by
  refine ⟨by decide, rfl, rfl, rfl, rfl, by decide, by decide, fun _ => rfl, by decide,
    rfl, ?_, ?_, ?_, ?_, fun _ => rfl, by decide⟩
  · intro c hc
    rcases List.mem_singleton.mp hc with rfl
    exact ⟨fun _ => rfl, by decide, fun _ => rfl⟩
  · intro j hj
    have hj0 : j = 0 := Nat.lt_one_iff.mp hj
    subst hj0
    rfl
  · intro tr htr
    rcases List.mem_cons.mp htr with h | htr2
    · subst h
      exact fun u => ⟨rfl, fun hh => hh⟩
    · have h2 := List.mem_singleton.mp htr2
      subst h2
      exact fun u => ⟨rfl, fun hh => hh⟩
  · intro i hi
    have hi0 : i = 0 := Nat.lt_one_iff.mp hi
    subst hi0
    exact ⟨fun _ => rfl, rfl, by decide⟩

/-- C5: a flat `(batch, L)` input with `return_loss=False` yields logits of
shape `(batch, L, num_tokens)`, whether or not `L` is a multiple of
`reduce_mult(max_seq_len[1:])`: the silently added right padding is trimmed
from the returned logits and the call never errors. -/
theorem c5_flat_logits_shape (M : MBModel) (hok : MBOk M)
    (hvocab : M.toLogits.outLen = M.numTokens) {b L0 Tt : ℕ} {ids0 targets : T ℤ}
    (hi : ids0.shape = [b, L0]) (ht : targets.shape = [b, Tt]) (hwi : Wf ids0)
    (hwt : Wf targets) (hb : b ≠ 0) (hL : 1 ≤ L0) (hT : 1 ≤ Tt)
    (hmax : L0 ≤ M.maxSeqLen.getD 0 0 * (M.maxSeqLen.drop 1).prod) :
    ∃ lg, forwardM M ids0 targets false = .ok (.logitsOnly lg) ∧
      lg.shape = [b, L0, M.numTokens] ∧ Wf lg := by
  obtain ⟨lgF, _lgT, _loss, h1, _h2, h3, h4, _h5, _h6, _h7⟩ :=
    forward_flat_both M hok hi ht hwi hwt hb hL hT hmax
  exact ⟨lgF, h1, by rw [h3, hvocab], h4⟩

theorem c5_flat_logits_shape_witness :
    ∃ lg, forwardM c5M ⟨[1, 3], [5, 6, 7]⟩ ⟨[1, 3], [6, 7, 8]⟩ false
        = .ok (.logitsOnly lg) ∧ lg.shape = [1, 3, c5M.numTokens] ∧ Wf lg :=
  c5_flat_logits_shape c5M c5M_ok rfl rfl rfl rfl rfl (by decide) (by decide)
    (by decide) (by decide)

/-- C2 (amended): for every valid flat input, the start-token logit is
re-prepended as position 0 of the flattened logits only in the
`return_loss=True` path; the `return_loss=False` path drops the start
position instead, so its position `j` equals the loss path's position
`j + 1`. -/
theorem c2_amended_start_logit (M : MBModel) (hok : MBOk M) {b L0 Tt : ℕ}
    {ids0 targets : T ℤ} (hi : ids0.shape = [b, L0]) (ht : targets.shape = [b, Tt])
    (hwi : Wf ids0) (hwt : Wf targets) (hb : b ≠ 0) (hL : 1 ≤ L0) (hT : 1 ≤ Tt)
    (hmax : L0 ≤ M.maxSeqLen.getD 0 0 * (M.maxSeqLen.drop 1).prod) :
    ∃ lgF lgT loss,
      forwardM M ids0 targets false = .ok (.logitsOnly lgF) ∧
      forwardM M ids0 targets true = .ok (.withLoss lgT loss) ∧
      lgF.shape = [b, L0, M.toLogits.outLen] ∧
      lgT.shape = [b, 1 + (L0 + remainderToMult L0 (M.maxSeqLen.drop 1).prod),
        M.toLogits.outLen] ∧
      (∀ bi j q, bi < b → j < L0 → q < M.toLogits.outLen →
        entry3 lgF bi j q = entry3 lgT bi (j + 1) q) := by
  obtain ⟨lgF, lgT, loss, h1, h2, h3, _h4, h5, _h6, h7⟩ :=
    forward_flat_both M hok hi ht hwi hwt hb hL hT hmax
  exact ⟨lgF, lgT, loss, h1, h2, h3, h5, h7⟩

theorem c2_amended_start_logit_witness :
    ∃ lgF lgT loss,
      forwardM c5M ⟨[1, 2], [4, 5]⟩ ⟨[1, 2], [5, 6]⟩ false = .ok (.logitsOnly lgF) ∧
      forwardM c5M ⟨[1, 2], [4, 5]⟩ ⟨[1, 2], [5, 6]⟩ true = .ok (.withLoss lgT loss) ∧
      lgF.shape = [1, 2, c5M.toLogits.outLen] ∧
      lgT.shape = [1, 1 + (2 + remainderToMult 2 (c5M.maxSeqLen.drop 1).prod),
        c5M.toLogits.outLen] ∧
      (∀ bi j q, bi < 1 → j < 2 → q < c5M.toLogits.outLen →
        entry3 lgF bi j q = entry3 lgT bi (j + 1) q) :=
  c2_amended_start_logit c5M c5M_ok rfl rfl rfl rfl (by decide) (by decide)
    (by decide) (by decide)

/-- C2 (counterexample to the original claim): with the identity single-stage
model `c2M`, the loss-path logits re-prepend the start logit (value `100`)
at position 0, but the `return_loss=False` logits begin with the logit of
the first real position (value `7`), not the start logit, and keep only
`L` positions. -/
theorem c2_counterexample :
    ∃ lgF lgT loss,
      forwardM c2M ⟨[1, 3], [5, 7, 9]⟩ ⟨[1, 3], [7, 9, 11]⟩ false
        = .ok (.logitsOnly lgF) ∧
      forwardM c2M ⟨[1, 3], [5, 7, 9]⟩ ⟨[1, 3], [7, 9, 11]⟩ true
        = .ok (.withLoss lgT loss) ∧
      entry3 lgT 0 0 0 = 100 ∧ entry3 lgF 0 0 0 = 7 ∧ lgF.shape = [1, 3, 1] := by
  refine ⟨_, _, _, rfl, rfl, ?_, ?_, rfl⟩ <;> decide

/-- C8: contrary to the claim, a nested input whose first nested dimension
equals `max_seq_len[0]` exactly does not succeed: the pre-validation ids
transform concatenates along the LAST axis, so the `(1, 2, 2)` input reaches
the shape assertions as `(1, 1, 4)` and trips the non-first-dimension
assertion; a nested input with first dimension `max_seq_len[0] + 1` dies
earlier inside `torch.cat`; only the rank check (rank 4) and the flat
first-dimension overflow behave as claimed. -/
theorem c8_nested_validation :
    forwardM c8M ⟨[1, 2, 2], [0, 1, 2, 3]⟩ ⟨[1, 2, 2], [1, 2, 3, 4]⟩ true
        = .error .restDimsAssert ∧
    forwardM c8M ⟨[1, 3, 2], [0, 1, 2, 3, 4, 5]⟩ ⟨[1, 3, 2], [1, 2, 3, 4, 5, 6]⟩ true
        = .error .catError ∧
    forwardM c8M ⟨[1, 2, 2, 2], [0, 1, 2, 3, 4, 5, 6, 7]⟩
        ⟨[1, 2, 2, 2], [1, 2, 3, 4, 5, 6, 7, 8]⟩ true = .error .ndimAssert ∧
    forwardM c8M ⟨[1, 5], [0, 1, 2, 3, 4]⟩ ⟨[1, 5], [1, 2, 3, 4, 5]⟩ true
        = .error .firstDimAssert :=
  ⟨rfl, rfl, rfl, rfl⟩

end MegaByteSpec
